import Mathlib

/-!
# hoa2pg: from a parity automaton to a PGSolver parity game

A shallow embedding of `src/hoa2pg.c` (HOATOOLS) and a verification of its
specification.

Conventions of the embedding.

* A C array passed as pointer plus length is a `List`; the length argument
  (`noAliases`, `numAPs`, `noSucc`, `noAccSig`, `noStates`, ...) is the length
  of the list.  A pointer that may be `NULL` is an `Option`.
* `int` values are `Int`.  The arithmetic of `adjustPriority` is reduced to the
  32-bit two's complement range by `wrapInt`; the product `-1 * x` of
  `evalLabel` is taken on values between `-2` and `2` (`evalLabel_bounds`);
  the counter `nextIndex` of `main` is a `Nat`, and a step that would take it
  beyond `2147483647` ends the run with `Fault.undefinedBehaviour`.
  `unsigned` values are `Nat`, reduced modulo `2 ^ 32` where the source
  shifts or multiplies them.
* `evalLabel` follows alias references, so it need not terminate on a cyclic
  alias table.  It is given a fuel argument that bounds the recursion depth;
  `none` means that the fuel ran out.  A result does not change when the fuel
  grows (`evalLabel_mono`, `hoa2pg_mono`).
* `assert` is active (the source is compiled without `NDEBUG`); a failed
  assertion ends the run with `Fault.assertFailed`.
* The standard output is a `String`; `main` yields the text written and the
  fault, if any, that ended the run (`Outcome`).  The diagnostics that the
  source writes to the standard error are not modelled.
-/

namespace Hoa2pg

/-! ## Data model (declared in `simplehoa.h`) -/

/-- Modelled from the spec: the guard tree `BTree` is declared in `simplehoa.h`,
which is not among the sources.  The node kinds are the ones `evalLabel`
switches on: `NT_BOOL`, `NT_AND`, `NT_OR`, `NT_NOT`, `NT_AP`, `NT_ALIAS`;
`id` is the field `label->id` and `name` the field `label->alias` (a reserved
word here, hence `aliasRef` and `name`). -/
inductive BTree where
  | bool (id : Int)
  | and (left right : BTree)
  | or (left right : BTree)
  | not (left : BTree)
  | ap (id : Int)
  | aliasRef (name : String)
  deriving Repr, DecidableEq

/-- Modelled from the spec: an entry of the alias table (`Alias` in
`simplehoa.h`): the alias name (field `alias` in the source) and the guard
tree `labelExpr` it stands for. -/
structure Alias where
  name : String
  labelExpr : BTree
  deriving Repr, DecidableEq

/-! ## The formula evaluator -/

/-- The lookup loop of the `NT_ALIAS` case of `evalLabel`: the first entry of
the table whose name equals (`strcmp(...) == 0`) the requested one. -/
def lookupAlias : List Alias → String → Option BTree
  | [], _ => none
  | a :: rest, name => if a.name = name then some a.labelExpr else lookupAlias rest name

/-- The loop of the `NT_AP` case of `evalLabel`: walk over `apIds` with a mask
that starts at `1` and is shifted left (an `unsigned`, hence modulo `2 ^ 32`)
at every step; at the first entry equal to `id` answer `1` or `-1` according
to `(mask & value) == mask`; answer `0` when the list is exhausted. -/
def evalAP (id : Int) (value : Nat) : List Int → Nat → Int
  | [], _ => 0
  | a :: rest, mask =>
    if id = a then (if mask &&& value = mask then 1 else -1)
    else evalAP id value rest ((mask <<< 1) % 4294967296)

/-- The function `evalLabel` of `hoa2pg.c`: true is `1`, false is `-1`, unknown
is `0`; an alias that is not in the table falls out of the `switch` and gives
`-2`.  The first argument is the fuel, `none` is "out of fuel". -/
def evalLabel : Nat → BTree → List Alias → List Int → Nat → Option Int
  | 0, _, _, _, _ => none
  | fuel + 1, label, aliases, apIds, value =>
    match label with
    | .bool id => some (if id ≠ 0 then 1 else -1)
    | .and l r =>
      match evalLabel fuel l aliases apIds value, evalLabel fuel r aliases apIds value with
      | some left, some right =>
        some (if left = -1 ∨ right = -1 then -1 else if left = 0 ∨ right = 0 then 0 else 1)
      | _, _ => none
    | .or l r =>
      match evalLabel fuel l aliases apIds value, evalLabel fuel r aliases apIds value with
      | some left, some right =>
        some (if left = 1 ∨ right = 1 then 1 else if left = 0 ∨ right = 0 then 0 else -1)
      | _, _ => none
    | .not l =>
      match evalLabel fuel l aliases apIds value with
      | some left => some (-1 * left)
      | none => none
    | .ap id => some (evalAP id value apIds 1)
    | .aliasRef name =>
      match lookupAlias aliases name with
      | some e => evalLabel fuel e aliases apIds value
      | none => some (-2)

/-- A guard all of whose alias references resolve, through finitely many
expansions, in the alias table: the table is acyclic below the guard.  Every
guard over an acyclic table that contains the names it refers to is of this
kind (`resolves_of_acyclic`). -/
inductive Resolves (aliases : List Alias) : BTree → Prop where
  | bool (id : Int) : Resolves aliases (.bool id)
  | ap (id : Int) : Resolves aliases (.ap id)
  | and {l r : BTree} : Resolves aliases l → Resolves aliases r → Resolves aliases (.and l r)
  | or {l r : BTree} : Resolves aliases l → Resolves aliases r → Resolves aliases (.or l r)
  | not {l : BTree} : Resolves aliases l → Resolves aliases (.not l)
  | aliasRef {name : String} {e : BTree} :
      lookupAlias aliases name = some e → Resolves aliases e → Resolves aliases (.aliasRef name)

/-- The alias names that a guard refers to directly (without looking them up). -/
def aliasNames : BTree → List String
  | .bool _ => []
  | .and l r => aliasNames l ++ aliasNames r
  | .or l r => aliasNames l ++ aliasNames r
  | .not l => aliasNames l
  | .ap _ => []
  | .aliasRef name => [name]

/-- The alias table is acyclic and closed: the names can be ranked so that the
guard of an entry refers only to names of smaller rank, and every name an
entry refers to is itself in the table. -/
def AcyclicTable (aliases : List Alias) : Prop :=
  ∃ rank : String → Nat, ∀ name e, lookupAlias aliases name = some e →
    ∀ m ∈ aliasNames e, rank m < rank name ∧ lookupAlias aliases m ≠ none

/-- The truth-value flip of the specification: TRUE (1) and FALSE (-1) are
exchanged, UNKNOWN (0) stays. -/
def flip (r : Int) : Int :=
  if r = 1 then -1 else if r = -1 then 1 else 0

/-! ## The priority normalizer -/

/-- Reduction of an integer to the range of a 32-bit `int`. -/
def wrapInt (x : Int) : Int :=
  (x + 2147483648) % 4294967296 - 2147483648

/-- The function `adjustPriority` of `hoa2pg.c`.  The test `evenMax % 2 != 0`
has the same outcome for the truncating remainder of C and for `%` on `Int`. -/
def adjustPriority (p : Int) (isMaxParity : Bool) (resGoodPriority : Int)
    (noPriorities : Int) : Int :=
  let evenMax := if noPriorities % 2 ≠ 0 then wrapInt (noPriorities + 1) else noPriorities
  let pForMax := if isMaxParity then p else wrapInt (evenMax - p)
  let shifted := wrapInt (pForMax + wrapInt (2 - resGoodPriority))
  shifted

/-! ## The automaton and the game -/

/-- Modelled from the spec: a transition (`Transition` in `simplehoa.h`): an
optional guard `label`, an optional acceptance signature `accSig` (with
`noAccSig` entries) and the array `successors` (with `noSucc` entries). -/
structure Transition where
  label : Option BTree
  accSig : Option (List Int)
  successors : List Int
  deriving Repr, DecidableEq

/-- Modelled from the spec: a state (`State` in `simplehoa.h`): identifier,
optional name, optional state-level guard and acceptance signature, and the
array `transitions` (with `noTrans` entries). -/
structure State where
  id : Int
  name : Option String
  label : Option BTree
  accSig : Option (List Int)
  transitions : List Transition
  deriving Repr, DecidableEq

/-- Modelled from the spec: the fields of the parsed automaton (`HoaData` in
`simplehoa.h`) that `main` reads: the number of atomic propositions, the
controllable ones (`cntAPs`, with `noCntAPs` entries), the alias table, the
number of acceptance sets and the states (`noStates` entries). -/
structure HoaData where
  noAPs : Nat
  cntAPs : List Int
  aliases : List Alias
  noAccSets : Int
  states : List State
  deriving Repr, DecidableEq

/-- The record `PGSVertices` of `hoa2pg.c` without its `next` pointer; a linked
list of them is a `List PGSVertex`, an `IntList` is a `List Int`. -/
structure PGSVertex where
  id : Int
  owner : Int
  priority : Int
  name : Option String
  successors : List Int
  deriving Repr, DecidableEq

/-- The ways a run ends without a result: a failed `assert`; an operation
whose outcome C leaves open (an access outside an array, an `int` that
leaves its range); the fuel of `evalLabel` ran out. -/
inductive Fault where
  | assertFailed
  | undefinedBehaviour
  | outOfFuel
  deriving Repr, DecidableEq

/-- The lists `main` has built when it starts printing, with the final value
of the counter `nextIndex`.  The list `partVals` of the source is allocated
in advance; the field holds the records that were filled, which on a
successful run are all of them (`hoa2pg_partVals_filled`). -/
structure Game where
  nextIndex : Nat
  states : List PGSVertex
  partVals : List PGSVertex
  fullVals : List PGSVertex
  deriving Repr, DecidableEq

/-! ### Step 1 of `main`: the uncontrollable propositions -/

/-- The inner loop of step 1 for the proposition `i`, with `todo` iterations
left.  As in the source every iteration compares `i` with `cntAPs[i]` (the
index is `i`, not the loop variable `j`); reading past the end of `cntAPs`
is a fault. -/
def cntFound (cntAPs : List Int) (i : Nat) : Nat → Except Fault Bool
  | 0 => .ok false
  | todo + 1 =>
    match cntAPs[i]? with
    | none => .error .undefinedBehaviour
    | some c => if (i : Int) = c then .ok true else cntFound cntAPs i todo

/-- The outer loop of step 1, with `todo` propositions left, the next one being
`i`; `ucntAPs` holds the entries written so far (`apIdx` is its length) and
`numUcntAPs` is the size of the array. -/
def ucntLoop (cntAPs : List Int) (numUcntAPs : Nat) :
    Nat → Nat → List Int → Except Fault (List Int)
  | 0, _, ucntAPs => .ok ucntAPs
  | todo + 1, i, ucntAPs =>
    match cntFound cntAPs i cntAPs.length with
    | .error e => .error e
    | .ok true => ucntLoop cntAPs numUcntAPs todo (i + 1) ucntAPs
    | .ok false =>
      if ucntAPs.length < numUcntAPs then
        ucntLoop cntAPs numUcntAPs todo (i + 1) (ucntAPs ++ [(i : Int)])
      else .error .undefinedBehaviour

/-- Step 1 of `main`: the array `ucntAPs` of `numUcntAPs = noAPs - noCntAPs`
entries, filled by the two loops, and the final `assert(apIdx == numUcntAPs)`. -/
def computeUcntAPs (noAPs : Nat) (cntAPs : List Int) : Except Fault (List Int) :=
  if noAPs < cntAPs.length then .error .undefinedBehaviour
  else
    match ucntLoop cntAPs (noAPs - cntAPs.length) noAPs 0 [] with
    | .error e => .error e
    | .ok ucntAPs =>
      if ucntAPs.length = noAPs - cntAPs.length then .ok ucntAPs else .error .assertFailed

/-! ### Step 2 of `main`: the vertices -/

/-- The guard of lines 257-261: the one of the state if it has one, else the
one of the transition. -/
def effectiveLabel (state : State) (tr : Transition) : Option BTree :=
  match state.label with
  | some l => some l
  | none => tr.label

/-- The acceptance signature of lines 264-269: the one of the state if it has
one, else the one of the transition. -/
def effectiveAcc (state : State) (tr : Transition) : Option (List Int) :=
  match state.accSig with
  | some a => some a
  | none => tr.accSig

/-- The loop over the transitions of `state` for the valuation `value`
(lines 252-311).  The state of the loop is the counter `nextIndex`, the list
`fullVals` (a new vertex is linked after the last one) and the list
`validVals` (a new identifier is prepended); `tr` is the transition `trans`
of the source.  The three assertions are `noSucc == 1`, `label != NULL` and
`acc != NULL && noAcc == 1`; the increment of `nextIndex` must stay in the
range of `int`. -/
def transLoop (fuel : Nat) (data : HoaData) (isMaxParity : Bool) (resGoodPriority : Int)
    (ucntAPs : List Int) (state : State) (value : Nat) :
    List Transition → Nat → List PGSVertex → List Int →
      Except Fault (Nat × List PGSVertex × List Int)
  | [], nextIndex, fullVals, validVals => .ok (nextIndex, fullVals, validVals)
  | tr :: rest, nextIndex, fullVals, validVals =>
    match tr.successors with
    | [dest] =>
      match effectiveLabel state tr with
      | none => .error .assertFailed
      | some label =>
        match effectiveAcc state tr with
        | some [acc0] =>
          let priority := adjustPriority acc0 isMaxParity resGoodPriority data.noAccSets
          match evalLabel fuel label data.aliases ucntAPs value with
          | none => .error .outOfFuel
          | some evald =>
            if evald ≠ -1 then
              if 2147483647 ≤ nextIndex then .error .undefinedBehaviour
              else
                transLoop fuel data isMaxParity resGoodPriority ucntAPs state value rest
                  (nextIndex + 1)
                  (fullVals ++ [{ id := (nextIndex : Int), priority := priority, owner := 0,
                                  name := none, successors := [dest] }])
                  ((nextIndex : Int) :: validVals)
            else
              transLoop fuel data isMaxParity resGoodPriority ucntAPs state value rest
                nextIndex fullVals validVals
        | _ => .error .assertFailed
    | _ => .error .assertFailed

/-- The loop over the valuations of one state (lines 250-321), with `todo`
valuations left, the next one being `value`.  `partLeft` counts the records
of the preallocated list `partVals` that are not filled yet (`curPartVal` is
`NULL` when it is zero). -/
def valLoop (fuel : Nat) (data : HoaData) (isMaxParity : Bool) (resGoodPriority : Int)
    (ucntAPs : List Int) (state : State) (firstSucc : Nat) :
    Nat → Nat → Nat → Nat → List PGSVertex → List PGSVertex →
      Except Fault (Nat × Nat × List PGSVertex × List PGSVertex)
  | 0, _, nextIndex, partLeft, partVals, fullVals =>
    .ok (nextIndex, partLeft, partVals, fullVals)
  | todo + 1, value, nextIndex, partLeft, partVals, fullVals =>
    match transLoop fuel data isMaxParity resGoodPriority ucntAPs state value
        state.transitions nextIndex fullVals [] with
    | .error e => .error e
    | .ok (nextIndex1, fullVals1, validVals) =>
      if validVals = [] then .error .assertFailed
      else if partLeft = 0 then .error .assertFailed
      else
        valLoop fuel data isMaxParity resGoodPriority ucntAPs state firstSucc
          todo (value + 1) nextIndex1 (partLeft - 1)
          (partVals ++ [{ id := ((firstSucc + value : Nat) : Int), priority := 0, owner := 0,
                          name := none, successors := validVals }])
          fullVals1

/-- The loop of lines 328-329: the identifiers `succ`, `succ + 1`, ... (`todo`
of them) are prepended, one after the other, to the successor list. -/
def succLoop : Nat → Nat → List Int → List Int
  | 0, _, successors => successors
  | todo + 1, succ, successors => succLoop todo (succ + 1) ((succ : Int) :: successors)

/-- The loop over the states (lines 246-332). -/
def stateLoop (fuel : Nat) (data : HoaData) (isMaxParity : Bool) (resGoodPriority : Int)
    (ucntAPs : List Int) (numValuations : Nat) :
    List State → Nat → Nat → List PGSVertex → List PGSVertex → List PGSVertex →
      Except Fault Game
  | [], nextIndex, _, states, partVals, fullVals =>
    .ok { nextIndex := nextIndex, states := states, partVals := partVals,
          fullVals := fullVals }
  | state :: rest, nextIndex, partLeft, states, partVals, fullVals =>
    if 2147483647 < nextIndex + numValuations then .error .undefinedBehaviour
    else
      match valLoop fuel data isMaxParity resGoodPriority ucntAPs state nextIndex
          numValuations 0 (nextIndex + numValuations) partLeft partVals fullVals with
      | .error e => .error e
      | .ok (nextIndex1, partLeft1, partVals1, fullVals1) =>
        stateLoop fuel data isMaxParity resGoodPriority ucntAPs numValuations rest
          nextIndex1 partLeft1
          (states ++ [{ id := state.id, priority := 0, owner := 1,
                        successors := succLoop numValuations nextIndex [],
                        name := state.name }])
          partVals1 fullVals1

/-- Step 2 of `main` for a given array `ucntAPs`: `numValuations` is
`1 << numUcntAPs` (a fault when the shift leaves the range of `int`), the two
calls of `initPGSVertices` assert that their argument is positive, the second
argument being the `unsigned` product `noStates * numValuations`. -/
def buildGame (fuel : Nat) (data : HoaData) (isMaxParity : Bool) (resGoodPriority : Int)
    (ucntAPs : List Int) : Except Fault Game :=
  if 31 ≤ ucntAPs.length then .error .undefinedBehaviour
  else if data.states.length = 0 then .error .assertFailed
  else if (data.states.length * 2 ^ ucntAPs.length) % 4294967296 = 0 then .error .assertFailed
  else
    stateLoop fuel data isMaxParity resGoodPriority ucntAPs (2 ^ ucntAPs.length)
      data.states data.states.length
      ((data.states.length * 2 ^ ucntAPs.length) % 4294967296) [] [] []

/-- The function `main` of `hoa2pg.c` up to the point where it starts printing
(steps 1 and 2):
the parsed automaton `data` and the two outputs `isMaxParity` and
`resGoodPriority` of `isParityGFG` (both calls having returned `0`) are the
arguments. -/
def hoa2pg (fuel : Nat) (data : HoaData) (isMaxParity : Bool) (resGoodPriority : Int) :
    Except Fault Game :=
  match computeUcntAPs data.noAPs data.cntAPs with
  | .error e => .error e
  | .ok ucntAPs => buildGame fuel data isMaxParity resGoodPriority ucntAPs


/-! ### Step 3 of `main`: printing -/

/-- The conversion `%d` of `printf` applied to an `int`. -/
def printInt (i : Int) : String :=
  toString i

/-- The loop of lines 93-95 of `printPGSVertices`: `",%d"` for every successor
after the first. -/
def printSuccs : List Int → String
  | [] => ""
  | succ :: rest => "," ++ printInt succ ++ printSuccs rest

/-- The function `printPGSVertices`: the text it writes to the standard output
and, when `assert(v->successors != NULL)` fails on a record, the fault that
ends the run at that record. -/
def printPGSVertices : List PGSVertex → String × Option Fault
  | [] => ("", none)
  | v :: rest =>
    match v.successors with
    | [] => ("", some .assertFailed)
    | first :: more =>
      (printInt v.id ++ " " ++ printInt v.priority ++ " " ++ printInt v.owner ++ " "
          ++ printInt first ++ printSuccs more
          ++ (match v.name with
              | some name => " \"" ++ name ++ "\"\n"
              | none => " \"" ++ printInt v.id ++ "\"\n")
          ++ (printPGSVertices rest).1,
        (printPGSVertices rest).2)

/-- What a run of the program leaves behind: the text on the standard output
and the fault that ended it (`none` for `EXIT_SUCCESS`). -/
structure Outcome where
  stdout : String
  fault : Option Fault
  deriving Repr, DecidableEq

/-- The function `main` of `hoa2pg.c`, the two calls of the collaborators
having returned `0`: the construction (`hoa2pg`), which writes nothing to the
standard output, then the header and the three calls of `printPGSVertices`. -/
def main (fuel : Nat) (data : HoaData) (isMaxParity : Bool) (resGoodPriority : Int) :
    Outcome :=
  match hoa2pg fuel data isMaxParity resGoodPriority with
  | .error e => { stdout := "", fault := some e }
  | .ok G =>
    match printPGSVertices G.states with
    | (out1, some e) =>
      { stdout := "parity " ++ printInt ((G.nextIndex : Int) - 1) ++ ";\n" ++ out1,
        fault := some e }
    | (out1, none) =>
      match printPGSVertices G.partVals with
      | (out2, some e) =>
        { stdout := "parity " ++ printInt ((G.nextIndex : Int) - 1) ++ ";\n" ++ out1 ++ out2,
          fault := some e }
      | (out2, none) =>
        { stdout := "parity " ++ printInt ((G.nextIndex : Int) - 1) ++ ";\n" ++ out1 ++ out2
            ++ (printPGSVertices G.fullVals).1,
          fault := (printPGSVertices G.fullVals).2 }

/-- The line of a vertex in the words of the specification: identifier,
priority and owner separated by spaces, then the successor identifiers joined
by commas, then the quoted name, which is the explicit name if there is one
and the identifier otherwise. -/
def vertexLine (v : PGSVertex) : String :=
  toString v.id ++ " " ++ toString v.priority ++ " " ++ toString v.owner ++ " "
    ++ String.intercalate "," (v.successors.map toString)
    ++ " \"" ++ (match v.name with
                 | some name => name
                 | none => toString v.id) ++ "\"\n"

/-! ### Notions used to state the properties of the builder -/

/-- The test of line 286 for the transition `tr` of `state` under the valuation
`value`: the effective guard evaluates, and not to FALSE (-1). -/
def viable (fuel : Nat) (data : HoaData) (ucntAPs : List Int) (state : State) (value : Nat)
    (tr : Transition) : Bool :=
  match effectiveLabel state tr with
  | some label =>
    match evalLabel fuel label data.aliases ucntAPs value with
    | some evald => decide (evald ≠ -1)
    | none => false
  | none => false

/-- The priority computed at lines 273-274 for the transition `tr` of `state`
(`0` when the acceptance signature is not a single index, in which case the
run has already ended). -/
def effectivePriority (data : HoaData) (isMaxParity : Bool) (resGoodPriority : Int)
    (state : State) (tr : Transition) : Int :=
  match effectiveAcc state tr with
  | some [acc0] => adjustPriority acc0 isMaxParity resGoodPriority data.noAccSets
  | _ => 0

/-- The full-assignment vertex `x` is the one built at lines 301-306 for the
transition `tr` of `state`: owner 0, no name, the priority of line 273 and
the successors of the transition. -/
def FullFor (data : HoaData) (isMaxParity : Bool) (resGoodPriority : Int) (state : State)
    (tr : Transition) (x : PGSVertex) : Prop :=
  x.owner = 0 ∧ x.name = none ∧ x.successors = tr.successors ∧
    x.priority = effectivePriority data isMaxParity resGoodPriority state tr

/-- The record `pv` is the partial-assignment vertex of `state` for the
valuation `w`, `firstSucc` being the first identifier of the block of the
state and `fullVals` a list of full-assignment vertices: it has the identifier
`firstSucc + w`, owner 0, priority 0, no name, and there is a segment `new` of
`fullVals`, with consecutive increasing identifiers, whose vertices are, in
this order, the ones of the viable transitions of `state` under `w`, and the
successors of `pv` are the identifiers of `new` in reverse order. -/
def PartFor (fuel : Nat) (data : HoaData) (isMaxParity : Bool) (resGoodPriority : Int)
    (ucntAPs : List Int) (state : State) (firstSucc w : Nat) (fullVals : List PGSVertex)
    (pv : PGSVertex) : Prop :=
  pv.id = ((firstSucc + w : Nat) : Int) ∧ pv.owner = 0 ∧ pv.priority = 0 ∧ pv.name = none ∧
    pv.successors ≠ [] ∧
    ∃ (pre new post : List PGSVertex) (a : Nat),
      fullVals = pre ++ new ++ post ∧
      new.map (fun x => x.id) = (List.range' a new.length).map Nat.cast ∧
      List.Forall₂ (FullFor data isMaxParity resGoodPriority state)
        (state.transitions.filter (viable fuel data ucntAPs state w)) new ∧
      pv.successors = (new.map (fun x => x.id)).reverse

/-- The record `sv` is the state vertex of `state`, `partVals` and `fullVals`
being lists of partial- and full-assignment vertices: it has the identifier
and the name of the state, owner 1, priority 0, and there is a segment `block`
of `numValuations` records of `partVals`, with the consecutive increasing
identifiers `firstSucc`, `firstSucc + 1`, ..., each of them the partial vertex
of `state` for some valuation, and the successors of `sv` are the identifiers
of `block` in reverse order. -/
def StateFor (fuel : Nat) (data : HoaData) (isMaxParity : Bool) (resGoodPriority : Int)
    (ucntAPs : List Int) (numValuations : Nat) (state : State)
    (partVals fullVals : List PGSVertex) (sv : PGSVertex) : Prop :=
  sv.id = state.id ∧ sv.name = state.name ∧ sv.owner = 1 ∧ sv.priority = 0 ∧
    ∃ (firstSucc : Nat) (pre block post : List PGSVertex),
      partVals = pre ++ block ++ post ∧
      block.map (fun x => x.id) = (List.range' firstSucc numValuations).map Nat.cast ∧
      sv.successors = (block.map (fun x => x.id)).reverse ∧
      ∀ pv ∈ block, ∃ w, w < numValuations ∧
        PartFor fuel data isMaxParity resGoodPriority ucntAPs state firstSucc w fullVals pv

/-! ### Two-valued semantics of guards -/

/-- The ordinary two-valued evaluation of a guard under a total valuation `val`
of the atomic propositions, aliases being looked up as in `evalLabel`.  This
is the reading of the specification, not a function of the source; the first
argument is the fuel and `none` means that the fuel ran out or that an alias
is not in the table. -/
def evalBool : Nat → BTree → List Alias → (Int → Bool) → Option Bool
  | 0, _, _, _ => none
  | fuel + 1, label, aliases, val =>
    match label with
    | .bool id => some (decide (id ≠ 0))
    | .and l r =>
      match evalBool fuel l aliases val, evalBool fuel r aliases val with
      | some a, some b => some (a && b)
      | _, _ => none
    | .or l r =>
      match evalBool fuel l aliases val, evalBool fuel r aliases val with
      | some a, some b => some (a || b)
      | _, _ => none
    | .not l =>
      match evalBool fuel l aliases val with
      | some a => some (!a)
      | none => none
    | .ap id => some (val id)
    | .aliasRef name =>
      match lookupAlias aliases name with
      | some e => evalBool fuel e aliases val
      | none => none

/-- The total valuation `val` agrees with the assignment `value` on the
uncontrolled propositions `apIds`: the proposition at position `i` is true
exactly when bit `i` of `value` is set. -/
def Agrees (apIds : List Int) (value : Nat) (val : Int → Bool) : Prop :=
  ∀ (i : Nat) (h : i < apIds.length), val apIds[i] = value.testBit i

/-- The atomic proposition `a` occurs in the guard, directly or through the
aliases the guard refers to. -/
inductive OccursAP (aliases : List Alias) (a : Int) : BTree → Prop where
  | ap : OccursAP aliases a (.ap a)
  | andLeft {l r : BTree} : OccursAP aliases a l → OccursAP aliases a (.and l r)
  | andRight {l r : BTree} : OccursAP aliases a r → OccursAP aliases a (.and l r)
  | orLeft {l r : BTree} : OccursAP aliases a l → OccursAP aliases a (.or l r)
  | orRight {l r : BTree} : OccursAP aliases a r → OccursAP aliases a (.or l r)
  | not {l : BTree} : OccursAP aliases a l → OccursAP aliases a (.not l)
  | aliasRef {name : String} {e : BTree} :
      lookupAlias aliases name = some e → OccursAP aliases a e →
        OccursAP aliases a (.aliasRef name)

/-! ### Example automata -/

/-- A one-state automaton with a single self-loop guarded by the constant true,
acceptance index 0 and no atomic proposition. -/
def scenarioA : HoaData :=
  { noAPs := 0, cntAPs := [], aliases := [], noAccSets := 0,
    states := [⟨0, none, none, none, [⟨some (.bool 1), some [0], [0]⟩]⟩] }

/-- A two-state automaton over one uncontrollable proposition.  State 0 has
three transitions: guard `0` to state 0, guard `!0` to state 1 and guard true
to state 0; state 1 has a self-loop guarded by true. -/
def twoStates : HoaData :=
  { noAPs := 1, cntAPs := [], aliases := [], noAccSets := 1,
    states := [⟨0, some "s0", none, none,
                [⟨some (.ap 0), some [0], [0]⟩, ⟨some (.not (.ap 0)), some [1], [1]⟩,
                 ⟨some (.bool 1), some [1], [0]⟩]⟩,
               ⟨1, none, none, none, [⟨some (.bool 1), some [0], [1]⟩]⟩] }

/-- The vertices that `hoa2pg` builds from `twoStates` (max parity, even good). -/
def twoStatesGame : Game :=
  { nextIndex := 12,
    states := [⟨0, 1, 0, some "s0", [3, 2]⟩, ⟨1, 1, 0, none, [9, 8]⟩],
    partVals := [⟨2, 0, 0, none, [5, 4]⟩, ⟨3, 0, 0, none, [7, 6]⟩, ⟨8, 0, 0, none, [10]⟩,
                 ⟨9, 0, 0, none, [11]⟩],
    fullVals := [⟨4, 0, 3, none, [1]⟩, ⟨5, 0, 3, none, [0]⟩, ⟨6, 0, 2, none, [0]⟩,
                 ⟨7, 0, 3, none, [0]⟩, ⟨10, 0, 2, none, [1]⟩, ⟨11, 0, 2, none, [1]⟩] }

/-- The vertices that `hoa2pg` builds from `scenarioA` (max parity, odd good). -/
def scenarioAGame : Game :=
  { nextIndex := 3,
    states := [⟨0, 1, 0, none, [1]⟩],
    partVals := [⟨1, 0, 0, none, [2]⟩],
    fullVals := [⟨2, 0, 1, none, [0]⟩] }

/-- A two-state automaton over one uncontrollable proposition; each state has
two transitions, the first guarded by the proposition and leading to state 0,
the second guarded by its negation and leading to state 1. -/
def scenarioB : HoaData :=
  { noAPs := 1, cntAPs := [], aliases := [], noAccSets := 1,
    states := [⟨0, none, none, none,
                [⟨some (.ap 0), some [0], [0]⟩, ⟨some (.not (.ap 0)), some [1], [1]⟩]⟩,
               ⟨1, none, none, none,
                [⟨some (.ap 0), some [0], [0]⟩, ⟨some (.not (.ap 0)), some [1], [1]⟩]⟩] }

/-- The vertices that `hoa2pg` builds from `scenarioB` (max parity, even good). -/
def scenarioBGame : Game :=
  { nextIndex := 10,
    states := [⟨0, 1, 0, none, [3, 2]⟩, ⟨1, 1, 0, none, [7, 6]⟩],
    partVals := [⟨2, 0, 0, none, [4]⟩, ⟨3, 0, 0, none, [5]⟩, ⟨6, 0, 0, none, [8]⟩,
                 ⟨7, 0, 0, none, [9]⟩],
    fullVals := [⟨4, 0, 3, none, [1]⟩, ⟨5, 0, 2, none, [0]⟩, ⟨8, 0, 3, none, [1]⟩,
                 ⟨9, 0, 2, none, [0]⟩] }

/-- A one-state automaton without atomic propositions and with an empty alias
table, whose single self-loop is guarded by the alias `a`. -/
def danglingAlias : HoaData :=
  { noAPs := 0, cntAPs := [], aliases := [], noAccSets := 0,
    states := [⟨0, none, none, none, [⟨some (.aliasRef "a"), some [0], [0]⟩]⟩] }

/-- A one-state automaton whose single transition has two successors. -/
def twoSuccessors : HoaData :=
  { noAPs := 0, cntAPs := [], aliases := [], noAccSets := 0,
    states := [⟨0, none, none, none, [⟨some (.bool 1), some [0], [0, 0]⟩]⟩] }

/-- A two-state automaton whose only proposition is controllable.  State 0
carries a state-level guard (the proposition, UNKNOWN under every assignment)
and a state-level acceptance signature, which take precedence over the guard
FALSE and the signature of its first transition and stand in for the missing
ones of its second; state 1 has none, and its transitions are guarded by the
negated proposition (UNKNOWN) and by FALSE. -/
def stateGuard : HoaData :=
  { noAPs := 1, cntAPs := [0], aliases := [], noAccSets := 1,
    states := [⟨0, none, some (.ap 0), some [1],
                [⟨some (.bool 0), some [0], [1]⟩, ⟨none, none, [0]⟩]⟩,
               ⟨1, none, none, none,
                [⟨some (.not (.ap 0)), some [0], [1]⟩, ⟨some (.bool 0), some [1], [0]⟩]⟩] }

/-- The vertices that `hoa2pg` builds from `stateGuard` (max parity, even good). -/
def stateGuardGame : Game :=
  { nextIndex := 7,
    states := [⟨0, 1, 0, none, [2]⟩, ⟨1, 1, 0, none, [5]⟩],
    partVals := [⟨2, 0, 0, none, [4, 3]⟩, ⟨5, 0, 0, none, [6]⟩],
    fullVals := [⟨3, 0, 3, none, [1]⟩, ⟨4, 0, 3, none, [0]⟩, ⟨6, 0, 2, none, [1]⟩] }

/-- A one-state automaton without atomic propositions whose single self-loop,
guarded by true, has the acceptance index 0, with `noAccSets = 2 ^ 31 - 3`. -/
def bigAcc : HoaData :=
  { noAPs := 0, cntAPs := [], aliases := [], noAccSets := 2147483645,
    states := [⟨0, none, none, none, [⟨some (.bool 1), some [0], [0]⟩]⟩] }

/-- The vertices that `hoa2pg` builds from `bigAcc` (min parity, even good). -/
def bigAccGame : Game :=
  { nextIndex := 3,
    states := [⟨0, 1, 0, none, [1]⟩],
    partVals := [⟨1, 0, 0, none, [2]⟩],
    fullVals := [⟨2, 0, -2147483648, none, [0]⟩] }

/-! ## Properties of the formula evaluator -/

theorem evalLabel_mono (aliases : List Alias) (apIds : List Int) (value : Nat) :
    ∀ (n : Nat) (x : BTree) (r : Int), evalLabel n x aliases apIds value = some r →
      ∀ m, n ≤ m → evalLabel m x aliases apIds value = some r := by
  intro n
  induction n with
  | zero => intro x r h; simp [evalLabel] at h
  | succ n ih =>
    intro x r h m hm
    obtain ⟨k, rfl⟩ : ∃ k, m = k + 1 := ⟨m - 1, by omega⟩
    have hk : n ≤ k := by omega
    cases x with
    | bool id => simpa [evalLabel] using h
    | ap id => simpa [evalLabel] using h
    | and l r' =>
      simp only [evalLabel] at h ⊢
      cases hl : evalLabel n l aliases apIds value with
      | none => simp [hl] at h
      | some vl =>
        cases hr : evalLabel n r' aliases apIds value with
        | none => simp [hl, hr] at h
        | some vr =>
          rw [ih l vl hl k hk, ih r' vr hr k hk]
          simpa [hl, hr] using h
    | or l r' =>
      simp only [evalLabel] at h ⊢
      cases hl : evalLabel n l aliases apIds value with
      | none => simp [hl] at h
      | some vl =>
        cases hr : evalLabel n r' aliases apIds value with
        | none => simp [hl, hr] at h
        | some vr =>
          rw [ih l vl hl k hk, ih r' vr hr k hk]
          simpa [hl, hr] using h
    | not l =>
      simp only [evalLabel] at h ⊢
      cases hl : evalLabel n l aliases apIds value with
      | none => simp [hl] at h
      | some vl =>
        rw [ih l vl hl k hk]
        simpa [hl] using h
    | aliasRef name =>
      simp only [evalLabel] at h ⊢
      cases hlk : lookupAlias aliases name with
      | none => simpa [hlk] using h
      | some e =>
        simp only [hlk] at h ⊢
        exact ih e r h k hk

theorem evalAP_range (id : Int) (value : Nat) :
    ∀ (apIds : List Int) (mask : Nat),
      evalAP id value apIds mask = 1 ∨ evalAP id value apIds mask = -1 ∨
        evalAP id value apIds mask = 0 := by
  intro apIds
  induction apIds with
  | nil => intro mask; simp [evalAP]
  | cons a rest ih =>
    intro mask
    simp only [evalAP]
    split
    · split <;> simp
    · exact ih _

theorem evalLabel_bounds (aliases : List Alias) (apIds : List Int) (value : Nat) :
    ∀ (n : Nat) (x : BTree) (r : Int), evalLabel n x aliases apIds value = some r →
      -2 ≤ r ∧ r ≤ 2 := by
  intro n
  induction n with
  | zero => intro x r h; simp [evalLabel] at h
  | succ n ih =>
    intro x r h
    cases x with
    | bool id =>
      simp only [evalLabel, Option.some.injEq] at h
      subst h
      split <;> omega
    | ap id =>
      simp only [evalLabel, Option.some.injEq] at h
      subst h
      rcases evalAP_range id value apIds 1 with h1 | h1 | h1 <;> rw [h1] <;> omega
    | and l r1 =>
      simp only [evalLabel] at h
      split at h
      · simp only [Option.some.injEq] at h
        subst h
        split
        · omega
        · split <;> omega
      · simp at h
    | or l r1 =>
      simp only [evalLabel] at h
      split at h
      · simp only [Option.some.injEq] at h
        subst h
        split
        · omega
        · split <;> omega
      · simp at h
    | not l =>
      simp only [evalLabel] at h
      split at h
      · rename_i left hl
        simp only [Option.some.injEq] at h
        subst h
        have := ih l left hl
        omega
      · simp at h
    | aliasRef name =>
      simp only [evalLabel] at h
      split at h
      · exact ih _ r h
      · simp only [Option.some.injEq] at h
        subst h
        omega

theorem resolves_evaluates {aliases : List Alias} (apIds : List Int) (value : Nat)
    {x : BTree} (hx : Resolves aliases x) :
    ∃ (N : Nat) (r : Int), evalLabel N x aliases apIds value = some r ∧
      (r = 1 ∨ r = -1 ∨ r = 0) := by
  induction hx with
  | bool id =>
    refine ⟨1, if id ≠ 0 then 1 else -1, by simp [evalLabel], ?_⟩
    split <;> simp
  | ap id => exact ⟨1, _, by simp [evalLabel], evalAP_range id value apIds 1⟩
  | @and l r _ _ ihl ihr =>
    obtain ⟨nl, vl, hl, hvl⟩ := ihl
    obtain ⟨nr, vr, hr, hvr⟩ := ihr
    have hl2 := evalLabel_mono aliases apIds value nl l vl hl (max nl nr) (le_max_left _ _)
    have hr2 := evalLabel_mono aliases apIds value nr r vr hr (max nl nr) (le_max_right _ _)
    refine ⟨max nl nr + 1, _, by simp only [evalLabel, hl2, hr2]; rfl, ?_⟩
    split
    · simp
    · split <;> simp
  | @or l r _ _ ihl ihr =>
    obtain ⟨nl, vl, hl, hvl⟩ := ihl
    obtain ⟨nr, vr, hr, hvr⟩ := ihr
    have hl2 := evalLabel_mono aliases apIds value nl l vl hl (max nl nr) (le_max_left _ _)
    have hr2 := evalLabel_mono aliases apIds value nr r vr hr (max nl nr) (le_max_right _ _)
    refine ⟨max nl nr + 1, _, by simp only [evalLabel, hl2, hr2]; rfl, ?_⟩
    split
    · simp
    · split <;> simp
  | @not l _ ih =>
    obtain ⟨n, v, h, hv⟩ := ih
    refine ⟨n + 1, -1 * v, by simp only [evalLabel, h], ?_⟩
    omega
  | @aliasRef name e hlk _ ih =>
    obtain ⟨n, v, h, hv⟩ := ih
    exact ⟨n + 1, v, by simp only [evalLabel, hlk, h], hv⟩

theorem resolves_of_names (aliases : List Alias) :
    ∀ x : BTree, (∀ m ∈ aliasNames x, Resolves aliases (.aliasRef m)) → Resolves aliases x := by
  intro x
  induction x with
  | bool id => intro _; exact .bool id
  | ap id => intro _; exact .ap id
  | and l r ihl ihr =>
    intro h
    exact .and (ihl fun m hm => h m (by simp [aliasNames, hm]))
      (ihr fun m hm => h m (by simp [aliasNames, hm]))
  | or l r ihl ihr =>
    intro h
    exact .or (ihl fun m hm => h m (by simp [aliasNames, hm]))
      (ihr fun m hm => h m (by simp [aliasNames, hm]))
  | not l ih =>
    intro h
    exact .not (ih fun m hm => h m (by simpa [aliasNames] using hm))
  | aliasRef name =>
    intro h
    exact h name (by simp [aliasNames])

theorem resolves_of_acyclic (aliases : List Alias) (hacyc : AcyclicTable aliases)
    (x : BTree) (hx : ∀ m ∈ aliasNames x, lookupAlias aliases m ≠ none) :
    Resolves aliases x := by
  obtain ⟨rank, hrank⟩ := hacyc
  have key : ∀ (n : Nat) (name : String), rank name < n → lookupAlias aliases name ≠ none →
      Resolves aliases (.aliasRef name) := by
    intro n
    induction n with
    | zero => intro name h; omega
    | succ n ih =>
      intro name hlt hne
      cases hlk : lookupAlias aliases name with
      | none => exact absurd hlk hne
      | some e =>
        refine .aliasRef hlk (resolves_of_names aliases e ?_)
        intro m hm
        obtain ⟨h1, h2⟩ := hrank name e hlk m hm
        exact ih m (by omega) h2
  exact resolves_of_names aliases x fun m hm => key (rank m + 1) m (by omega) (hx m hm)

/-- C1: on a guard whose alias references all resolve (acyclic table),
`evalLabel` returns, for every assignment and with enough fuel, one value that
is TRUE (1), FALSE (-1) or UNKNOWN (0), and on the negated guard it returns
the flipped value. -/
theorem evalLabel_total_flip (aliases : List Alias) (apIds : List Int) (value : Nat)
    (x : BTree) (hx : Resolves aliases x) :
    ∃ r : Int, (r = 1 ∨ r = -1 ∨ r = 0) ∧
      ∃ N : Nat, ∀ fuel, N ≤ fuel →
        evalLabel fuel x aliases apIds value = some r ∧
        evalLabel fuel (.not x) aliases apIds value = some (flip r) := by
  obtain ⟨n, r, h, hr⟩ := resolves_evaluates apIds value hx
  refine ⟨r, hr, n + 1, fun fuel hfuel => ?_⟩
  obtain ⟨k, rfl⟩ : ∃ k, fuel = k + 1 := ⟨fuel - 1, by omega⟩
  have hk := evalLabel_mono aliases apIds value n x r h k (by omega)
  refine ⟨evalLabel_mono aliases apIds value n x r h (k + 1) (by omega), ?_⟩
  simp only [evalLabel, hk, flip]
  rcases hr with rfl | rfl | rfl <;> simp

theorem evalLabel_total_flip_witness :
    ∃ r : Int, (r = 1 ∨ r = -1 ∨ r = 0) ∧
      ∃ N : Nat, ∀ fuel, N ≤ fuel →
        evalLabel fuel (.and (.aliasRef "a") (.or (.ap 7) (.bool 0)))
          [⟨"a", .not (.ap 3)⟩] [3, 5] 2 = some r ∧
        evalLabel fuel (.not (.and (.aliasRef "a") (.or (.ap 7) (.bool 0))))
          [⟨"a", .not (.ap 3)⟩] [3, 5] 2 = some (flip r) :=
  evalLabel_total_flip [⟨"a", .not (.ap 3)⟩] [3, 5] 2
    (.and (.aliasRef "a") (.or (.ap 7) (.bool 0)))
    (.and (.aliasRef (by decide) (.not (.ap 3))) (.or (.ap 7) (.bool 0)))


/-- C2: for two guards whose alias references resolve, `evalLabel` on their
conjunction and disjunction follows the strong three-valued tables: the
conjunction is FALSE iff a side is FALSE, otherwise UNKNOWN iff a side is
UNKNOWN, otherwise TRUE; dually for the disjunction. -/
theorem evalLabel_and_or_tables (aliases : List Alias) (apIds : List Int) (value : Nat)
    (a b : BTree) (ha : Resolves aliases a) (hb : Resolves aliases b) :
    ∃ (l r va vo : Int) (N : Nat),
      (∀ fuel, N ≤ fuel →
        evalLabel fuel a aliases apIds value = some l ∧
        evalLabel fuel b aliases apIds value = some r ∧
        evalLabel fuel (.and a b) aliases apIds value = some va ∧
        evalLabel fuel (.or a b) aliases apIds value = some vo) ∧
      (va = -1 ↔ (l = -1 ∨ r = -1)) ∧
      (va = 0 ↔ (¬ (l = -1 ∨ r = -1) ∧ (l = 0 ∨ r = 0))) ∧
      (va = 1 ↔ (¬ (l = -1 ∨ r = -1) ∧ ¬ (l = 0 ∨ r = 0))) ∧
      (vo = 1 ↔ (l = 1 ∨ r = 1)) ∧
      (vo = 0 ↔ (¬ (l = 1 ∨ r = 1) ∧ (l = 0 ∨ r = 0))) ∧
      (vo = -1 ↔ (¬ (l = 1 ∨ r = 1) ∧ ¬ (l = 0 ∨ r = 0))) := by
  obtain ⟨na, l, hl, -⟩ := resolves_evaluates apIds value ha
  obtain ⟨nb, r, hr, -⟩ := resolves_evaluates apIds value hb
  refine ⟨l, r, if l = -1 ∨ r = -1 then -1 else if l = 0 ∨ r = 0 then 0 else 1,
    if l = 1 ∨ r = 1 then 1 else if l = 0 ∨ r = 0 then 0 else -1, max na nb + 1, ?_, ?_⟩
  · intro fuel hfuel
    obtain ⟨k, rfl⟩ : ∃ k, fuel = k + 1 := ⟨fuel - 1, by omega⟩
    have hka : na ≤ k := by have := le_max_left na nb; omega
    have hkb : nb ≤ k := by have := le_max_right na nb; omega
    have hl1 := evalLabel_mono aliases apIds value na a l hl k hka
    have hr1 := evalLabel_mono aliases apIds value nb b r hr k hkb
    refine ⟨evalLabel_mono aliases apIds value na a l hl (k + 1) (by omega),
      evalLabel_mono aliases apIds value nb b r hr (k + 1) (by omega), ?_, ?_⟩
    · simp only [evalLabel, hl1, hr1]
    · simp only [evalLabel, hl1, hr1]
  · by_cases h1 : l = -1 ∨ r = -1 <;> by_cases h2 : l = 0 ∨ r = 0 <;>
      by_cases h3 : l = 1 ∨ r = 1 <;> simp [h1, h2, h3]

theorem evalLabel_and_or_tables_witness :
    ∃ (l r va vo : Int) (N : Nat),
      (∀ fuel, N ≤ fuel →
        evalLabel fuel (.ap 3) [] [3, 5] 1 = some l ∧
        evalLabel fuel (.ap 4) [] [3, 5] 1 = some r ∧
        evalLabel fuel (.and (.ap 3) (.ap 4)) [] [3, 5] 1 = some va ∧
        evalLabel fuel (.or (.ap 3) (.ap 4)) [] [3, 5] 1 = some vo) ∧
      (va = -1 ↔ (l = -1 ∨ r = -1)) ∧
      (va = 0 ↔ (¬ (l = -1 ∨ r = -1) ∧ (l = 0 ∨ r = 0))) ∧
      (va = 1 ↔ (¬ (l = -1 ∨ r = -1) ∧ ¬ (l = 0 ∨ r = 0))) ∧
      (vo = 1 ↔ (l = 1 ∨ r = 1)) ∧
      (vo = 0 ↔ (¬ (l = 1 ∨ r = 1) ∧ (l = 0 ∨ r = 0))) ∧
      (vo = -1 ↔ (¬ (l = 1 ∨ r = 1) ∧ ¬ (l = 0 ∨ r = 0))) :=
  evalLabel_and_or_tables [] [3, 5] 1 (.ap 3) (.ap 4) (.ap 3) (.ap 4)

theorem and_two_pow_eq_iff (value i : Nat) :
    2 ^ i &&& value = 2 ^ i ↔ value.testBit i = true := by
  constructor
  · intro h
    have h1 : (2 ^ i &&& value).testBit i = true := by rw [h]; exact Nat.testBit_two_pow_self
    simpa [Nat.testBit_and, Nat.testBit_two_pow_self] using h1
  · intro h
    apply Nat.eq_of_testBit_eq
    intro j
    rw [Nat.testBit_and, Nat.testBit_two_pow]
    by_cases hij : i = j
    · subst hij; simp [h]
    · simp [hij]

theorem evalAP_not_mem (id : Int) (value : Nat) :
    ∀ (apIds : List Int) (mask : Nat), id ∉ apIds → evalAP id value apIds mask = 0 := by
  intro apIds
  induction apIds with
  | nil => intro mask _; simp [evalAP]
  | cons a rest ih =>
    intro mask h
    simp only [List.mem_cons, not_or] at h
    simp only [evalAP, if_neg h.1]
    exact ih _ h.2

theorem evalAP_at (id : Int) (value : Nat) :
    ∀ (apIds : List Int) (j i : Nat) (hi : i < apIds.length),
      apIds[i] = id → (∀ k (hk : k < apIds.length), k < i → apIds[k] ≠ id) →
      evalAP id value apIds (2 ^ j % 4294967296) =
        if (2 ^ (j + i) % 4294967296) &&& value = 2 ^ (j + i) % 4294967296 then 1 else -1 := by
  intro apIds
  induction apIds with
  | nil => intro j i hi; simp at hi
  | cons a rest ih =>
    intro j i hi hid hfirst
    cases i with
    | zero =>
      simp only [List.getElem_cons_zero] at hid
      simp [evalAP, hid]
    | succ i =>
      have hne : id ≠ a := by
        have := hfirst 0 (by simp) (by omega)
        simpa [eq_comm] using this
      simp only [List.getElem_cons_succ] at hid
      simp only [evalAP, if_neg hne]
      have hmask : (2 ^ j % 4294967296) <<< 1 % 4294967296 = 2 ^ (j + 1) % 4294967296 := by
        rw [Nat.shiftLeft_eq, pow_succ]
        omega
      rw [hmask, ih (j + 1) i (by simpa using hi) hid]
      · have : j + 1 + i = j + (i + 1) := by omega
        rw [this]
      · intro k hk hki
        have := hfirst (k + 1) (by simpa using hk) (by omega)
        simpa using this

/-- C3: on an atomic proposition `a`, with pairwise distinct uncontrolled
identifiers `apIds` (fewer than 32): if `a` is the entry at position `i`,
`evalLabel` returns TRUE (1) when bit `i` of the assignment is set and FALSE
(-1) when it is clear; if `a` is not in the list, it returns UNKNOWN (0). -/
theorem evalLabel_ap (fuel : Nat) (aliases : List Alias) (apIds : List Int) (value : Nat)
    (a : Int) (hnd : apIds.Nodup) (hlen : apIds.length < 32) :
    (∀ (i : Nat) (hi : i < apIds.length), apIds[i] = a →
      evalLabel (fuel + 1) (.ap a) aliases apIds value =
        some (if value.testBit i = true then 1 else -1)) ∧
    (a ∉ apIds → evalLabel (fuel + 1) (.ap a) aliases apIds value = some 0) := by
  constructor
  · intro i hi hia
    have hfirst : ∀ k (hk : k < apIds.length), k < i → apIds[k] ≠ a := by
      intro k hk hki hka
      have heq : apIds[k] = apIds[i] := hka.trans hia.symm
      have := (List.Nodup.getElem_inj_iff hnd).1 heq
      omega
    have h := evalAP_at a value apIds 0 i hi hia hfirst
    have hpow : 2 ^ (0 + i) % 4294967296 = 2 ^ i := by
      rw [Nat.zero_add]
      apply Nat.mod_eq_of_lt
      calc 2 ^ i < 2 ^ 32 := Nat.pow_lt_pow_right (by norm_num) (by omega)
        _ = 4294967296 := by norm_num
    rw [hpow] at h
    simp only [evalLabel]
    have h1 : (2 : Nat) ^ 0 % 4294967296 = 1 := by norm_num
    rw [h1] at h
    rw [h]
    by_cases hb : value.testBit i = true
    · rw [if_pos ((and_two_pow_eq_iff value i).2 hb), if_pos hb]
    · rw [if_neg (fun hc => hb ((and_two_pow_eq_iff value i).1 hc)), if_neg hb]
  · intro hmem
    simp only [evalLabel, evalAP_not_mem a value apIds 1 hmem]

theorem evalLabel_ap_witness :
    (∀ (i : Nat) (hi : i < [3, 5, 9].length), [3, 5, 9][i] = (5 : Int) →
      evalLabel (0 + 1) (.ap 5) [] [3, 5, 9] 6 =
        some (if (6 : Nat).testBit i = true then 1 else -1)) ∧
    ((5 : Int) ∉ [3, 5, 9] → evalLabel (0 + 1) (.ap 5) [] [3, 5, 9] 6 = some 0) :=
  evalLabel_ap 0 [] [3, 5, 9] 6 5 (by decide) (by decide)

/-! ## Properties of the priority normalizer -/

/-- C4, counterexample: the raw priority 1 of a max-parity, even-good objective
with maximal index 1 is sent to 3, which is odd. -/
theorem adjustPriority_odd_result :
    (0 : Int) ≤ 1 ∧ (1 : Int) ≤ 1 ∧ adjustPriority 1 true 0 1 = 3 ∧
      ¬ (adjustPriority 1 true 0 1 % 2 = 0) := by
  decide

/-- C4, amended: for both conventions, every maximal index up to `2 ^ 31 - 4`
(so that the 32-bit arithmetic does not overflow) and every raw priority in
`[0, maxAcceptanceIndex]`, the result of `adjustPriority` is strictly positive,
and it is even exactly when the raw priority has the good parity. -/
theorem adjustPriority_pos_even_iff (p : Int) (isMaxParity : Bool) (resGoodPriority : Int)
    (noPriorities : Int) (hg : resGoodPriority = 0 ∨ resGoodPriority = 1)
    (hp : 0 ≤ p) (hpn : p ≤ noPriorities) (hn : noPriorities ≤ 2147483644) :
    0 < adjustPriority p isMaxParity resGoodPriority noPriorities ∧
      (adjustPriority p isMaxParity resGoodPriority noPriorities % 2 = 0 ↔
        p % 2 = resGoodPriority) := by
  unfold adjustPriority wrapInt
  cases isMaxParity <;> rcases hg with rfl | rfl <;>
    by_cases hodd : noPriorities % 2 ≠ 0 <;> simp only [hodd, if_true, if_false] <;>
    simp <;> omega

theorem adjustPriority_pos_even_iff_witness :
    0 < adjustPriority 2 false 1 3 ∧ (adjustPriority 2 false 1 3 % 2 = 0 ↔ (2 : Int) % 2 = 1) :=
  adjustPriority_pos_even_iff 2 false 1 3 (by decide) (by decide) (by decide) (by decide)

/-! ## Properties of the game builder -/

theorem range_add (n a b : Nat) :
    List.range' n (a + b) = List.range' n a ++ List.range' (n + a) b := by
  rw [Nat.add_comm a b, ← List.range'_append_1]

theorem forall₂_mem_right {α β : Type} {R : α → β → Prop} {l1 : List α} {l2 : List β}
    (h : List.Forall₂ R l1 l2) {b : β} (hb : b ∈ l2) : ∃ a ∈ l1, R a b := by
  induction h with
  | nil => simp at hb
  | cons hab _ ih =>
    rcases List.mem_cons.1 hb with rfl | hb
    · exact ⟨_, List.mem_cons_self _ _, hab⟩
    · obtain ⟨a, ha, hR⟩ := ih hb
      exact ⟨a, List.mem_cons_of_mem _ ha, hR⟩

theorem transLoop_spec (fuel : Nat) (data : HoaData) (isMaxParity : Bool)
    (resGoodPriority : Int) (ucntAPs : List Int) (state : State) (value : Nat) :
    ∀ (ts : List Transition) (n : Nat) (fv : List PGSVertex) (vv : List Int)
      (n1 : Nat) (fv1 : List PGSVertex) (vv1 : List Int),
      transLoop fuel data isMaxParity resGoodPriority ucntAPs state value ts n fv vv
        = .ok (n1, fv1, vv1) →
      ∃ new : List PGSVertex,
        fv1 = fv ++ new ∧ n1 = n + new.length ∧
        new.map (fun x => x.id) = (List.range' n new.length).map Nat.cast ∧
        vv1 = (new.map (fun x => x.id)).reverse ++ vv ∧
        List.Forall₂ (FullFor data isMaxParity resGoodPriority state)
          (ts.filter (viable fuel data ucntAPs state value)) new ∧
        (∀ tr ∈ ts, ∃ d, tr.successors = [d]) ∧
        (n ≤ 2147483647 → n1 ≤ 2147483647) := by
  intro ts
  induction ts with
  | nil =>
    intro n fv vv n1 fv1 vv1 h
    simp only [transLoop, Except.ok.injEq, Prod.mk.injEq] at h
    obtain ⟨rfl, rfl, rfl⟩ := h
    exact ⟨[], by simp⟩
  | cons tr rest ih =>
    intro n fv vv n1 fv1 vv1 h
    rw [transLoop] at h
    split at h
    · rename_i dest hdest
      split at h
      · simp at h
      · rename_i label hlabel
        split at h
        · rename_i acc0 hacc
          split at h
          · simp at h
          · rename_i evald hev
            have hsucc : ∀ t ∈ tr :: rest, (∀ t ∈ rest, ∃ d, t.successors = [d]) →
                ∃ d, t.successors = [d] := by
              intro t ht hrest
              rcases List.mem_cons.1 ht with rfl | ht
              · exact ⟨dest, hdest⟩
              · exact hrest t ht
            by_cases hne : evald ≠ -1
            · rw [if_pos hne] at h
              split at h
              · simp at h
              · rename_i hmax
                obtain ⟨new, h1, h2, h3, h4, h5, h8, h9⟩ := ih _ _ _ _ _ _ h
                have hv : viable fuel data ucntAPs state value tr = true := by
                  simp [viable, hlabel, hev, hne]
                refine ⟨{ id := (n : Int),
                          priority := adjustPriority acc0 isMaxParity resGoodPriority
                            data.noAccSets,
                          owner := 0, name := none, successors := [dest] } :: new,
                  ?_, ?_, ?_, ?_, ?_, ?_, ?_⟩
                · simp [h1]
                · simp [h2]; omega
                · simp [h3, List.range'_succ]
                · simp [h4]
                · rw [List.filter_cons, if_pos hv]
                  exact List.Forall₂.cons
                    ⟨rfl, rfl, hdest.symm, by simp [effectivePriority, hacc]⟩ h5
                · exact fun t ht => hsucc t ht h8
                · exact fun _ => h9 (by omega)
            · rw [if_neg hne] at h
              obtain ⟨new, h1, h2, h3, h4, h5, h8, h9⟩ := ih _ _ _ _ _ _ h
              have hv : viable fuel data ucntAPs state value tr = false := by
                simp only [viable, hlabel, hev]
                simpa using hne
              refine ⟨new, h1, h2, h3, h4, ?_, fun t ht => hsucc t ht h8, h9⟩
              rw [List.filter_cons, if_neg (by simp [hv])]
              exact h5
        · simp at h
    · simp at h

theorem partFor_extend {fuel : Nat} {data : HoaData} {isMaxParity : Bool}
    {resGoodPriority : Int} {ucntAPs : List Int} {state : State} {firstSucc w : Nat}
    {fullVals : List PGSVertex} {pv : PGSVertex}
    (h : PartFor fuel data isMaxParity resGoodPriority ucntAPs state firstSucc w fullVals pv)
    (before after : List PGSVertex) :
    PartFor fuel data isMaxParity resGoodPriority ucntAPs state firstSucc w
      (before ++ fullVals ++ after) pv := by
  obtain ⟨h1, h2, h3, h4, h5, pre, new, post, a, h6, h7, h8, h9⟩ := h
  exact ⟨h1, h2, h3, h4, h5, before ++ pre, new, post ++ after, a,
    by simp [h6, List.append_assoc], h7, h8, h9⟩

theorem valLoop_spec (fuel : Nat) (data : HoaData) (isMaxParity : Bool)
    (resGoodPriority : Int) (ucntAPs : List Int) (state : State) (firstSucc : Nat) :
    ∀ (todo value n pl : Nat) (P F : List PGSVertex) (n1 pl1 : Nat)
      (P1 F1 : List PGSVertex),
      valLoop fuel data isMaxParity resGoodPriority ucntAPs state firstSucc
        todo value n pl P F = .ok (n1, pl1, P1, F1) →
      ∃ newP newF : List PGSVertex,
        P1 = P ++ newP ∧ F1 = F ++ newF ∧ n1 = n + newF.length ∧ pl = pl1 + todo ∧
        newP.map (fun x => x.id) = (List.range' (firstSucc + value) todo).map Nat.cast ∧
        newF.map (fun x => x.id) = (List.range' n newF.length).map Nat.cast ∧
        (∀ pv ∈ newP, ∃ w, value ≤ w ∧ w < value + todo ∧
          PartFor fuel data isMaxParity resGoodPriority ucntAPs state firstSucc w newF pv) ∧
        (∀ fv ∈ newF, ∃ w, value ≤ w ∧ w < value + todo ∧ ∃ tr ∈ state.transitions,
          viable fuel data ucntAPs state w tr = true ∧
          FullFor data isMaxParity resGoodPriority state tr fv) ∧
        (0 < todo → ∀ tr ∈ state.transitions, ∃ d, tr.successors = [d]) ∧
        (n ≤ 2147483647 → n1 ≤ 2147483647) := by
  intro todo
  induction todo with
  | zero =>
    intro value n pl P F n1 pl1 P1 F1 h
    simp only [valLoop, Except.ok.injEq, Prod.mk.injEq] at h
    obtain ⟨rfl, rfl, rfl, rfl⟩ := h
    exact ⟨[], [], by simp⟩
  | succ todo ih =>
    intro value n pl P F n1 pl1 P1 F1 h
    rw [valLoop] at h
    split at h
    · simp at h
    · rename_i n2 F2 vv htl
      obtain ⟨new, t1, t2, t3, t4, t5, t6, t7⟩ := transLoop_spec _ _ _ _ _ _ _ _ _ _ _ _ _ _ htl
      split at h
      · simp at h
      · rename_i hvv
        split at h
        · simp at h
        · rename_i hpl
          obtain ⟨newP, newF, v1, v2, v3, v4, v5, v6, v7, v8, -, v10⟩ := ih _ _ _ _ _ _ _ _ _ h
          subst t1 t2
          refine ⟨{ id := ((firstSucc + value : Nat) : Int), priority := 0, owner := 0,
                    name := none, successors := vv } :: newP, new ++ newF,
            ?_, ?_, ?_, ?_, ?_, ?_, ?_, ?_, ?_, ?_⟩
          · simp [v1]
          · simp [v2]
          · simp [v3]; omega
          · omega
          · simp [v5, List.range'_succ]
            rfl
          · rw [List.map_append, t3, v6, List.length_append, range_add, List.map_append]
          · intro pv hpv
            rcases List.mem_cons.1 hpv with rfl | hpv
            · refine ⟨value, le_refl _, by omega, rfl, rfl, rfl, rfl, hvv, [], new, newF, n,
                by simp, t3, t5, ?_⟩
              simpa using t4
            · obtain ⟨w, hw1, hw2, hw3⟩ := v7 pv hpv
              refine ⟨w, by omega, by omega, ?_⟩
              have := partFor_extend hw3 new []
              simpa using this
          · intro fv hfv
            rcases List.mem_append.1 hfv with hfv | hfv
            · obtain ⟨tr, htr, hR⟩ := forall₂_mem_right t5 hfv
              rw [List.mem_filter] at htr
              exact ⟨value, le_refl _, by omega, tr, htr.1, htr.2, hR⟩
            · obtain ⟨w, hw1, hw2, hw3⟩ := v8 fv hfv
              exact ⟨w, by omega, by omega, hw3⟩
          · exact fun _ => t6
          · exact fun hn => v10 (t7 hn)

theorem succLoop_eq : ∀ (todo succ : Nat) (successors : List Int),
    succLoop todo succ successors
      = ((List.range' succ todo).map Nat.cast).reverse ++ successors := by
  intro todo
  induction todo with
  | zero => intro succ successors; simp [succLoop]
  | succ todo ih =>
    intro succ successors
    rw [succLoop, ih, List.range'_succ]
    simp

theorem stateFor_extend {fuel : Nat} {data : HoaData} {isMaxParity : Bool}
    {resGoodPriority : Int} {ucntAPs : List Int} {numValuations : Nat} {state : State}
    {partVals fullVals : List PGSVertex} {sv : PGSVertex}
    (h : StateFor fuel data isMaxParity resGoodPriority ucntAPs numValuations state
      partVals fullVals sv)
    (beforeP afterP beforeF afterF : List PGSVertex) :
    StateFor fuel data isMaxParity resGoodPriority ucntAPs numValuations state
      (beforeP ++ partVals ++ afterP) (beforeF ++ fullVals ++ afterF) sv := by
  obtain ⟨h1, h2, h3, h4, fs, pre, block, post, h5, h6, h7, h8⟩ := h
  refine ⟨h1, h2, h3, h4, fs, beforeP ++ pre, block, post ++ afterP,
    by simp [h5, List.append_assoc], h6, h7, ?_⟩
  intro pv hpv
  obtain ⟨w, hw, hP⟩ := h8 pv hpv
  exact ⟨w, hw, partFor_extend hP beforeF afterF⟩

theorem stateLoop_spec (fuel : Nat) (data : HoaData) (isMaxParity : Bool)
    (resGoodPriority : Int) (ucntAPs : List Int) (numValuations : Nat) :
    ∀ (sts : List State) (n pl : Nat) (S P F : List PGSVertex) (G : Game),
      stateLoop fuel data isMaxParity resGoodPriority ucntAPs numValuations
        sts n pl S P F = .ok G →
      ∃ newS newP newF : List PGSVertex,
        G.states = S ++ newS ∧ G.partVals = P ++ newP ∧ G.fullVals = F ++ newF ∧
        G.nextIndex = n + (newP.length + newF.length) ∧
        newP.length = sts.length * numValuations ∧ sts.length * numValuations ≤ pl ∧
        List.Perm ((newP ++ newF).map (fun x => x.id))
          ((List.range' n (newP.length + newF.length)).map Nat.cast) ∧
        List.Forall₂
          (fun s sv => StateFor fuel data isMaxParity resGoodPriority ucntAPs numValuations
            s newP newF sv) sts newS ∧
        (∀ pv ∈ newP, ∃ s ∈ sts, ∃ fs w, w < numValuations ∧
          PartFor fuel data isMaxParity resGoodPriority ucntAPs s fs w newF pv) ∧
        (∀ fv ∈ newF, ∃ s ∈ sts, ∃ w, w < numValuations ∧ ∃ tr ∈ s.transitions,
          viable fuel data ucntAPs s w tr = true ∧
          FullFor data isMaxParity resGoodPriority s tr fv) ∧
        (0 < numValuations → ∀ s ∈ sts, ∀ tr ∈ s.transitions, ∃ d, tr.successors = [d]) ∧
        (n ≤ 2147483647 → G.nextIndex ≤ 2147483647) := by
  intro sts
  induction sts with
  | nil =>
    intro n pl S P F G h
    simp only [stateLoop, Except.ok.injEq] at h
    subst h
    exact ⟨[], [], [], by simp⟩
  | cons s rest ih =>
    intro n pl S P F G h
    rw [stateLoop] at h
    split at h
    · simp at h
    · rename_i hmax
      split at h
      · simp at h
      · rename_i n2 pl2 P2 F2 hvl
        obtain ⟨newPv, newFv, v1, v2, v3, v4, v5, v6, v7, v8, v9, v10⟩ :=
          valLoop_spec _ _ _ _ _ _ _ _ _ _ _ _ _ _ _ _ _ hvl
        obtain ⟨newS, newP, newF, s1, s2, s3, s4, s5, s6, s7, s8, s9, s10, s11, s12⟩ :=
          ih _ _ _ _ _ _ h
        have hlenPv : newPv.length = numValuations := by
          have := congrArg List.length v5
          simpa using this
        subst v1 v2 v3
        refine ⟨{ id := s.id, priority := 0, owner := 1,
                  successors := succLoop numValuations n [], name := s.name } :: newS,
          newPv ++ newP, newFv ++ newF, ?_, ?_, ?_, ?_, ?_, ?_, ?_, ?_, ?_, ?_, ?_, ?_⟩
        · simp [s1]
        · simp [s2]
        · simp [s3]
        · simp [s4, hlenPv]; omega
        · simp [s5, hlenPv]; ring
        · simp only [List.length_cons]
          have : (rest.length + 1) * numValuations
              = rest.length * numValuations + numValuations := by ring
          omega
        · have e : List.range' n ((newPv ++ newP).length + (newFv ++ newF).length)
              = List.range' n numValuations ++ (List.range' (n + numValuations) newFv.length
                ++ List.range' (n + numValuations + newFv.length)
                    (newP.length + newF.length)) := by
            rw [← range_add, ← range_add]
            congr 1
            simp only [List.length_append, hlenPv]
            omega
          rw [e]
          simp only [List.map_append, List.append_assoc]
          rw [Nat.add_zero] at v5
          rw [← v5, ← v6]
          refine List.Perm.append_left _ ?_
          refine (List.perm_append_comm_assoc _ _ _).trans ?_
          refine List.Perm.append_left _ ?_
          have := s7
          simpa only [List.map_append] using this
        · refine List.Forall₂.cons ?_ ?_
          · refine ⟨rfl, rfl, rfl, rfl, n, [], newPv, newP, by simp, ?_, ?_, ?_⟩
            · simpa using v5
            · simp [succLoop_eq, v5]
            · intro pv hpv
              obtain ⟨w, -, hw, hP⟩ := v7 pv hpv
              refine ⟨w, by omega, ?_⟩
              have := partFor_extend hP [] newF
              simpa using this
          · refine s8.imp ?_
            intro a b hab
            have := stateFor_extend hab newPv [] newFv []
            simpa using this
        · intro pv hpv
          rcases List.mem_append.1 hpv with hpv | hpv
          · obtain ⟨w, -, hw, hP⟩ := v7 pv hpv
            refine ⟨s, List.mem_cons_self _ _, n, w, by omega, ?_⟩
            have := partFor_extend hP [] newF
            simpa using this
          · obtain ⟨s', hs', fs, w, hw, hP⟩ := s9 pv hpv
            refine ⟨s', List.mem_cons_of_mem _ hs', fs, w, hw, ?_⟩
            have := partFor_extend hP newFv []
            simpa using this
        · intro fv hfv
          rcases List.mem_append.1 hfv with hfv | hfv
          · obtain ⟨w, -, hw, tr, htr, hv, hR⟩ := v8 fv hfv
            exact ⟨s, List.mem_cons_self _ _, w, by omega, tr, htr, hv, hR⟩
          · obtain ⟨s', hs', w, hw, tr, htr, hv, hR⟩ := s10 fv hfv
            exact ⟨s', List.mem_cons_of_mem _ hs', w, hw, tr, htr, hv, hR⟩
        · intro hK s' hs'
          rcases List.mem_cons.1 hs' with rfl | hs'
          · exact v9 hK
          · exact s11 hK s' hs'
        · intro _
          exact s12 (v10 (by omega))


theorem stateFor_part_at {fuel : Nat} {data : HoaData} {isMaxParity : Bool}
    {resGoodPriority : Int} {ucntAPs : List Int} {numValuations : Nat} {state : State}
    {partVals fullVals : List PGSVertex} {sv : PGSVertex}
    (h : StateFor fuel data isMaxParity resGoodPriority ucntAPs numValuations state
      partVals fullVals sv) :
    ∃ firstSucc : Nat,
      sv.successors = ((List.range' firstSucc numValuations).map Nat.cast).reverse ∧
      ∀ w, w < numValuations → ∃ pv ∈ partVals,
        PartFor fuel data isMaxParity resGoodPriority ucntAPs state firstSucc w fullVals pv := by
  obtain ⟨-, -, -, -, fs, pre, block, post, h5, h6, h7, h8⟩ := h
  refine ⟨fs, by rw [h7, h6], ?_⟩
  intro w hw
  have hlen : block.length = numValuations := by
    have := congrArg List.length h6
    simpa using this
  have hwb : w < block.length := by omega
  have hmem : block[w] ∈ block := List.getElem_mem hwb
  obtain ⟨w1, -, hP⟩ := h8 _ hmem
  have hid : (block[w]).id = ((fs + w : Nat) : Int) := by
    have := congrArg (fun l => l[w]?) h6
    simp only [List.getElem?_map, List.getElem?_eq_getElem hwb, Option.map_some] at this
    rw [List.getElem?_range' _ _ hw] at this
    simpa using this
  have hw1 : w1 = w := by
    have := hP.1
    rw [hid] at this
    omega
  subst hw1
  exact ⟨_, by rw [h5]; simp [hmem], hP⟩

theorem computeUcntAPs_length {noAPs : Nat} {cntAPs ucntAPs : List Int}
    (h : computeUcntAPs noAPs cntAPs = .ok ucntAPs) :
    ucntAPs.length = noAPs - cntAPs.length := by
  unfold computeUcntAPs at h
  split at h
  · simp at h
  · split at h
    · simp at h
    · split at h
      · rename_i hl
        simp only [Except.ok.injEq] at h
        subst h
        exact hl
      · simp at h

theorem hoa2pg_spec {fuel : Nat} {data : HoaData} {isMaxParity : Bool}
    {resGoodPriority : Int} {G : Game}
    (h : hoa2pg fuel data isMaxParity resGoodPriority = .ok G) :
    ∃ ucntAPs : List Int,
      computeUcntAPs data.noAPs data.cntAPs = .ok ucntAPs ∧
      ucntAPs.length = data.noAPs - data.cntAPs.length ∧ ucntAPs.length < 31 ∧
      0 < data.states.length ∧
      G.nextIndex = data.states.length + (G.partVals.length + G.fullVals.length) ∧
      G.partVals.length = data.states.length * 2 ^ ucntAPs.length ∧
      List.Perm ((G.partVals ++ G.fullVals).map (fun x => x.id))
        ((List.range' data.states.length
          (G.partVals.length + G.fullVals.length)).map Nat.cast) ∧
      List.Forall₂
        (fun s sv => StateFor fuel data isMaxParity resGoodPriority ucntAPs
          (2 ^ ucntAPs.length) s G.partVals G.fullVals sv) data.states G.states ∧
      (∀ pv ∈ G.partVals, ∃ s ∈ data.states, ∃ fs w, w < 2 ^ ucntAPs.length ∧
        PartFor fuel data isMaxParity resGoodPriority ucntAPs s fs w G.fullVals pv) ∧
      (∀ fv ∈ G.fullVals, ∃ s ∈ data.states, ∃ w, w < 2 ^ ucntAPs.length ∧
        ∃ tr ∈ s.transitions, viable fuel data ucntAPs s w tr = true ∧
          FullFor data isMaxParity resGoodPriority s tr fv) ∧
      (∀ s ∈ data.states, ∀ tr ∈ s.transitions, ∃ d, tr.successors = [d]) ∧
      G.nextIndex ≤ 2147483647 := by
  unfold hoa2pg at h
  split at h
  · simp at h
  · rename_i u hu
    unfold buildGame at h
    split at h
    · simp at h
    · rename_i hk
      split at h
      · simp at h
      · rename_i hn
        split at h
        · simp at h
        · obtain ⟨newS, newP, newF, s1, s2, s3, s4, s5, s6, s7, s8, s9, s10, s11, s12⟩ :=
            stateLoop_spec _ _ _ _ _ _ _ _ _ _ _ _ _ h
          simp only [List.nil_append] at s1 s2 s3
          rw [← s1, ← s2, ← s3] at *
          have hpos : 0 < 2 ^ u.length := Nat.pos_pow_of_pos _ (by norm_num)
          have hmax : data.states.length ≤ 2147483647 := by
            rcases hstates : data.states with _ | ⟨s0, rest⟩
            · simp [hstates] at hn
            · rw [hstates] at h
              rw [stateLoop] at h
              split at h
              · simp at h
              · simp only [List.length_cons] at *
                omega
          exact ⟨u, hu, computeUcntAPs_length hu, by omega, by omega, s4, s5, s7, s8, s9, s10,
            s11 hpos, s12 hmax⟩


theorem transLoop_mono (data : HoaData) (isMaxParity : Bool) (resGoodPriority : Int)
    (ucntAPs : List Int) (state : State) (value : Nat) {fuel fuel1 : Nat}
    (hfuel : fuel ≤ fuel1) :
    ∀ (ts : List Transition) (n : Nat) (fv : List PGSVertex) (vv : List Int)
      (r : Nat × List PGSVertex × List Int),
      transLoop fuel data isMaxParity resGoodPriority ucntAPs state value ts n fv vv = .ok r →
      transLoop fuel1 data isMaxParity resGoodPriority ucntAPs state value ts n fv vv
        = .ok r := by
  intro ts
  induction ts with
  | nil => intro n fv vv r h; simpa [transLoop] using h
  | cons tr rest ih =>
    intro n fv vv r h
    rw [transLoop] at h ⊢
    split at h
    · rename_i dest hdest
      split at h
      · simp at h
      · rename_i label hlabel
        split at h
        · rename_i acc0 hacc
          split at h
          · simp at h
          · rename_i evald hev
            rw [evalLabel_mono _ _ _ _ _ _ hev _ hfuel]
            simp only []
            by_cases hne : evald ≠ -1
            · rw [if_pos hne] at h ⊢
              split at h
              · simp at h
              · rename_i hmax
                rw [if_neg hmax]
                exact ih _ _ _ _ h
            · rw [if_neg hne] at h ⊢
              exact ih _ _ _ _ h
        · simp at h
    · simp at h

theorem valLoop_mono (data : HoaData) (isMaxParity : Bool) (resGoodPriority : Int)
    (ucntAPs : List Int) (state : State) (firstSucc : Nat) {fuel fuel1 : Nat}
    (hfuel : fuel ≤ fuel1) :
    ∀ (todo value n pl : Nat) (P F : List PGSVertex)
      (r : Nat × Nat × List PGSVertex × List PGSVertex),
      valLoop fuel data isMaxParity resGoodPriority ucntAPs state firstSucc
        todo value n pl P F = .ok r →
      valLoop fuel1 data isMaxParity resGoodPriority ucntAPs state firstSucc
        todo value n pl P F = .ok r := by
  intro todo
  induction todo with
  | zero => intro value n pl P F r h; simpa [valLoop] using h
  | succ todo ih =>
    intro value n pl P F r h
    rw [valLoop] at h ⊢
    split at h
    · simp at h
    · rename_i n2 F2 vv htl
      rw [transLoop_mono data isMaxParity resGoodPriority ucntAPs state value hfuel _ _ _ _ _ htl]
      simp only []
      split at h
      · simp at h
      · rename_i hvv
        rw [if_neg hvv]
        split at h
        · simp at h
        · rename_i hpl
          rw [if_neg hpl]
          exact ih _ _ _ _ _ _ h

theorem stateLoop_mono (data : HoaData) (isMaxParity : Bool) (resGoodPriority : Int)
    (ucntAPs : List Int) (numValuations : Nat) {fuel fuel1 : Nat} (hfuel : fuel ≤ fuel1) :
    ∀ (sts : List State) (n pl : Nat) (S P F : List PGSVertex) (G : Game),
      stateLoop fuel data isMaxParity resGoodPriority ucntAPs numValuations
        sts n pl S P F = .ok G →
      stateLoop fuel1 data isMaxParity resGoodPriority ucntAPs numValuations
        sts n pl S P F = .ok G := by
  intro sts
  induction sts with
  | nil => intro n pl S P F G h; simpa [stateLoop] using h
  | cons s rest ih =>
    intro n pl S P F G h
    rw [stateLoop] at h ⊢
    split at h
    · simp at h
    · rename_i hmax
      rw [if_neg hmax]
      split at h
      · simp at h
      · rename_i n2 pl2 P2 F2 hvl
        rw [valLoop_mono data isMaxParity resGoodPriority ucntAPs s n hfuel _ _ _ _ _ _ _ hvl]
        simp only []
        exact ih _ _ _ _ _ _ h

theorem hoa2pg_mono (data : HoaData) (isMaxParity : Bool) (resGoodPriority : Int)
    {fuel fuel1 : Nat} (hfuel : fuel ≤ fuel1) (G : Game)
    (h : hoa2pg fuel data isMaxParity resGoodPriority = .ok G) :
    hoa2pg fuel1 data isMaxParity resGoodPriority = .ok G := by
  unfold hoa2pg at h ⊢
  split at h
  · simp at h
  · rename_i u hu
    unfold buildGame at h ⊢
    split at h
    · simp at h
    · rename_i hk
      rw [if_neg hk]
      split at h
      · simp at h
      · rename_i hn
        rw [if_neg hn]
        split at h
        · simp at h
        · rename_i hp
          rw [if_neg hp]
          exact stateLoop_mono data isMaxParity resGoodPriority u _ hfuel _ _ _ _ _ _ _ h

theorem forall₂_mem_left {α β : Type} {R : α → β → Prop} {l1 : List α} {l2 : List β}
    (h : List.Forall₂ R l1 l2) {a : α} (ha : a ∈ l1) : ∃ b ∈ l2, R a b := by
  induction h with
  | nil => simp at ha
  | cons hab _ ih =>
    rcases List.mem_cons.1 ha with rfl | ha
    · exact ⟨_, List.mem_cons_self _ _, hab⟩
    · obtain ⟨b, hb, hR⟩ := ih ha
      exact ⟨b, List.mem_cons_of_mem _ hb, hR⟩

theorem stateFor_ids {fuel : Nat} {data : HoaData} {isMaxParity : Bool}
    {resGoodPriority : Int} {ucntAPs : List Int} {numValuations : Nat}
    {partVals fullVals : List PGSVertex} {sts : List State} {svs : List PGSVertex}
    (h : List.Forall₂ (fun s sv => StateFor fuel data isMaxParity resGoodPriority ucntAPs
      numValuations s partVals fullVals sv) sts svs) :
    svs.map (fun x => x.id) = sts.map (fun s => s.id) := by
  induction h with
  | nil => rfl
  | cons hab _ ih => simp [ih, hab.1]

/-- C5: on the automaton with two propositions, both controllable and listed
as `[1, 0]`, the inner loop of step 1 compares `0` with `cntAPs[0] = 1` and
`1` with `cntAPs[1] = 0`, so that it finds neither proposition controllable,
and step 1 ends in a fault (it writes to the array `ucntAPs`, which has
`numUcntAPs = 0` entries) instead of yielding the empty list. -/
theorem computeUcntAPs_misses_controllable :
    cntFound [1, 0] 0 2 = .ok false ∧ cntFound [1, 0] 1 2 = .ok false ∧
      computeUcntAPs 2 [1, 0] = .error .undefinedBehaviour :=
  ⟨rfl, rfl, rfl⟩

/-- C6: when the conversion succeeds on an automaton whose state identifiers
are distinct values in `0..n-1` (`n` the number of states), no two vertex
records of the three tiers share an identifier, and every identifier of a
partial- or full-assignment vertex is greater than every state identifier. -/
theorem hoa2pg_ids_unique (fuel : Nat) (data : HoaData) (isMaxParity : Bool)
    (resGoodPriority : Int) (G : Game)
    (h : hoa2pg fuel data isMaxParity resGoodPriority = .ok G)
    (hnd : (data.states.map (fun s => s.id)).Nodup)
    (hrange : ∀ s ∈ data.states, 0 ≤ s.id ∧ s.id < (data.states.length : Int)) :
    ((G.states ++ G.partVals ++ G.fullVals).map (fun x => x.id)).Nodup ∧
      ∀ sv ∈ G.states, ∀ x ∈ G.partVals ++ G.fullVals, sv.id < x.id := by
  obtain ⟨u, -, -, -, -, -, -, hperm, hst, -, -, -, -⟩ := hoa2pg_spec h
  have hids := stateFor_ids hst
  have hlow : ∀ sv ∈ G.states, sv.id < (data.states.length : Int) := by
    intro sv hsv
    have : sv.id ∈ G.states.map (fun x => x.id) := List.mem_map_of_mem _ hsv
    rw [hids] at this
    obtain ⟨s, hs, hs2⟩ := List.mem_map.1 this
    rw [← hs2]
    exact (hrange s hs).2
  have hhigh : ∀ x ∈ G.partVals ++ G.fullVals, (data.states.length : Int) ≤ x.id := by
    intro x hx
    have : x.id ∈ (G.partVals ++ G.fullVals).map (fun x => x.id) := List.mem_map_of_mem _ hx
    rw [hperm.mem_iff] at this
    obtain ⟨j, hj, hj2⟩ := List.mem_map.1 this
    rw [List.mem_range'_1] at hj
    rw [← hj2]
    exact_mod_cast hj.1
  refine ⟨?_, fun sv hsv x hx => lt_of_lt_of_le (hlow sv hsv) (hhigh x hx)⟩
  rw [List.append_assoc, List.map_append, List.nodup_append]
  refine ⟨by rw [hids]; exact hnd, ?_, ?_⟩
  · rw [hperm.nodup_iff]
    exact (List.nodup_range' _ _).map Nat.cast_injective
  · intro a ha1 ha2
    obtain ⟨sv, hsv, rfl⟩ := List.mem_map.1 ha1
    obtain ⟨x, hx, hx2⟩ := List.mem_map.1 ha2
    have h1 := hlow sv hsv
    have h2 := hhigh x hx
    omega

theorem hoa2pg_ids_unique_witness :
    ((twoStatesGame.states ++ twoStatesGame.partVals ++ twoStatesGame.fullVals).map
        (fun x => x.id)).Nodup ∧
      ∀ sv ∈ twoStatesGame.states, ∀ x ∈ twoStatesGame.partVals ++ twoStatesGame.fullVals,
        sv.id < x.id :=
  hoa2pg_ids_unique 2 twoStates true 0 twoStatesGame rfl (by decide) (by decide)

/-- C7: when the conversion succeeds on an automaton whose transition
destinations are state identifiers, every successor stored in a state vertex
is the identifier of an emitted partial-assignment vertex, every successor of
a partial-assignment vertex is the identifier of an emitted full-assignment
vertex, and every successor of a full-assignment vertex is the identifier of
an emitted state vertex. -/
theorem hoa2pg_successors_closed (fuel : Nat) (data : HoaData) (isMaxParity : Bool)
    (resGoodPriority : Int) (G : Game)
    (h : hoa2pg fuel data isMaxParity resGoodPriority = .ok G)
    (hdest : ∀ s ∈ data.states, ∀ tr ∈ s.transitions, ∀ d ∈ tr.successors,
      ∃ s1 ∈ data.states, s1.id = d) :
    (∀ sv ∈ G.states, ∀ x ∈ sv.successors, ∃ pv ∈ G.partVals, pv.id = x) ∧
    (∀ pv ∈ G.partVals, ∀ x ∈ pv.successors, ∃ fv ∈ G.fullVals, fv.id = x) ∧
    (∀ fv ∈ G.fullVals, ∀ x ∈ fv.successors, ∃ sv ∈ G.states, sv.id = x) := by
  obtain ⟨u, -, -, -, -, -, -, -, hst, hpart, hfull, -, -⟩ := hoa2pg_spec h
  refine ⟨?_, ?_, ?_⟩
  · intro sv hsv x hx
    obtain ⟨s, -, -, -, -, -, fs, pre, block, post, h5, -, h7, -⟩ := forall₂_mem_right hst hsv
    rw [h7, List.mem_reverse] at hx
    obtain ⟨pv, hpv, rfl⟩ := List.mem_map.1 hx
    exact ⟨pv, by rw [h5]; simp [hpv], rfl⟩
  · intro pv hpv x hx
    obtain ⟨s, -, fs, w, -, -, -, -, -, -, pre, new, post, a, h6, -, -, h9⟩ := hpart pv hpv
    rw [h9, List.mem_reverse] at hx
    obtain ⟨fv, hfv, rfl⟩ := List.mem_map.1 hx
    exact ⟨fv, by rw [h6]; simp [hfv], rfl⟩
  · intro fv hfv x hx
    obtain ⟨s, hs, w, -, tr, htr, -, -, -, hsucc, -⟩ := hfull fv hfv
    rw [hsucc] at hx
    obtain ⟨s1, hs1, rfl⟩ := hdest s hs tr htr x hx
    obtain ⟨sv, hsv, hR⟩ := forall₂_mem_left hst hs1
    exact ⟨sv, hsv, hR.1⟩

theorem hoa2pg_successors_closed_witness :
    (∀ sv ∈ twoStatesGame.states, ∀ x ∈ sv.successors,
      ∃ pv ∈ twoStatesGame.partVals, pv.id = x) ∧
    (∀ pv ∈ twoStatesGame.partVals, ∀ x ∈ pv.successors,
      ∃ fv ∈ twoStatesGame.fullVals, fv.id = x) ∧
    (∀ fv ∈ twoStatesGame.fullVals, ∀ x ∈ fv.successors,
      ∃ sv ∈ twoStatesGame.states, sv.id = x) :=
  hoa2pg_successors_closed 2 twoStates true 0 twoStatesGame rfl (by decide)


/-- C8: when the conversion succeeds, every partial-assignment vertex has a
non-empty successor list, every state vertex has exactly `2 ^ k` successors
(`k` the number of uncontrolled variables), and every pair of a state and an
assignment below `2 ^ k` has a viable transition (a pair without one makes the
run end at `assert(validVals != NULL)`, so the conversion does not succeed). -/
theorem hoa2pg_successor_counts (fuel : Nat) (data : HoaData) (isMaxParity : Bool)
    (resGoodPriority : Int) (G : Game)
    (h : hoa2pg fuel data isMaxParity resGoodPriority = .ok G) :
    (∀ pv ∈ G.partVals, pv.successors ≠ []) ∧
    (∀ sv ∈ G.states, sv.successors.length = 2 ^ (data.noAPs - data.cntAPs.length)) ∧
    (∀ ucntAPs, computeUcntAPs data.noAPs data.cntAPs = .ok ucntAPs →
      ∀ s ∈ data.states, ∀ v, v < 2 ^ (data.noAPs - data.cntAPs.length) →
        ∃ tr ∈ s.transitions, viable fuel data ucntAPs s v tr = true) := by
  obtain ⟨u, hu, hk, -, -, -, -, -, hst, hpart, -, -, -⟩ := hoa2pg_spec h
  rw [← hk]
  refine ⟨?_, ?_, ?_⟩
  · intro pv hpv
    obtain ⟨s, -, fs, w, -, hP⟩ := hpart pv hpv
    exact hP.2.2.2.2.1
  · intro sv hsv
    obtain ⟨s, -, hS⟩ := forall₂_mem_right hst hsv
    obtain ⟨fs, hsucc, -⟩ := stateFor_part_at hS
    rw [hsucc]
    simp
  · intro u1 hu1 s hs v hv
    obtain rfl : u = u1 := by
      rw [hu] at hu1
      exact Except.ok.inj hu1
    obtain ⟨sv, -, hS⟩ := forall₂_mem_left hst hs
    obtain ⟨fs, -, hall⟩ := stateFor_part_at hS
    obtain ⟨pv, -, -, -, -, -, hne, pre, new, post, a, -, -, hF, hsucc⟩ := hall v hv
    have hlen := hF.length_eq
    have hnew : new ≠ [] := by
      rintro rfl
      rw [hsucc] at hne
      simp at hne
    have hpos : 0 < (s.transitions.filter (viable fuel data u s v)).length := by
      rw [hlen]
      exact List.length_pos.2 hnew
    obtain ⟨tr, htr⟩ := List.exists_mem_of_length_pos hpos
    rw [List.mem_filter] at htr
    exact ⟨tr, htr.1, htr.2⟩

theorem hoa2pg_successor_counts_witness :
    (∀ pv ∈ twoStatesGame.partVals, pv.successors ≠ []) ∧
    (∀ sv ∈ twoStatesGame.states,
      sv.successors.length = 2 ^ (twoStates.noAPs - twoStates.cntAPs.length)) ∧
    (∀ ucntAPs, computeUcntAPs twoStates.noAPs twoStates.cntAPs = .ok ucntAPs →
      ∀ s ∈ twoStates.states, ∀ v, v < 2 ^ (twoStates.noAPs - twoStates.cntAPs.length) →
        ∃ tr ∈ s.transitions, viable 2 twoStates ucntAPs s v tr = true) :=
  hoa2pg_successor_counts 2 twoStates true 0 twoStatesGame rfl

/-- C10, counterexample: on `twoStates`, for state 0 and the assignment 0 the
viable transitions are, in the order of the source, the second (to state 1)
and the third (to state 0); the vertices minted for them are, in this order,
4 (to state 1) and 5 (to state 0), and the partial-assignment vertex 2 of the
pair lists them as `[5, 4]`, not as `[4, 5]`: the vertex of the third
transition comes before the one of the second. -/
theorem part_successors_not_in_encounter_order :
    ∃ G, hoa2pg 2 twoStates true 0 = .ok G ∧
      (((twoStates.states.map (fun s => s.transitions)).headD []).filter
          (viable 2 twoStates [0] (twoStates.states.headD ⟨0, none, none, none, []⟩) 0)).map
        (fun tr => tr.successors) = [[1], [0]] ∧
      (G.fullVals.take 2).map (fun x => (x.id, x.successors)) = [(4, [1]), (5, [0])] ∧
      (G.partVals.take 1).map (fun x => (x.id, x.successors)) = [(2, [5, 4])] ∧
      ¬ (G.partVals.take 1).map (fun x => x.successors)
          = [(G.fullVals.take 2).map (fun x => x.id)] := by
  refine ⟨twoStatesGame, rfl, rfl, rfl, rfl, ?_⟩
  decide

/-- C10, amended: when the conversion succeeds, for every state `s` (with its
state vertex `sv`, whose successors are `firstSucc + 2 ^ k - 1`, ..., `firstSucc`)
and every assignment `v < 2 ^ k`, the partial-assignment vertex `firstSucc + v`
of `(s, v)` exists, the full-assignment vertices `new` minted for the viable
transitions of `s` under `v`, in the order of the transitions, are a segment
of `fullVals` with consecutive increasing identifiers, and the successor list
of the partial-assignment vertex is the list of these identifiers in reverse
order: the vertex of transition `j2` comes before the one of `j1` when
`j1 < j2`. -/
theorem hoa2pg_part_successors (fuel : Nat) (data : HoaData) (isMaxParity : Bool)
    (resGoodPriority : Int) (G : Game) (ucntAPs : List Int)
    (h : hoa2pg fuel data isMaxParity resGoodPriority = .ok G)
    (hu : computeUcntAPs data.noAPs data.cntAPs = .ok ucntAPs) :
    List.Forall₂
      (fun s sv => ∃ firstSucc : Nat,
        sv.successors
          = ((List.range' firstSucc
              (2 ^ (data.noAPs - data.cntAPs.length))).map Nat.cast).reverse ∧
        ∀ v, v < 2 ^ (data.noAPs - data.cntAPs.length) →
          ∃ pv ∈ G.partVals, pv.id = ((firstSucc + v : Nat) : Int) ∧
            ∃ (pre new post : List PGSVertex) (a : Nat),
              G.fullVals = pre ++ new ++ post ∧
              new.map (fun x => x.id) = (List.range' a new.length).map Nat.cast ∧
              List.Forall₂ (FullFor data isMaxParity resGoodPriority s)
                (s.transitions.filter (viable fuel data ucntAPs s v)) new ∧
              pv.successors = (new.map (fun x => x.id)).reverse)
      data.states G.states := by
  obtain ⟨u, hu1, hk, -, -, -, -, -, hst, -, -, -, -⟩ := hoa2pg_spec h
  obtain rfl : u = ucntAPs := by
    rw [hu1] at hu
    exact Except.ok.inj hu
  rw [← hk]
  refine hst.imp ?_
  intro s sv hS
  obtain ⟨fs, hsucc, hall⟩ := stateFor_part_at hS
  refine ⟨fs, hsucc, ?_⟩
  intro v hv
  obtain ⟨pv, hpv, hid, -, -, -, -, pre, new, post, a, h6, h7, h8, h9⟩ := hall v hv
  exact ⟨pv, hpv, hid, pre, new, post, a, h6, h7, h8, h9⟩

theorem hoa2pg_part_successors_witness :
    List.Forall₂
      (fun s sv => ∃ firstSucc : Nat,
        sv.successors
          = ((List.range' firstSucc
              (2 ^ (twoStates.noAPs - twoStates.cntAPs.length))).map Nat.cast).reverse ∧
        ∀ v, v < 2 ^ (twoStates.noAPs - twoStates.cntAPs.length) →
          ∃ pv ∈ twoStatesGame.partVals, pv.id = ((firstSucc + v : Nat) : Int) ∧
            ∃ (pre new post : List PGSVertex) (a : Nat),
              twoStatesGame.fullVals = pre ++ new ++ post ∧
              new.map (fun x => x.id) = (List.range' a new.length).map Nat.cast ∧
              List.Forall₂ (FullFor twoStates true 0 s)
                (s.transitions.filter (viable 2 twoStates [0] s v)) new ∧
              pv.successors = (new.map (fun x => x.id)).reverse)
      twoStates.states twoStatesGame.states :=
  hoa2pg_part_successors 2 twoStates true 0 twoStatesGame [0] rfl rfl


theorem hoa2pg_partVals_filled {fuel : Nat} {data : HoaData} {isMaxParity : Bool}
    {resGoodPriority : Int} {G : Game}
    (h : hoa2pg fuel data isMaxParity resGoodPriority = .ok G) :
    G.partVals.length
      = (data.states.length * 2 ^ (data.noAPs - data.cntAPs.length)) % 4294967296 := by
  unfold hoa2pg at h
  split at h
  · simp at h
  · rename_i u hu
    rw [← computeUcntAPs_length hu]
    unfold buildGame at h
    split at h
    · simp at h
    · split at h
      · simp at h
      · split at h
        · simp at h
        · obtain ⟨newS, newP, newF, -, s2, -, -, s5, s6, -⟩ :=
            stateLoop_spec _ _ _ _ _ _ _ _ _ _ _ _ _ h
          simp only [List.nil_append] at s2
          rw [s2, s5]
          have := Nat.mod_le (data.states.length * 2 ^ u.length) 4294967296
          omega

/-! ## The priority normalizer, continued -/

theorem adjustPriority_eq (p : Int) (isMaxParity : Bool) (resGoodPriority noPriorities : Int)
    (hg : resGoodPriority = 0 ∨ resGoodPriority = 1)
    (hp : 0 ≤ p) (hpn : p ≤ noPriorities) (hn : noPriorities ≤ 2147483644) :
    adjustPriority p isMaxParity resGoodPriority noPriorities
      = (if isMaxParity then p else noPriorities + noPriorities % 2 - p)
        + (2 - resGoodPriority) := by
  unfold adjustPriority wrapInt
  cases isMaxParity <;> rcases hg with rfl | rfl <;>
    by_cases hodd : noPriorities % 2 ≠ 0 <;> simp only [hodd, if_true, if_false] <;>
    simp <;> omega

theorem exists_max_of_ne_nil : ∀ (ps : List Int), ps ≠ [] → ∃ e ∈ ps, ∀ q ∈ ps, q ≤ e := by
  intro ps
  induction ps with
  | nil => intro h; exact absurd rfl h
  | cons p rest ih =>
    intro _
    by_cases hrest : rest = []
    · subst hrest
      exact ⟨p, by simp, by simp⟩
    · obtain ⟨e, he, hmax⟩ := ih hrest
      by_cases hpe : p ≤ e
      · refine ⟨e, List.mem_cons_of_mem _ he, ?_⟩
        intro q hq
        rcases List.mem_cons.1 hq with rfl | hq
        · exact hpe
        · exact hmax q hq
      · refine ⟨p, List.mem_cons_self _ _, ?_⟩
        intro q hq
        rcases List.mem_cons.1 hq with rfl | hq
        · exact le_refl _
        · have := hmax q hq
          omega

theorem exists_min_of_ne_nil (ps : List Int) (h : ps ≠ []) : ∃ e ∈ ps, ∀ q ∈ ps, e ≤ q := by
  have hneg : ps.map (fun p => -p) ≠ [] := by simpa using h
  obtain ⟨m, hm, hmax⟩ := exists_max_of_ne_nil _ hneg
  obtain ⟨e, he, rfl⟩ := List.mem_map.1 hm
  refine ⟨e, he, ?_⟩
  intro q hq
  have := hmax (-q) (List.mem_map.2 ⟨q, hq, rfl⟩)
  omega

/-- C13, counterexample: the priority that `adjustPriority` computes for the
raw index 0 of a max-parity, odd-good objective with maximal index 0 is 1,
not 3. -/
theorem adjustPriority_scenarioA_not_three :
    adjustPriority 0 true 1 0 = 1 ∧ adjustPriority 0 true 1 0 ≠ 3 := by
  decide

/-- C13, amended: in scenario A (one state, one self-loop guarded by true, raw
acceptance index 0, no proposition, max parity, odd good, `noAccSets = 0`) the
conversion yields a single full-assignment vertex, and its priority is
`adjustPriority 0 true 1 0 = 1`. -/
theorem scenarioA_full_priority :
    hoa2pg 1 scenarioA true 1 = .ok scenarioAGame ∧
      scenarioAGame.fullVals.map (fun x => x.priority) = [adjustPriority 0 true 1 0] ∧
      adjustPriority 0 true 1 0 = 1 :=
  ⟨rfl, rfl, rfl⟩

/-- C20, counterexample: for a min objective with `noPriorities = 2 ^ 31 - 3`
the raw priorities 0 and 1 are sent to `-2147483648` and `2147483647`, so the
function is not strictly decreasing; the least raw priority of the list
`[0, 1]` is 0, which has the good parity of an even-good objective, while the
greatest adjusted priority, `2147483647`, is odd. -/
theorem adjustPriority_overflow_reverses :
    adjustPriority 0 false 0 2147483645 = -2147483648 ∧
    adjustPriority 1 false 0 2147483645 = 2147483647 ∧
    ¬ (adjustPriority 1 false 0 2147483645 < adjustPriority 0 false 0 2147483645) ∧
    ¬ ∀ e M : Int, e ∈ [0, 1] → (∀ q ∈ [0, 1], e ≤ q) →
        M ∈ [0, 1].map (fun p => adjustPriority p false 0 2147483645) →
        (∀ y ∈ [0, 1].map (fun p => adjustPriority p false 0 2147483645), y ≤ M) →
        (e % 2 = 0 ↔ M % 2 = 0) := by
  refine ⟨by decide, by decide, by decide, ?_⟩
  intro hall
  have := hall 0 2147483647 (by decide) (by decide) (by decide) (by decide)
  simp at this

/-- C20, amended: for both conventions, every `noPriorities` up to `2 ^ 31 - 4`
(the range in which the 32-bit arithmetic of the source does not overflow) and
every non-empty list of raw priorities in `[0, noPriorities]`: `adjustPriority`
is strictly increasing for a max objective and strictly decreasing for a min
objective, its result is even exactly when the raw priority has the good
parity, and the extremal raw priority `e` (the maximum for max, the minimum for
min) has the good parity if and only if the maximum `M` of the adjusted
priorities is even. -/
theorem adjustPriority_preserves_winner (isMaxParity : Bool)
    (resGoodPriority noPriorities : Int)
    (hg : resGoodPriority = 0 ∨ resGoodPriority = 1)
    (hn : noPriorities ≤ 2147483644)
    (ps : List Int) (hne : ps ≠ []) (hps : ∀ p ∈ ps, 0 ≤ p ∧ p ≤ noPriorities) :
    (∀ p q, 0 ≤ p → p < q → q ≤ noPriorities →
      if isMaxParity = true then
        adjustPriority p isMaxParity resGoodPriority noPriorities
          < adjustPriority q isMaxParity resGoodPriority noPriorities
      else
        adjustPriority q isMaxParity resGoodPriority noPriorities
          < adjustPriority p isMaxParity resGoodPriority noPriorities) ∧
    (∀ p, 0 ≤ p → p ≤ noPriorities →
      (adjustPriority p isMaxParity resGoodPriority noPriorities % 2 = 0
        ↔ p % 2 = resGoodPriority)) ∧
    ∃ e M, e ∈ ps ∧
      (if isMaxParity = true then ∀ q ∈ ps, q ≤ e else ∀ q ∈ ps, e ≤ q) ∧
      M ∈ ps.map (fun p => adjustPriority p isMaxParity resGoodPriority noPriorities) ∧
      (∀ y ∈ ps.map (fun p => adjustPriority p isMaxParity resGoodPriority noPriorities),
        y ≤ M) ∧
      (e % 2 = resGoodPriority ↔ M % 2 = 0) := by
  have hmono : ∀ p q, 0 ≤ p → p < q → q ≤ noPriorities →
      if isMaxParity = true then
        adjustPriority p isMaxParity resGoodPriority noPriorities
          < adjustPriority q isMaxParity resGoodPriority noPriorities
      else
        adjustPriority q isMaxParity resGoodPriority noPriorities
          < adjustPriority p isMaxParity resGoodPriority noPriorities := by
    intro p q hp hpq hq
    rw [adjustPriority_eq p _ _ _ hg hp (by omega) hn,
      adjustPriority_eq q _ _ _ hg (by omega) hq hn]
    cases isMaxParity <;> simp <;> omega
  have hpar : ∀ p, 0 ≤ p → p ≤ noPriorities →
      (adjustPriority p isMaxParity resGoodPriority noPriorities % 2 = 0
        ↔ p % 2 = resGoodPriority) := by
    intro p hp hpn
    rw [adjustPriority_eq p _ _ _ hg hp hpn hn]
    cases isMaxParity <;> rcases hg with rfl | rfl <;> simp <;> omega
  refine ⟨hmono, hpar, ?_⟩
  cases hmax : isMaxParity with
  | true =>
    obtain ⟨e, he, hext⟩ := exists_max_of_ne_nil ps hne
    refine ⟨e, adjustPriority e true resGoodPriority noPriorities, he, by simpa using hext,
      List.mem_map.2 ⟨e, he, rfl⟩, ?_, ?_⟩
    · intro y hy
      obtain ⟨q, hq, rfl⟩ := List.mem_map.1 hy
      rcases lt_or_eq_of_le (hext q hq) with hlt | heq
      · have := hmono q e (hps q hq).1 hlt (hps e he).2
        rw [hmax] at this
        simp only [if_true] at this
        omega
      · rw [heq]
    · have := hpar e (hps e he).1 (hps e he).2
      rw [hmax] at this
      exact this.symm
  | false =>
    obtain ⟨e, he, hext⟩ := exists_min_of_ne_nil ps hne
    refine ⟨e, adjustPriority e false resGoodPriority noPriorities, he, by simpa using hext,
      List.mem_map.2 ⟨e, he, rfl⟩, ?_, ?_⟩
    · intro y hy
      obtain ⟨q, hq, rfl⟩ := List.mem_map.1 hy
      rcases lt_or_eq_of_le (hext q hq) with hlt | heq
      · have := hmono e q (hps e he).1 hlt (hps q hq).2
        rw [hmax] at this
        simp only [Bool.false_eq_true, if_false] at this
        omega
      · rw [← heq]
    · have := hpar e (hps e he).1 (hps e he).2
      rw [hmax] at this
      exact this.symm

theorem adjustPriority_preserves_winner_witness :
    (∀ p q : Int, 0 ≤ p → p < q → q ≤ 3 →
      if false = true then adjustPriority p false 1 3 < adjustPriority q false 1 3
      else adjustPriority q false 1 3 < adjustPriority p false 1 3) ∧
    (∀ p : Int, 0 ≤ p → p ≤ 3 → (adjustPriority p false 1 3 % 2 = 0 ↔ p % 2 = 1)) ∧
    ∃ e M : Int, e ∈ [2, 1, 3] ∧
      (if false = true then ∀ q ∈ [2, 1, 3], q ≤ e else ∀ q ∈ [2, 1, 3], e ≤ q) ∧
      M ∈ [2, 1, 3].map (fun p => adjustPriority p false 1 3) ∧
      (∀ y ∈ [2, 1, 3].map (fun p => adjustPriority p false 1 3), y ≤ M) ∧
      (e % 2 = 1 ↔ M % 2 = 0) :=
  adjustPriority_preserves_winner false 1 3 (by decide) (by decide) [2, 1, 3]
    (by decide) (by decide)

/-! ## What a successful run has examined -/

theorem transLoop_examined (fuel : Nat) (data : HoaData) (isMaxParity : Bool)
    (resGoodPriority : Int) (ucntAPs : List Int) (state : State) (value : Nat) :
    ∀ (ts : List Transition) (n : Nat) (fv : List PGSVertex) (vv : List Int)
      (r : Nat × List PGSVertex × List Int),
      transLoop fuel data isMaxParity resGoodPriority ucntAPs state value ts n fv vv = .ok r →
      ∀ tr ∈ ts, ∃ (label : BTree) (acc0 dest evald : Int),
        effectiveLabel state tr = some label ∧ effectiveAcc state tr = some [acc0] ∧
        tr.successors = [dest] ∧
        evalLabel fuel label data.aliases ucntAPs value = some evald := by
  intro ts
  induction ts with
  | nil => intro n fv vv r _ tr htr; simp at htr
  | cons t rest ih =>
    intro n fv vv r h tr htr
    rw [transLoop] at h
    split at h
    · rename_i dest hdest
      split at h
      · simp at h
      · rename_i label hlabel
        split at h
        · rename_i acc0 hacc
          split at h
          · simp at h
          · rename_i evald hev
            rcases List.mem_cons.1 htr with rfl | htr
            · exact ⟨label, acc0, dest, evald, hlabel, hacc, hdest, hev⟩
            · by_cases hne : evald ≠ -1
              · rw [if_pos hne] at h
                split at h
                · simp at h
                · exact ih _ _ _ _ h tr htr
              · rw [if_neg hne] at h
                exact ih _ _ _ _ h tr htr
        · simp at h
    · simp at h

theorem valLoop_examined (fuel : Nat) (data : HoaData) (isMaxParity : Bool)
    (resGoodPriority : Int) (ucntAPs : List Int) (state : State) (firstSucc : Nat) :
    ∀ (todo value n pl : Nat) (P F : List PGSVertex)
      (r : Nat × Nat × List PGSVertex × List PGSVertex),
      valLoop fuel data isMaxParity resGoodPriority ucntAPs state firstSucc
        todo value n pl P F = .ok r →
      ∀ w, value ≤ w → w < value + todo →
        ∀ tr ∈ state.transitions, ∃ (label : BTree) (acc0 dest evald : Int),
          effectiveLabel state tr = some label ∧ effectiveAcc state tr = some [acc0] ∧
          tr.successors = [dest] ∧
          evalLabel fuel label data.aliases ucntAPs w = some evald := by
  intro todo
  induction todo with
  | zero => intro value n pl P F r _ w h1 h2; omega
  | succ todo ih =>
    intro value n pl P F r h w h1 h2
    rw [valLoop] at h
    split at h
    · simp at h
    · rename_i n2 F2 vv htl
      split at h
      · simp at h
      · split at h
        · simp at h
        · rcases Nat.eq_or_lt_of_le h1 with rfl | hlt
          · exact transLoop_examined _ _ _ _ _ _ _ _ _ _ _ _ htl
          · exact ih _ _ _ _ _ _ h w (by omega) (by omega)

theorem stateLoop_examined (fuel : Nat) (data : HoaData) (isMaxParity : Bool)
    (resGoodPriority : Int) (ucntAPs : List Int) (numValuations : Nat) :
    ∀ (sts : List State) (n pl : Nat) (S P F : List PGSVertex) (G : Game),
      stateLoop fuel data isMaxParity resGoodPriority ucntAPs numValuations
        sts n pl S P F = .ok G →
      ∀ s ∈ sts, ∀ w, w < numValuations →
        ∀ tr ∈ s.transitions, ∃ (label : BTree) (acc0 dest evald : Int),
          effectiveLabel s tr = some label ∧ effectiveAcc s tr = some [acc0] ∧
          tr.successors = [dest] ∧
          evalLabel fuel label data.aliases ucntAPs w = some evald := by
  intro sts
  induction sts with
  | nil => intro n pl S P F G _ s hs; simp at hs
  | cons s0 rest ih =>
    intro n pl S P F G h s hs w hw
    rw [stateLoop] at h
    split at h
    · simp at h
    · split at h
      · simp at h
      · rename_i n2 pl2 P2 F2 hvl
        rcases List.mem_cons.1 hs with rfl | hs
        · exact valLoop_examined _ _ _ _ _ _ _ _ _ _ _ _ _ _ hvl w (Nat.zero_le _) (by omega)
        · exact ih _ _ _ _ _ _ h s hs w hw

theorem hoa2pg_examined {fuel : Nat} {data : HoaData} {isMaxParity : Bool}
    {resGoodPriority : Int} {G : Game} {ucntAPs : List Int}
    (h : hoa2pg fuel data isMaxParity resGoodPriority = .ok G)
    (hu : computeUcntAPs data.noAPs data.cntAPs = .ok ucntAPs) :
    ∀ s ∈ data.states, ∀ w, w < 2 ^ ucntAPs.length →
      ∀ tr ∈ s.transitions, ∃ (label : BTree) (acc0 dest evald : Int),
        effectiveLabel s tr = some label ∧ effectiveAcc s tr = some [acc0] ∧
        tr.successors = [dest] ∧
        evalLabel fuel label data.aliases ucntAPs w = some evald := by
  unfold hoa2pg at h
  rw [hu] at h
  simp only [] at h
  unfold buildGame at h
  split at h
  · simp at h
  · split at h
    · simp at h
    · split at h
      · simp at h
      · exact stateLoop_examined _ _ _ _ _ _ _ _ _ _ _ _ _ h

theorem viable_iff (fuel : Nat) (data : HoaData) (ucntAPs : List Int) (state : State)
    (value : Nat) (tr : Transition) :
    viable fuel data ucntAPs state value tr = true ↔
      ∃ (label : BTree) (evald : Int), effectiveLabel state tr = some label ∧
        evalLabel fuel label data.aliases ucntAPs value = some evald ∧ evald ≠ -1 := by
  unfold viable
  cases hl : effectiveLabel state tr with
  | none => simp
  | some label =>
    cases he : evalLabel fuel label data.aliases ucntAPs value with
    | none => simp [he]
    | some evald => simp [he]

theorem forall₂_imp_mem {α β : Type} {R Q : α → β → Prop} {l1 : List α} {l2 : List β}
    (h : List.Forall₂ R l1 l2) (himp : ∀ a ∈ l1, ∀ b, R a b → Q a b) :
    List.Forall₂ Q l1 l2 := by
  induction h with
  | nil => exact List.Forall₂.nil
  | cons hab _ ih =>
    exact List.Forall₂.cons (himp _ (List.mem_cons_self _ _) _ hab)
      (ih fun a ha b hR => himp a (List.mem_cons_of_mem _ ha) b hR)

theorem effectiveLabel_eq {state : State} {tr : Transition} {label : BTree}
    (h : effectiveLabel state tr = some label) :
    state.label = some label ∨ (state.label = none ∧ tr.label = some label) := by
  unfold effectiveLabel at h
  cases hs : state.label with
  | some l =>
    rw [hs] at h
    exact Or.inl h
  | none =>
    rw [hs] at h
    exact Or.inr ⟨rfl, h⟩

theorem effectiveAcc_eq {state : State} {tr : Transition} {acc : List Int}
    (h : effectiveAcc state tr = some acc) :
    state.accSig = some acc ∨ (state.accSig = none ∧ tr.accSig = some acc) := by
  unfold effectiveAcc at h
  cases hs : state.accSig with
  | some l =>
    rw [hs] at h
    exact Or.inl h
  | none =>
    rw [hs] at h
    exact Or.inr ⟨rfl, h⟩

/-- C11: when the conversion succeeds, for every state `s`, every assignment
`v < 2 ^ k` and every transition `tr` of `s`, the effective guard `label` (the
guard of `s` if it has one, else the guard of `tr`) evaluates to some `evald`,
and `tr` is kept (`viable`) exactly when `evald` is not FALSE (-1), so that
UNKNOWN (0) is kept like TRUE (1); the full-assignment vertices `new` minted for
`(s, v)` (the successors of the partial-assignment vertex of the pair)
correspond one to one, in order, to the kept transitions.  The vertex of a
transition has owner 0, the priority `adjustPriority` of the effective
acceptance index `acc0` (the single index of the signature of `s` if it has
one, else of the signature of `tr`), and the destination of the transition as
its only successor.  With a single uncontrolled variable `a` and two
transitions guarded by `a` and by its negation, the assignment 0 keeps only
the second transition and the assignment 1 only the first. -/
theorem hoa2pg_full_vertices (fuel : Nat) (data : HoaData) (isMaxParity : Bool)
    (resGoodPriority : Int) (G : Game) (ucntAPs : List Int)
    (h : hoa2pg fuel data isMaxParity resGoodPriority = .ok G)
    (hu : computeUcntAPs data.noAPs data.cntAPs = .ok ucntAPs) :
    List.Forall₂
      (fun s sv => ∃ firstSucc : Nat,
        sv.successors
          = ((List.range' firstSucc
              (2 ^ (data.noAPs - data.cntAPs.length))).map Nat.cast).reverse ∧
        ∀ v, v < 2 ^ (data.noAPs - data.cntAPs.length) →
          (∀ tr ∈ s.transitions, ∃ (label : BTree) (evald : Int),
            (s.label = some label ∨ (s.label = none ∧ tr.label = some label)) ∧
            evalLabel fuel label data.aliases ucntAPs v = some evald ∧
            (viable fuel data ucntAPs s v tr = true ↔ evald ≠ -1) ∧
            (evald = 1 ∨ evald = 0 → viable fuel data ucntAPs s v tr = true)) ∧
          ∃ pv ∈ G.partVals, pv.id = ((firstSucc + v : Nat) : Int) ∧
            ∃ (pre new post : List PGSVertex),
              G.fullVals = pre ++ new ++ post ∧
              pv.successors = (new.map (fun x => x.id)).reverse ∧
              List.Forall₂
                (fun tr x => x.owner = 0 ∧ ∃ (acc0 dest : Int),
                  (s.accSig = some [acc0]
                    ∨ (s.accSig = none ∧ tr.accSig = some [acc0])) ∧
                  tr.successors = [dest] ∧
                  x.priority
                    = adjustPriority acc0 isMaxParity resGoodPriority data.noAccSets ∧
                  x.successors = [dest])
                (s.transitions.filter (viable fuel data ucntAPs s v)) new)
      data.states G.states ∧
    (∀ s ∈ data.states, ∀ (a : Int) (t1 t2 : Transition),
      ucntAPs = [a] → s.transitions = [t1, t2] → s.label = none →
      t1.label = some (.ap a) → t2.label = some (.not (.ap a)) →
        s.transitions.filter (viable fuel data ucntAPs s 0) = [t2] ∧
        s.transitions.filter (viable fuel data ucntAPs s 1) = [t1]) := by
  obtain ⟨u, hu1, hk, -, -, -, -, -, hst, -, -, -, -⟩ := hoa2pg_spec h
  obtain rfl : u = ucntAPs := by
    rw [hu1] at hu
    exact Except.ok.inj hu
  have hex := hoa2pg_examined h hu1
  rw [← hk]
  refine ⟨?_, ?_⟩
  · refine forall₂_imp_mem hst ?_
    intro s hs sv hS
    obtain ⟨fs, hsucc, hall⟩ := stateFor_part_at hS
    refine ⟨fs, hsucc, ?_⟩
    intro v hv
    refine ⟨?_, ?_⟩
    · intro tr htr
      obtain ⟨label, acc0, dest, evald, h1, -, -, h4⟩ := hex s hs v hv tr htr
      have hiff : viable fuel data u s v tr = true ↔ evald ≠ -1 := by
        simp [viable, h1, h4]
      refine ⟨label, evald, effectiveLabel_eq h1, h4, hiff, ?_⟩
      intro hev
      refine hiff.2 ?_
      rcases hev with rfl | rfl <;> decide
    · obtain ⟨pv, hpv, hid, -, -, -, -, pre, new, post, a, h6, -, h8, h9⟩ := hall v hv
      refine ⟨pv, hpv, hid, pre, new, post, h6, h9, ?_⟩
      refine forall₂_imp_mem h8 ?_
      intro tr htr x hF
      obtain ⟨label, acc0, dest, evald, -, h2, h3, -⟩ :=
        hex s hs v hv tr (List.mem_filter.1 htr).1
      obtain ⟨f1, -, f3, f4⟩ := hF
      refine ⟨f1, acc0, dest, effectiveAcc_eq h2, h3, ?_, by rw [f3, h3]⟩
      rw [f4, effectivePriority, h2]
  · intro s hs a t1 t2 hua htrans hsl hl1' hl2'
    have hl1 : effectiveLabel s t1 = some (.ap a) := by
      simp [effectiveLabel, hsl, hl1']
    have hl2 : effectiveLabel s t2 = some (.not (.ap a)) := by
      simp [effectiveLabel, hsl, hl2']
    subst hua
    have hpow : (1 : Nat) < 2 ^ [a].length := by simp
    have hpow0 : (0 : Nat) < 2 ^ [a].length := by simp
    obtain ⟨label, -, -, e, hl, -, -, he⟩ :=
      hex s hs 0 hpow0 t2 (by rw [htrans]; simp)
    rw [hl2] at hl
    obtain rfl := Option.some.inj hl
    obtain ⟨f, rfl⟩ : ∃ f, fuel = f + 2 := by
      rcases fuel with _ | _ | f
      · simp [evalLabel] at he
      · simp [evalLabel] at he
      · exact ⟨f, rfl⟩
    have v10 : viable (f + 2) data [a] s 0 t1 = false := by
      simp [viable, hl1, evalLabel, evalAP]
    have v20 : viable (f + 2) data [a] s 0 t2 = true := by
      simp [viable, hl2, evalLabel, evalAP]
    have v11 : viable (f + 2) data [a] s 1 t1 = true := by
      simp [viable, hl1, evalLabel, evalAP]
    have v21 : viable (f + 2) data [a] s 1 t2 = false := by
      simp [viable, hl2, evalLabel, evalAP]
    rw [htrans]
    simp [List.filter_cons, v10, v20, v11, v21]

theorem hoa2pg_full_vertices_witness :
    (hoa2pg 2 stateGuard true 0 = .ok stateGuardGame ∧
      computeUcntAPs stateGuard.noAPs stateGuard.cntAPs = .ok [] ∧
      evalLabel 2 (.ap 0) stateGuard.aliases [] 0 = some 0 ∧
      (List.Forall₂
        (fun s sv => ∃ firstSucc : Nat,
          sv.successors
            = ((List.range' firstSucc
                (2 ^ (stateGuard.noAPs - stateGuard.cntAPs.length))).map Nat.cast).reverse ∧
          ∀ v, v < 2 ^ (stateGuard.noAPs - stateGuard.cntAPs.length) →
            (∀ tr ∈ s.transitions, ∃ (label : BTree) (evald : Int),
              (s.label = some label ∨ (s.label = none ∧ tr.label = some label)) ∧
              evalLabel 2 label stateGuard.aliases [] v = some evald ∧
              (viable 2 stateGuard [] s v tr = true ↔ evald ≠ -1) ∧
              (evald = 1 ∨ evald = 0 → viable 2 stateGuard [] s v tr = true)) ∧
            ∃ pv ∈ stateGuardGame.partVals, pv.id = ((firstSucc + v : Nat) : Int) ∧
              ∃ (pre new post : List PGSVertex),
                stateGuardGame.fullVals = pre ++ new ++ post ∧
                pv.successors = (new.map (fun x => x.id)).reverse ∧
                List.Forall₂
                  (fun tr x => x.owner = 0 ∧ ∃ (acc0 dest : Int),
                    (s.accSig = some [acc0]
                      ∨ (s.accSig = none ∧ tr.accSig = some [acc0])) ∧
                    tr.successors = [dest] ∧
                    x.priority = adjustPriority acc0 true 0 stateGuard.noAccSets ∧
                    x.successors = [dest])
                  (s.transitions.filter (viable 2 stateGuard [] s v)) new)
        stateGuard.states stateGuardGame.states ∧
      (∀ s ∈ stateGuard.states, ∀ (a : Int) (t1 t2 : Transition),
        [] = [a] → s.transitions = [t1, t2] → s.label = none →
        t1.label = some (.ap a) → t2.label = some (.not (.ap a)) →
          s.transitions.filter (viable 2 stateGuard [] s 0) = [t2] ∧
          s.transitions.filter (viable 2 stateGuard [] s 1) = [t1]))) ∧
    (hoa2pg 2 scenarioB true 0 = .ok scenarioBGame ∧
      computeUcntAPs scenarioB.noAPs scenarioB.cntAPs = .ok [0] ∧
      (List.Forall₂
        (fun s sv => ∃ firstSucc : Nat,
          sv.successors
            = ((List.range' firstSucc
                (2 ^ (scenarioB.noAPs - scenarioB.cntAPs.length))).map Nat.cast).reverse ∧
          ∀ v, v < 2 ^ (scenarioB.noAPs - scenarioB.cntAPs.length) →
            (∀ tr ∈ s.transitions, ∃ (label : BTree) (evald : Int),
              (s.label = some label ∨ (s.label = none ∧ tr.label = some label)) ∧
              evalLabel 2 label scenarioB.aliases [0] v = some evald ∧
              (viable 2 scenarioB [0] s v tr = true ↔ evald ≠ -1) ∧
              (evald = 1 ∨ evald = 0 → viable 2 scenarioB [0] s v tr = true)) ∧
            ∃ pv ∈ scenarioBGame.partVals, pv.id = ((firstSucc + v : Nat) : Int) ∧
              ∃ (pre new post : List PGSVertex),
                scenarioBGame.fullVals = pre ++ new ++ post ∧
                pv.successors = (new.map (fun x => x.id)).reverse ∧
                List.Forall₂
                  (fun tr x => x.owner = 0 ∧ ∃ (acc0 dest : Int),
                    (s.accSig = some [acc0]
                      ∨ (s.accSig = none ∧ tr.accSig = some [acc0])) ∧
                    tr.successors = [dest] ∧
                    x.priority = adjustPriority acc0 true 0 scenarioB.noAccSets ∧
                    x.successors = [dest])
                  (s.transitions.filter (viable 2 scenarioB [0] s v)) new)
        scenarioB.states scenarioBGame.states ∧
      (∀ s ∈ scenarioB.states, ∀ (a : Int) (t1 t2 : Transition),
        [0] = [a] → s.transitions = [t1, t2] → s.label = none →
        t1.label = some (.ap a) → t2.label = some (.not (.ap a)) →
          s.transitions.filter (viable 2 scenarioB [0] s 0) = [t2] ∧
          s.transitions.filter (viable 2 scenarioB [0] s 1) = [t1]))) :=
  ⟨⟨rfl, rfl, rfl, hoa2pg_full_vertices 2 stateGuard true 0 stateGuardGame [] rfl rfl⟩,
    ⟨rfl, rfl, hoa2pg_full_vertices 2 scenarioB true 0 scenarioBGame [0] rfl rfl⟩⟩

theorem adjustPriority_pos (p : Int) (isMaxParity : Bool) (resGoodPriority noPriorities : Int)
    (hg : resGoodPriority = 0 ∨ resGoodPriority = 1)
    (hp : 0 ≤ p) (hpn : p ≤ noPriorities) (hn : noPriorities ≤ 2147483644) :
    0 < adjustPriority p isMaxParity resGoodPriority noPriorities := by
  rw [adjustPriority_eq p _ _ _ hg hp hpn hn]
  cases isMaxParity <;> rcases hg with rfl | rfl <;> simp <;> omega

/-- C17, counterexample: on `bigAcc` (one self-loop with the acceptance index 0,
which lies in `[0, noAccSets]`, and `noAccSets = 2 ^ 31 - 3`) the conversion for
a min-parity, even-good objective succeeds, and the priority of its only
full-assignment vertex is `-2147483648`: not strictly positive. -/
theorem full_priority_not_positive :
    (∀ s ∈ bigAcc.states,
      (∀ a ∈ s.accSig.getD [], 0 ≤ a ∧ a ≤ bigAcc.noAccSets) ∧
      ∀ tr ∈ s.transitions, ∀ a ∈ tr.accSig.getD [], 0 ≤ a ∧ a ≤ bigAcc.noAccSets) ∧
    ∃ G, hoa2pg 1 bigAcc false 0 = .ok G ∧
      G.fullVals = [⟨2, 0, -2147483648, none, [0]⟩] ∧
      ¬ ∀ fv ∈ G.fullVals, fv.owner = 0 ∧ 0 < fv.priority := by
  refine ⟨by decide, bigAccGame, rfl, rfl, ?_⟩
  intro hall
  have := (hall ⟨2, 0, -2147483648, none, [0]⟩ (by simp [bigAccGame])).2
  simp at this

/-- C17, amended: when the conversion succeeds on an automaton whose
acceptance indices lie in `[0, noAccSets]`, with `noAccSets` at most
`2 ^ 31 - 4` (the range without overflow of the 32-bit arithmetic) and
`resGoodPriority` 0 or 1, every state vertex has owner 1 and priority 0, every
partial-assignment vertex has owner 0 and priority 0, and every
full-assignment vertex has owner 0 and a strictly positive priority; so the
vertices of priority 0 are exactly the state and partial-assignment vertices. -/
theorem hoa2pg_owner_priority (fuel : Nat) (data : HoaData) (isMaxParity : Bool)
    (resGoodPriority : Int) (G : Game)
    (h : hoa2pg fuel data isMaxParity resGoodPriority = .ok G)
    (hg : resGoodPriority = 0 ∨ resGoodPriority = 1)
    (hn : data.noAccSets ≤ 2147483644)
    (hacc : ∀ s ∈ data.states,
      (∀ a ∈ s.accSig.getD [], 0 ≤ a ∧ a ≤ data.noAccSets) ∧
      ∀ tr ∈ s.transitions, ∀ a ∈ tr.accSig.getD [], 0 ≤ a ∧ a ≤ data.noAccSets) :
    (∀ sv ∈ G.states, sv.owner = 1 ∧ sv.priority = 0) ∧
    (∀ pv ∈ G.partVals, pv.owner = 0 ∧ pv.priority = 0) ∧
    (∀ fv ∈ G.fullVals, fv.owner = 0 ∧ 0 < fv.priority) ∧
    (∀ x ∈ G.states ++ G.partVals ++ G.fullVals,
      (x.priority = 0 ↔ x ∈ G.states ∨ x ∈ G.partVals)) := by
  obtain ⟨u, hu, -, -, -, -, -, -, hst, hpart, hfull, -, -⟩ := hoa2pg_spec h
  have hex := hoa2pg_examined h hu
  have key : (∀ sv ∈ G.states, sv.owner = 1 ∧ sv.priority = 0) ∧
      (∀ pv ∈ G.partVals, pv.owner = 0 ∧ pv.priority = 0) ∧
      (∀ fv ∈ G.fullVals, fv.owner = 0 ∧ 0 < fv.priority) := by
    refine ⟨?_, ?_, ?_⟩
    · intro sv hsv
      obtain ⟨s, -, -, -, h3, h4, -⟩ := forall₂_mem_right hst hsv
      exact ⟨h3, h4⟩
    · intro pv hpv
      obtain ⟨s, -, fs, w, -, -, h2, h3, -⟩ := hpart pv hpv
      exact ⟨h2, h3⟩
    · intro fv hfv
      obtain ⟨s, hs, w, hw, tr, htr, -, f1, -, -, f4⟩ := hfull fv hfv
      obtain ⟨label, acc0, dest, evald, -, h2, -, -⟩ := hex s hs w hw tr htr
      refine ⟨f1, ?_⟩
      rw [f4, effectivePriority, h2]
      have hin : 0 ≤ acc0 ∧ acc0 ≤ data.noAccSets := by
        unfold effectiveAcc at h2
        cases hsa : s.accSig with
        | some acc =>
          rw [hsa] at h2
          obtain rfl := Option.some.inj h2
          have hmem : acc0 ∈ s.accSig.getD [] := by rw [hsa]; simp
          exact (hacc s hs).1 acc0 hmem
        | none =>
          rw [hsa] at h2
          simp only [] at h2
          have hmem : acc0 ∈ tr.accSig.getD [] := by rw [h2]; simp
          exact (hacc s hs).2 tr htr acc0 hmem
      exact adjustPriority_pos acc0 _ _ _ hg hin.1 hin.2 hn
  obtain ⟨k1, k2, k3⟩ := key
  refine ⟨k1, k2, k3, ?_⟩
  intro x hx
  constructor
  · intro h0
    rw [List.append_assoc, List.mem_append, List.mem_append] at hx
    rcases hx with hx | hx | hx
    · exact Or.inl hx
    · exact Or.inr hx
    · have := (k3 x hx).2
      omega
  · intro hx1
    rcases hx1 with hx1 | hx1
    · exact (k1 x hx1).2
    · exact (k2 x hx1).2

theorem hoa2pg_owner_priority_witness :
    (∀ sv ∈ twoStatesGame.states, sv.owner = 1 ∧ sv.priority = 0) ∧
    (∀ pv ∈ twoStatesGame.partVals, pv.owner = 0 ∧ pv.priority = 0) ∧
    (∀ fv ∈ twoStatesGame.fullVals, fv.owner = 0 ∧ 0 < fv.priority) ∧
    (∀ x ∈ twoStatesGame.states ++ twoStatesGame.partVals ++ twoStatesGame.fullVals,
      (x.priority = 0 ↔ x ∈ twoStatesGame.states ∨ x ∈ twoStatesGame.partVals)) :=
  hoa2pg_owner_priority 2 twoStates true 0 twoStatesGame rfl (by decide) (by decide)
    (by decide)

/-- C15: with an empty alias table `evalLabel` answers `-2` on the alias `a`,
a value that `main` does not compare with; on `danglingAlias`, whose only
transition is guarded by this alias, the conversion does not abort: a
full-assignment vertex (identifier 2) is minted for the transition and the
game is printed. -/
theorem dangling_alias_is_minted :
    evalLabel 1 (.aliasRef "a") [] [] 0 = some (-2) ∧
      (∃ G, hoa2pg 1 danglingAlias true 0 = .ok G ∧
        G.fullVals = [⟨2, 0, 2, none, [0]⟩]) ∧
      main 1 danglingAlias true 0
        = ⟨"parity 2;\n0 0 1 1 \"0\"\n1 0 0 2 \"1\"\n2 2 0 0 \"2\"\n", none⟩ :=
  ⟨rfl, ⟨_, rfl, rfl⟩, rfl⟩

theorem main_of_error {fuel : Nat} {data : HoaData} {isMaxParity : Bool}
    {resGoodPriority : Int} {e : Fault}
    (h : hoa2pg fuel data isMaxParity resGoodPriority = .error e) :
    main fuel data isMaxParity resGoodPriority = ⟨"", some e⟩ := by
  unfold main
  rw [h]

/-! ## Termination of the construction -/

theorem resolves_evaluates_uniform {aliases : List Alias} {x : BTree}
    (hx : Resolves aliases x) :
    ∃ N : Nat, ∀ (apIds : List Int) (value fuel : Nat), N ≤ fuel →
      evalLabel fuel x aliases apIds value ≠ none := by
  induction hx with
  | bool id =>
    refine ⟨1, fun apIds value fuel hf => ?_⟩
    obtain ⟨k, rfl⟩ : ∃ k, fuel = k + 1 := ⟨fuel - 1, by omega⟩
    simp [evalLabel]
  | ap id =>
    refine ⟨1, fun apIds value fuel hf => ?_⟩
    obtain ⟨k, rfl⟩ : ∃ k, fuel = k + 1 := ⟨fuel - 1, by omega⟩
    simp [evalLabel]
  | @and l r _ _ ihl ihr =>
    obtain ⟨nl, hl⟩ := ihl
    obtain ⟨nr, hr⟩ := ihr
    refine ⟨max nl nr + 1, fun apIds value fuel hf => ?_⟩
    obtain ⟨k, rfl⟩ : ∃ k, fuel = k + 1 := ⟨fuel - 1, by omega⟩
    have h1 := hl apIds value k (by have := le_max_left nl nr; omega)
    have h2 := hr apIds value k (by have := le_max_right nl nr; omega)
    obtain ⟨a, ha⟩ := Option.ne_none_iff_exists'.1 h1
    obtain ⟨b, hb⟩ := Option.ne_none_iff_exists'.1 h2
    simp [evalLabel, ha, hb]
  | @or l r _ _ ihl ihr =>
    obtain ⟨nl, hl⟩ := ihl
    obtain ⟨nr, hr⟩ := ihr
    refine ⟨max nl nr + 1, fun apIds value fuel hf => ?_⟩
    obtain ⟨k, rfl⟩ : ∃ k, fuel = k + 1 := ⟨fuel - 1, by omega⟩
    have h1 := hl apIds value k (by have := le_max_left nl nr; omega)
    have h2 := hr apIds value k (by have := le_max_right nl nr; omega)
    obtain ⟨a, ha⟩ := Option.ne_none_iff_exists'.1 h1
    obtain ⟨b, hb⟩ := Option.ne_none_iff_exists'.1 h2
    simp [evalLabel, ha, hb]
  | @not l _ ih =>
    obtain ⟨n, hn⟩ := ih
    refine ⟨n + 1, fun apIds value fuel hf => ?_⟩
    obtain ⟨k, rfl⟩ : ∃ k, fuel = k + 1 := ⟨fuel - 1, by omega⟩
    obtain ⟨a, ha⟩ := Option.ne_none_iff_exists'.1 (hn apIds value k (by omega))
    simp [evalLabel, ha]
  | @aliasRef name e hlk _ ih =>
    obtain ⟨n, hn⟩ := ih
    refine ⟨n + 1, fun apIds value fuel hf => ?_⟩
    obtain ⟨k, rfl⟩ : ∃ k, fuel = k + 1 := ⟨fuel - 1, by omega⟩
    simp only [evalLabel, hlk]
    exact hn apIds value k (by omega)

theorem exists_uniform_bound {α : Type} (P : α → Nat → Prop)
    (hmono : ∀ a n m, P a n → n ≤ m → P a m) :
    ∀ l : List α, (∀ a ∈ l, ∃ n, P a n) → ∃ N, ∀ a ∈ l, P a N := by
  intro l
  induction l with
  | nil => intro _; exact ⟨0, by simp⟩
  | cons a rest ih =>
    intro h
    obtain ⟨n1, h1⟩ := h a (List.mem_cons_self _ _)
    obtain ⟨n2, h2⟩ := ih fun b hb => h b (List.mem_cons_of_mem _ hb)
    refine ⟨max n1 n2, ?_⟩
    intro b hb
    rcases List.mem_cons.1 hb with rfl | hb
    · exact hmono _ _ _ h1 (le_max_left _ _)
    · exact hmono _ _ _ (h2 b hb) (le_max_right _ _)

theorem guards_evaluate_uniform (data : HoaData)
    (hres : ∀ s ∈ data.states, ∀ tr ∈ s.transitions, ∀ l,
      effectiveLabel s tr = some l → Resolves data.aliases l) :
    ∃ N : Nat, ∀ s ∈ data.states, ∀ tr ∈ s.transitions, ∀ l,
      effectiveLabel s tr = some l → ∀ (apIds : List Int) (value fuel : Nat), N ≤ fuel →
        evalLabel fuel l data.aliases apIds value ≠ none := by
  refine exists_uniform_bound
    (fun s N => ∀ tr ∈ s.transitions, ∀ l, effectiveLabel s tr = some l →
      ∀ (apIds : List Int) (value fuel : Nat), N ≤ fuel →
        evalLabel fuel l data.aliases apIds value ≠ none)
    (fun s n m h hnm tr htr l hl apIds value fuel hf => h tr htr l hl apIds value fuel
      (le_trans hnm hf))
    data.states ?_
  intro s hs
  refine exists_uniform_bound
    (fun tr N => ∀ l, effectiveLabel s tr = some l →
      ∀ (apIds : List Int) (value fuel : Nat), N ≤ fuel →
        evalLabel fuel l data.aliases apIds value ≠ none)
    (fun tr n m h hnm l hl apIds value fuel hf => h l hl apIds value fuel (le_trans hnm hf))
    s.transitions ?_
  intro tr htr
  cases hl : effectiveLabel s tr with
  | none => exact ⟨0, fun l hl1 => by rw [hl] at hl1; simp at hl1⟩
  | some l0 =>
    obtain ⟨N, hN⟩ := resolves_evaluates_uniform (hres s hs tr htr l0 hl)
    refine ⟨N, fun l hl1 => ?_⟩
    rw [hl] at hl1
    obtain rfl := Option.some.inj hl1
    exact hN

theorem transLoop_fuel (fuel : Nat) (data : HoaData) (isMaxParity : Bool)
    (resGoodPriority : Int) (ucntAPs : List Int) (state : State) (value : Nat) :
    ∀ (ts : List Transition) (n : Nat) (fv : List PGSVertex) (vv : List Int),
      (∀ tr ∈ ts, ∀ l, effectiveLabel state tr = some l →
        evalLabel fuel l data.aliases ucntAPs value ≠ none) →
      transLoop fuel data isMaxParity resGoodPriority ucntAPs state value ts n fv vv
        ≠ .error .outOfFuel := by
  intro ts
  induction ts with
  | nil => intro n fv vv _; simp [transLoop]
  | cons tr rest ih =>
    intro n fv vv hev
    have hrest : ∀ t ∈ rest, ∀ l, effectiveLabel state t = some l →
        evalLabel fuel l data.aliases ucntAPs value ≠ none :=
      fun t ht => hev t (List.mem_cons_of_mem _ ht)
    rw [transLoop]
    split
    · split
      · simp
      · rename_i label hlabel
        split
        · split
          · rename_i hnone
            exact absurd hnone (hev tr (List.mem_cons_self _ _) label hlabel)
          · rename_i evald _
            by_cases hne : evald ≠ -1
            · rw [if_pos hne]
              split
              · simp
              · exact ih _ _ _ hrest
            · rw [if_neg hne]
              exact ih _ _ _ hrest
        · simp
    · simp

theorem valLoop_fuel (fuel : Nat) (data : HoaData) (isMaxParity : Bool)
    (resGoodPriority : Int) (ucntAPs : List Int) (state : State) (firstSucc : Nat)
    (hev : ∀ tr ∈ state.transitions, ∀ l, effectiveLabel state tr = some l →
      ∀ value, evalLabel fuel l data.aliases ucntAPs value ≠ none) :
    ∀ (todo value n pl : Nat) (P F : List PGSVertex),
      valLoop fuel data isMaxParity resGoodPriority ucntAPs state firstSucc
        todo value n pl P F ≠ .error .outOfFuel := by
  intro todo
  induction todo with
  | zero => intro value n pl P F; simp [valLoop]
  | succ todo ih =>
    intro value n pl P F
    rw [valLoop]
    split
    · rename_i e htl
      intro hc
      simp only [Except.error.injEq] at hc
      subst hc
      exact transLoop_fuel _ _ _ _ _ _ _ _ _ _ _
        (fun tr htr l hl => hev tr htr l hl value) htl
    · split
      · simp
      · split
        · simp
        · exact ih _ _ _ _ _

theorem stateLoop_fuel (fuel : Nat) (data : HoaData) (isMaxParity : Bool)
    (resGoodPriority : Int) (ucntAPs : List Int) (numValuations : Nat) :
    ∀ (sts : List State) (n pl : Nat) (S P F : List PGSVertex),
      (∀ s ∈ sts, ∀ tr ∈ s.transitions, ∀ l, effectiveLabel s tr = some l →
        ∀ value, evalLabel fuel l data.aliases ucntAPs value ≠ none) →
      stateLoop fuel data isMaxParity resGoodPriority ucntAPs numValuations
        sts n pl S P F ≠ .error .outOfFuel := by
  intro sts
  induction sts with
  | nil => intro n pl S P F _; simp [stateLoop]
  | cons s rest ih =>
    intro n pl S P F hev
    rw [stateLoop]
    split
    · simp
    · split
      · rename_i e hvl
        intro hc
        simp only [Except.error.injEq] at hc
        subst hc
        exact valLoop_fuel _ _ _ _ _ _ _ (hev s (List.mem_cons_self _ _)) _ _ _ _ _ _ hvl
      · exact ih _ _ _ _ _ fun t ht => hev t (List.mem_cons_of_mem _ ht)

theorem cntFound_fuel (cntAPs : List Int) (i : Nat) :
    ∀ todo, cntFound cntAPs i todo ≠ .error .outOfFuel := by
  intro todo
  induction todo with
  | zero => simp [cntFound]
  | succ todo ih =>
    rw [cntFound]
    split
    · simp
    · split
      · simp
      · exact ih

theorem ucntLoop_fuel (cntAPs : List Int) (numUcntAPs : Nat) :
    ∀ (todo i : Nat) (acc : List Int),
      ucntLoop cntAPs numUcntAPs todo i acc ≠ .error .outOfFuel := by
  intro todo
  induction todo with
  | zero => intro i acc; simp [ucntLoop]
  | succ todo ih =>
    intro i acc
    rw [ucntLoop]
    split
    · rename_i e he
      intro hc
      simp only [Except.error.injEq] at hc
      subst hc
      exact cntFound_fuel _ _ _ he
    · exact ih _ _
    · split
      · exact ih _ _
      · simp

theorem hoa2pg_terminates (data : HoaData) (isMaxParity : Bool) (resGoodPriority : Int)
    (hres : ∀ s ∈ data.states, ∀ tr ∈ s.transitions, ∀ l,
      effectiveLabel s tr = some l → Resolves data.aliases l) :
    ∃ N : Nat, ∀ fuel, N ≤ fuel →
      hoa2pg fuel data isMaxParity resGoodPriority ≠ .error .outOfFuel := by
  obtain ⟨N, hN⟩ := guards_evaluate_uniform data hres
  refine ⟨N, fun fuel hf => ?_⟩
  unfold hoa2pg
  split
  · rename_i e he
    intro hc
    simp only [Except.error.injEq] at hc
    subst hc
    unfold computeUcntAPs at he
    split at he
    · simp at he
    · split at he
      · rename_i e1 he1
        simp only [Except.error.injEq] at he
        subst he
        exact ucntLoop_fuel _ _ _ _ _ he1
      · split at he <;> simp at he
  · unfold buildGame
    split
    · simp
    · split
      · simp
      · split
        · simp
        · exact stateLoop_fuel _ _ _ _ _ _ _ _ _ _ _ _
            fun s hs tr htr l hl value => hN s hs tr htr l hl _ value fuel hf

/-- C14: a transition with a number of successors other than one fails the
assertion of line 255 when the loop examines it; an automaton that contains
such a transition is never converted, and the run leaves the standard output
empty: neither the header nor a vertex line is printed.  When the guards of
the automaton resolve, the run ends in a fault (it does not run forever). -/
theorem main_aborts_on_multi_successor (data : HoaData) (isMaxParity : Bool)
    (resGoodPriority : Int) (s : State) (tr : Transition)
    (hs : s ∈ data.states) (htr : tr ∈ s.transitions) (hsucc : tr.successors.length ≠ 1) :
    (∀ (fuel : Nat) (ucntAPs : List Int) (state : State) (value : Nat)
      (rest : List Transition) (n : Nat) (fv : List PGSVertex) (vv : List Int),
      transLoop fuel data isMaxParity resGoodPriority ucntAPs state value (tr :: rest) n fv vv
        = .error .assertFailed) ∧
    (∀ fuel, ∃ e, main fuel data isMaxParity resGoodPriority = ⟨"", some e⟩) ∧
    ((∀ s ∈ data.states, ∀ tr ∈ s.transitions, ∀ l,
        effectiveLabel s tr = some l → Resolves data.aliases l) →
      ∃ N : Nat, ∀ fuel, N ≤ fuel →
        ∃ e, e ≠ Fault.outOfFuel ∧
          main fuel data isMaxParity resGoodPriority = ⟨"", some e⟩) := by
  have hnot : ∀ fuel G, hoa2pg fuel data isMaxParity resGoodPriority ≠ .ok G := by
    intro fuel G hG
    obtain ⟨u, -, -, -, -, -, -, -, -, -, -, hone, -⟩ := hoa2pg_spec hG
    obtain ⟨d, hd⟩ := hone s hs tr htr
    rw [hd] at hsucc
    simp at hsucc
  have herr : ∀ fuel, ∃ e, hoa2pg fuel data isMaxParity resGoodPriority = .error e := by
    intro fuel
    cases hr : hoa2pg fuel data isMaxParity resGoodPriority with
    | error e => exact ⟨e, rfl⟩
    | ok G => exact absurd hr (hnot fuel G)
  refine ⟨?_, ?_, ?_⟩
  · intro fuel ucntAPs state value rest n fv vv
    rw [transLoop]
    split
    · rename_i dest hdest
      rw [hdest] at hsucc
      simp at hsucc
    · rfl
  · intro fuel
    obtain ⟨e, he⟩ := herr fuel
    exact ⟨e, main_of_error he⟩
  · intro hres
    obtain ⟨N, hN⟩ := hoa2pg_terminates data isMaxParity resGoodPriority hres
    refine ⟨N, fun fuel hf => ?_⟩
    obtain ⟨e, he⟩ := herr fuel
    refine ⟨e, ?_, main_of_error he⟩
    rintro rfl
    exact hN fuel hf he

theorem main_aborts_on_multi_successor_witness :
    (∀ (fuel : Nat) (ucntAPs : List Int) (state : State) (value : Nat)
      (rest : List Transition) (n : Nat) (fv : List PGSVertex) (vv : List Int),
      transLoop fuel twoSuccessors true 0 ucntAPs state value
        (⟨some (.bool 1), some [0], [0, 0]⟩ :: rest) n fv vv = .error .assertFailed) ∧
    (∀ fuel, ∃ e, main fuel twoSuccessors true 0 = ⟨"", some e⟩) ∧
    ((∀ s ∈ twoSuccessors.states, ∀ tr ∈ s.transitions, ∀ l,
        effectiveLabel s tr = some l → Resolves twoSuccessors.aliases l) →
      ∃ N : Nat, ∀ fuel, N ≤ fuel →
        ∃ e, e ≠ Fault.outOfFuel ∧ main fuel twoSuccessors true 0 = ⟨"", some e⟩) :=
  main_aborts_on_multi_successor twoSuccessors true 0
    ⟨0, none, none, none, [⟨some (.bool 1), some [0], [0, 0]⟩]⟩
    ⟨some (.bool 1), some [0], [0, 0]⟩ (by decide) (by decide) (by decide)

/-! ## The printed text -/

theorem intercalate_go_eq (acc : String) : ∀ l : List Int,
    String.intercalate.go acc "," (l.map toString) = acc ++ printSuccs l := by
  intro l
  induction l generalizing acc with
  | nil => simp [String.intercalate.go, printSuccs]
  | cons a rest ih =>
    simp only [List.map_cons, String.intercalate.go, printSuccs, printInt]
    rw [ih]
    simp only [String.append_assoc]

theorem join_cons (a : String) (l : List String) :
    String.join (a :: l) = a ++ String.join l := by
  have key : ∀ (l : List String) (acc : String),
      List.foldl (fun r s => r ++ s) acc l = acc ++ List.foldl (fun r s => r ++ s) "" l := by
    intro l
    induction l with
    | nil => intro acc; simp
    | cons b rest ih =>
      intro acc
      simp only [List.foldl_cons]
      rw [ih (acc ++ b), ih ("" ++ b)]
      simp [String.append_assoc]
  unfold String.join
  simp only [List.foldl_cons]
  rw [key l ("" ++ a)]
  simp

theorem join_append (l1 l2 : List String) :
    String.join (l1 ++ l2) = String.join l1 ++ String.join l2 := by
  induction l1 with
  | nil => simp [String.join]
  | cons a rest ih => rw [List.cons_append, join_cons, join_cons, ih, String.append_assoc]

theorem printPGSVertices_eq : ∀ vs : List PGSVertex, (∀ v ∈ vs, v.successors ≠ []) →
    printPGSVertices vs = (String.join (vs.map vertexLine), none) := by
  intro vs
  induction vs with
  | nil => intro _; rfl
  | cons v rest ih =>
    intro h
    have hrest := ih fun x hx => h x (List.mem_cons_of_mem _ hx)
    rw [printPGSVertices]
    split
    · rename_i hnil
      exact absurd hnil (h v (List.mem_cons_self _ _))
    · rename_i first more hsucc
      rw [hrest, List.map_cons, join_cons]
      simp only [Prod.mk.injEq, and_true]
      congr 1
      unfold vertexLine
      rw [hsucc]
      simp only [List.map_cons, String.intercalate, intercalate_go_eq, printInt]
      cases v.name <;> simp only [String.append_assoc]

theorem hoa2pg_successors_ne_nil {fuel : Nat} {data : HoaData} {isMaxParity : Bool}
    {resGoodPriority : Int} {G : Game}
    (h : hoa2pg fuel data isMaxParity resGoodPriority = .ok G) :
    ∀ v ∈ G.states ++ G.partVals ++ G.fullVals, v.successors ≠ [] := by
  obtain ⟨u, -, -, -, -, -, -, -, hst, hpart, hfull, hone, -⟩ := hoa2pg_spec h
  intro v hv
  rw [List.mem_append, List.mem_append] at hv
  rcases hv with (hv | hv) | hv
  · obtain ⟨s, -, hS⟩ := forall₂_mem_right hst hv
    obtain ⟨fs, hsucc, -⟩ := stateFor_part_at hS
    intro hnil
    have hlen := congrArg List.length hsucc
    rw [hnil] at hlen
    simp only [List.length_nil, List.length_reverse, List.length_map,
      List.length_range'] at hlen
    have hpos : 0 < 2 ^ u.length := Nat.pos_pow_of_pos _ (by norm_num)
    omega
  · obtain ⟨s, -, fs, w, -, hP⟩ := hpart v hv
    exact hP.2.2.2.2.1
  · obtain ⟨s, hs, w, -, tr, htr, -, -, -, f3, -⟩ := hfull v hv
    obtain ⟨d, hd⟩ := hone s hs tr htr
    rw [f3, hd]
    simp

theorem main_eq {fuel : Nat} {data : HoaData} {isMaxParity : Bool}
    {resGoodPriority : Int} {G : Game}
    (h : hoa2pg fuel data isMaxParity resGoodPriority = .ok G) :
    main fuel data isMaxParity resGoodPriority
      = ⟨"parity " ++ toString ((G.nextIndex : Int) - 1) ++ ";\n"
          ++ String.join ((G.states ++ G.partVals ++ G.fullVals).map vertexLine), none⟩ := by
  have hne := hoa2pg_successors_ne_nil h
  have h1 := printPGSVertices_eq G.states fun v hv => hne v (by simp [hv])
  have h2 := printPGSVertices_eq G.partVals fun v hv => hne v (by simp [hv])
  have h3 := printPGSVertices_eq G.fullVals fun v hv => hne v (by simp [hv])
  unfold main
  rw [h]
  simp only [h1, h2, h3, printInt, List.map_append, join_append, String.append_assoc]

/-- C16: when the conversion succeeds, the program ends without a fault and the
text on its standard output is the header followed by one line per vertex:
the state vertices, then the partial-assignment vertices, then the
full-assignment vertices, each tier in the order of construction.  The line
of a vertex is `vertexLine`: identifier, priority, owner, the successors
joined by commas in list order, and the quoted name (the explicit name, or
else the identifier); it ends with a newline, and there is no comma after the
last successor. -/
theorem main_output_format (fuel : Nat) (data : HoaData) (isMaxParity : Bool)
    (resGoodPriority : Int) (G : Game)
    (h : hoa2pg fuel data isMaxParity resGoodPriority = .ok G) :
    main fuel data isMaxParity resGoodPriority
      = ⟨"parity " ++ toString ((G.nextIndex : Int) - 1) ++ ";\n"
          ++ String.join (G.states.map vertexLine)
          ++ String.join (G.partVals.map vertexLine)
          ++ String.join (G.fullVals.map vertexLine), none⟩ ∧
    ∀ v : PGSVertex,
      vertexLine v
        = toString v.id ++ " " ++ toString v.priority ++ " " ++ toString v.owner ++ " "
          ++ String.intercalate "," (v.successors.map toString)
          ++ " \"" ++ (v.name.getD (toString v.id)) ++ "\"\n" := by
  refine ⟨?_, ?_⟩
  · rw [main_eq h]
    simp only [List.map_append, join_append, String.append_assoc]
  · intro v
    unfold vertexLine
    cases v.name <;> rfl

theorem main_output_format_witness :
    main 2 twoStates true 0
      = ⟨"parity " ++ toString ((twoStatesGame.nextIndex : Int) - 1) ++ ";\n"
          ++ String.join (twoStatesGame.states.map vertexLine)
          ++ String.join (twoStatesGame.partVals.map vertexLine)
          ++ String.join (twoStatesGame.fullVals.map vertexLine), none⟩ ∧
    ∀ v : PGSVertex,
      vertexLine v
        = toString v.id ++ " " ++ toString v.priority ++ " " ++ toString v.owner ++ " "
          ++ String.intercalate "," (v.successors.map toString)
          ++ " \"" ++ (v.name.getD (toString v.id)) ++ "\"\n" :=
  main_output_format 2 twoStates true 0 twoStatesGame rfl

/-! ## The number of vertices -/

theorem valLoop_count (fuel : Nat) (data : HoaData) (isMaxParity : Bool)
    (resGoodPriority : Int) (ucntAPs : List Int) (state : State) (firstSucc : Nat) :
    ∀ (todo value n pl : Nat) (P F : List PGSVertex) (n1 pl1 : Nat)
      (P1 F1 : List PGSVertex),
      valLoop fuel data isMaxParity resGoodPriority ucntAPs state firstSucc
        todo value n pl P F = .ok (n1, pl1, P1, F1) →
      F1.length = F.length + ((List.range' value todo).map
        (fun w => (state.transitions.filter (viable fuel data ucntAPs state w)).length)).sum := by
  intro todo
  induction todo with
  | zero =>
    intro value n pl P F n1 pl1 P1 F1 h
    simp only [valLoop, Except.ok.injEq, Prod.mk.injEq] at h
    obtain ⟨-, -, -, rfl⟩ := h
    simp
  | succ todo ih =>
    intro value n pl P F n1 pl1 P1 F1 h
    rw [valLoop] at h
    split at h
    · simp at h
    · rename_i n2 F2 vv htl
      obtain ⟨new, t1, -, -, -, t5, -, -⟩ := transLoop_spec _ _ _ _ _ _ _ _ _ _ _ _ _ _ htl
      split at h
      · simp at h
      · split at h
        · simp at h
        · have := ih _ _ _ _ _ _ _ _ _ h
          have hlen := t5.length_eq
          rw [this, t1, List.length_append, List.range'_succ]
          simp only [List.map_cons, List.sum_cons]
          omega

theorem stateLoop_count (fuel : Nat) (data : HoaData) (isMaxParity : Bool)
    (resGoodPriority : Int) (ucntAPs : List Int) (numValuations : Nat) :
    ∀ (sts : List State) (n pl : Nat) (S P F : List PGSVertex) (G : Game),
      stateLoop fuel data isMaxParity resGoodPriority ucntAPs numValuations
        sts n pl S P F = .ok G →
      G.fullVals.length = F.length + (sts.map (fun s => ((List.range numValuations).map
        (fun w => (s.transitions.filter (viable fuel data ucntAPs s w)).length)).sum)).sum := by
  intro sts
  induction sts with
  | nil =>
    intro n pl S P F G h
    simp only [stateLoop, Except.ok.injEq] at h
    subst h
    simp
  | cons s rest ih =>
    intro n pl S P F G h
    rw [stateLoop] at h
    split at h
    · simp at h
    · split at h
      · simp at h
      · rename_i n2 pl2 P2 F2 hvl
        have h1 := valLoop_count _ _ _ _ _ _ _ _ _ _ _ _ _ _ _ _ _ hvl
        have h2 := ih _ _ _ _ _ _ h
        rw [h2, h1, List.range_eq_range']
        simp only [List.map_cons, List.sum_cons]
        omega

theorem hoa2pg_count {fuel : Nat} {data : HoaData} {isMaxParity : Bool}
    {resGoodPriority : Int} {G : Game} {ucntAPs : List Int}
    (h : hoa2pg fuel data isMaxParity resGoodPriority = .ok G)
    (hu : computeUcntAPs data.noAPs data.cntAPs = .ok ucntAPs) :
    G.fullVals.length = (data.states.map (fun s => ((List.range (2 ^ ucntAPs.length)).map
      (fun w => (s.transitions.filter (viable fuel data ucntAPs s w)).length)).sum)).sum := by
  unfold hoa2pg at h
  rw [hu] at h
  simp only [] at h
  unfold buildGame at h
  split at h
  · simp at h
  · split at h
    · simp at h
    · split at h
      · simp at h
      · have := stateLoop_count _ _ _ _ _ _ _ _ _ _ _ _ _ h
        simpa using this

/-- C12: when the conversion succeeds on an automaton whose state identifiers
are distinct values in `0..n-1`, the number of emitted vertices is
`n + n * 2 ^ k` plus the number of triples of a state, an assignment below
`2 ^ k` and a transition of the state whose guard does not evaluate to FALSE;
the header line is `parity N;` with `N` this number minus one, and `N` is the
greatest identifier of an emitted vertex.  For `scenarioA` (one state, one
self-loop guarded by true, `k = 0`) there are 3 vertices and the header is
`parity 2;`. -/
theorem main_header (fuel : Nat) (data : HoaData) (isMaxParity : Bool)
    (resGoodPriority : Int) (G : Game) (ucntAPs : List Int)
    (h : hoa2pg fuel data isMaxParity resGoodPriority = .ok G)
    (hu : computeUcntAPs data.noAPs data.cntAPs = .ok ucntAPs)
    (hrange : ∀ s ∈ data.states, 0 ≤ s.id ∧ s.id < (data.states.length : Int)) :
    1 ≤ data.states.length ∧
    (G.states ++ G.partVals ++ G.fullVals).length
      = data.states.length + data.states.length * 2 ^ (data.noAPs - data.cntAPs.length)
        + (data.states.map (fun s =>
            ((List.range (2 ^ (data.noAPs - data.cntAPs.length))).map
              (fun v => (s.transitions.filter
                (viable fuel data ucntAPs s v)).length)).sum)).sum ∧
    (∃ out, (main fuel data isMaxParity resGoodPriority).stdout
      = "parity "
        ++ toString (((G.states ++ G.partVals ++ G.fullVals).length : Int) - 1)
        ++ ";\n" ++ out) ∧
    (∃ x ∈ G.states ++ G.partVals ++ G.fullVals,
      x.id = ((G.states ++ G.partVals ++ G.fullVals).length : Int) - 1) ∧
    (∀ x ∈ G.states ++ G.partVals ++ G.fullVals,
      x.id ≤ ((G.states ++ G.partVals ++ G.fullVals).length : Int) - 1) ∧
    (hoa2pg 1 scenarioA true 1 = .ok scenarioAGame ∧
      (scenarioAGame.states ++ scenarioAGame.partVals ++ scenarioAGame.fullVals).length = 3 ∧
      (main 1 scenarioA true 1).stdout
        = "parity 2;\n0 0 1 1 \"0\"\n1 0 0 2 \"1\"\n2 1 0 0 \"2\"\n") := by
  obtain ⟨u, hu1, hk, hlt, hpos, hnext, hplen, hperm, hst, -, -, -, -⟩ := hoa2pg_spec h
  obtain rfl : u = ucntAPs := by
    rw [hu1] at hu
    exact Except.ok.inj hu
  have hcount := hoa2pg_count h hu1
  have hslen : G.states.length = data.states.length := hst.length_eq.symm
  have hids := stateFor_ids hst
  have htotal : (G.states ++ G.partVals ++ G.fullVals).length = G.nextIndex := by
    simp only [List.length_append, hslen, hnext]
    omega
  have hpow : 0 < 2 ^ u.length := Nat.pos_pow_of_pos _ (by norm_num)
  have hPpos : 0 < G.partVals.length := by
    rw [hplen]
    exact Nat.mul_pos hpos hpow
  rw [← hk]
  refine ⟨hpos, ?_, ?_, ?_, ?_, rfl, rfl, rfl⟩
  · simp only [List.length_append, hslen, hplen, hcount]
  · rw [main_eq h, htotal]
    exact ⟨_, rfl⟩
  · have hmem : ((G.nextIndex - 1 : Nat) : Int)
        ∈ (G.partVals ++ G.fullVals).map (fun x => x.id) := by
      rw [hperm.mem_iff]
      refine List.mem_map.2 ⟨G.nextIndex - 1, ?_, rfl⟩
      rw [List.mem_range'_1]
      omega
    obtain ⟨x, hx, hxid⟩ := List.mem_map.1 hmem
    refine ⟨x, ?_, ?_⟩
    · rw [List.append_assoc]
      exact List.mem_append_right _ hx
    · rw [hxid, htotal]
      omega
  · intro x hx
    rw [htotal]
    rw [List.append_assoc, List.mem_append] at hx
    rcases hx with hx | hx
    · have : x.id ∈ G.states.map (fun x => x.id) := List.mem_map_of_mem _ hx
      rw [hids] at this
      obtain ⟨s, hs, hs2⟩ := List.mem_map.1 this
      have := (hrange s hs).2
      omega
    · have : x.id ∈ (G.partVals ++ G.fullVals).map (fun x => x.id) :=
        List.mem_map_of_mem _ hx
      rw [hperm.mem_iff] at this
      obtain ⟨j, hj, hj2⟩ := List.mem_map.1 this
      rw [List.mem_range'_1] at hj
      omega

theorem main_header_witness :
    1 ≤ twoStates.states.length ∧
    (twoStatesGame.states ++ twoStatesGame.partVals ++ twoStatesGame.fullVals).length
      = twoStates.states.length
        + twoStates.states.length * 2 ^ (twoStates.noAPs - twoStates.cntAPs.length)
        + (twoStates.states.map (fun s =>
            ((List.range (2 ^ (twoStates.noAPs - twoStates.cntAPs.length))).map
              (fun v => (s.transitions.filter
                (viable 2 twoStates [0] s v)).length)).sum)).sum ∧
    (∃ out, (main 2 twoStates true 0).stdout
      = "parity "
        ++ toString (((twoStatesGame.states ++ twoStatesGame.partVals
            ++ twoStatesGame.fullVals).length : Int) - 1)
        ++ ";\n" ++ out) ∧
    (∃ x ∈ twoStatesGame.states ++ twoStatesGame.partVals ++ twoStatesGame.fullVals,
      x.id = ((twoStatesGame.states ++ twoStatesGame.partVals
        ++ twoStatesGame.fullVals).length : Int) - 1) ∧
    (∀ x ∈ twoStatesGame.states ++ twoStatesGame.partVals ++ twoStatesGame.fullVals,
      x.id ≤ ((twoStatesGame.states ++ twoStatesGame.partVals
        ++ twoStatesGame.fullVals).length : Int) - 1) ∧
    (hoa2pg 1 scenarioA true 1 = .ok scenarioAGame ∧
      (scenarioAGame.states ++ scenarioAGame.partVals ++ scenarioAGame.fullVals).length = 3 ∧
      (main 1 scenarioA true 1).stdout
        = "parity 2;\n0 0 1 1 \"0\"\n1 0 0 2 \"1\"\n2 1 0 0 \"2\"\n") :=
  main_header 2 twoStates true 0 twoStatesGame [0] rfl rfl (by decide)

/-! ## The evaluator and the two-valued semantics -/

theorem evalBool_mono (aliases : List Alias) (val : Int → Bool) :
    ∀ (n : Nat) (x : BTree) (b : Bool), evalBool n x aliases val = some b →
      ∀ m, n ≤ m → evalBool m x aliases val = some b := by
  intro n
  induction n with
  | zero => intro x b h; simp [evalBool] at h
  | succ n ih =>
    intro x b h m hm
    obtain ⟨k, rfl⟩ : ∃ k, m = k + 1 := ⟨m - 1, by omega⟩
    have hk : n ≤ k := by omega
    cases x with
    | bool id => simpa [evalBool] using h
    | ap id => simpa [evalBool] using h
    | and l r =>
      simp only [evalBool] at h ⊢
      cases hl : evalBool n l aliases val with
      | none => simp [hl] at h
      | some vl =>
        cases hr : evalBool n r aliases val with
        | none => simp [hl, hr] at h
        | some vr =>
          rw [ih l vl hl k hk, ih r vr hr k hk]
          simpa [hl, hr] using h
    | or l r =>
      simp only [evalBool] at h ⊢
      cases hl : evalBool n l aliases val with
      | none => simp [hl] at h
      | some vl =>
        cases hr : evalBool n r aliases val with
        | none => simp [hl, hr] at h
        | some vr =>
          rw [ih l vl hl k hk, ih r vr hr k hk]
          simpa [hl, hr] using h
    | not l =>
      simp only [evalBool] at h ⊢
      cases hl : evalBool n l aliases val with
      | none => simp [hl] at h
      | some vl =>
        rw [ih l vl hl k hk]
        simpa [hl] using h
    | aliasRef name =>
      simp only [evalBool] at h ⊢
      cases hlk : lookupAlias aliases name with
      | none => simp [hlk] at h
      | some e =>
        simp only [hlk] at h ⊢
        exact ih e b h k hk

theorem evalAP_mem (a : Int) (value : Nat) (apIds : List Int)
    (hnd : apIds.Nodup) (hlen : apIds.length < 32) (i : Nat) (hi : i < apIds.length)
    (hia : apIds[i] = a) :
    evalAP a value apIds 1 = if value.testBit i = true then 1 else -1 := by
  have hfirst : ∀ k (hk : k < apIds.length), k < i → apIds[k] ≠ a := by
    intro k hk hki hka
    have heq : apIds[k] = apIds[i] := hka.trans hia.symm
    have := (List.Nodup.getElem_inj_iff hnd).1 heq
    omega
  have h := evalAP_at a value apIds 0 i hi hia hfirst
  have hpow : 2 ^ (0 + i) % 4294967296 = 2 ^ i := by
    rw [Nat.zero_add]
    apply Nat.mod_eq_of_lt
    calc 2 ^ i < 2 ^ 32 := Nat.pow_lt_pow_right (by norm_num) (by omega)
      _ = 4294967296 := by norm_num
  rw [hpow] at h
  have h1 : (2 : Nat) ^ 0 % 4294967296 = 1 := by norm_num
  rw [h1] at h
  rw [h]
  by_cases hb : value.testBit i = true
  · rw [if_pos ((and_two_pow_eq_iff value i).2 hb), if_pos hb]
  · rw [if_neg (fun hc => hb ((and_two_pow_eq_iff value i).1 hc)), if_neg hb]

theorem evalAP_of_mem (a : Int) (value : Nat) :
    ∀ (apIds : List Int) (mask : Nat), a ∈ apIds →
      evalAP a value apIds mask = 1 ∨ evalAP a value apIds mask = -1 := by
  intro apIds
  induction apIds with
  | nil => intro mask h; simp at h
  | cons b rest ih =>
    intro mask h
    simp only [evalAP]
    split
    · split <;> simp
    · rename_i hne
      rcases List.mem_cons.1 h with rfl | h
      · exact absurd rfl hne
      · exact ih _ h

theorem evalLabel_sound {aliases : List Alias} {apIds : List Int} {value : Nat}
    {val : Int → Bool} (hnd : apIds.Nodup) (hlen : apIds.length < 32)
    (hag : Agrees apIds value val) {x : BTree} (hx : Resolves aliases x) :
    ∀ (fuel : Nat) (r : Int), evalLabel fuel x aliases apIds value = some r →
      ∃ b, evalBool fuel x aliases val = some b ∧ (r = 1 → b = true) ∧ (r = -1 → b = false) ∧
        (r = 1 ∨ r = -1 ∨ r = 0) := by
  induction hx with
  | bool id =>
    intro fuel r h
    rcases fuel with _ | k
    · simp [evalLabel] at h
    · simp only [evalLabel, Option.some.injEq] at h
      subst h
      refine ⟨decide (id ≠ 0), by simp [evalBool], ?_, ?_, ?_⟩ <;>
        by_cases hid : id = 0 <;> simp [hid]
  | ap id =>
    intro fuel r h
    rcases fuel with _ | k
    · simp [evalLabel] at h
    · simp only [evalLabel, Option.some.injEq] at h
      subst h
      refine ⟨val id, by simp [evalBool], ?_⟩
      by_cases hmem : id ∈ apIds
      · obtain ⟨i, hi, hia⟩ := List.getElem_of_mem hmem
        rw [evalAP_mem id value apIds hnd hlen i hi hia]
        have hv : val id = value.testBit i := by rw [← hia]; exact hag i hi
        rw [hv]
        cases value.testBit i <;> simp
      · rw [evalAP_not_mem id value apIds 1 hmem]
        simp
  | @and l r _ _ ihl ihr =>
    intro fuel res h
    rcases fuel with _ | k
    · simp [evalLabel] at h
    · simp only [evalLabel] at h
      cases hl : evalLabel k l aliases apIds value with
      | none => simp [hl] at h
      | some vl =>
        cases hr : evalLabel k r aliases apIds value with
        | none => simp [hl, hr] at h
        | some vr =>
          simp only [hl, hr, Option.some.injEq] at h
          obtain ⟨bl, hbl, l1, l2, l3⟩ := ihl k vl hl
          obtain ⟨br, hbr, r1, r2, r3⟩ := ihr k vr hr
          refine ⟨bl && br, by simp [evalBool, hbl, hbr], ?_⟩
          subst h
          rcases l3 with rfl | rfl | rfl <;> rcases r3 with rfl | rfl | rfl <;>
            simp_all
  | @or l r _ _ ihl ihr =>
    intro fuel res h
    rcases fuel with _ | k
    · simp [evalLabel] at h
    · simp only [evalLabel] at h
      cases hl : evalLabel k l aliases apIds value with
      | none => simp [hl] at h
      | some vl =>
        cases hr : evalLabel k r aliases apIds value with
        | none => simp [hl, hr] at h
        | some vr =>
          simp only [hl, hr, Option.some.injEq] at h
          obtain ⟨bl, hbl, l1, l2, l3⟩ := ihl k vl hl
          obtain ⟨br, hbr, r1, r2, r3⟩ := ihr k vr hr
          refine ⟨bl || br, by simp [evalBool, hbl, hbr], ?_⟩
          subst h
          rcases l3 with rfl | rfl | rfl <;> rcases r3 with rfl | rfl | rfl <;>
            simp_all
  | @not l _ ih =>
    intro fuel res h
    rcases fuel with _ | k
    · simp [evalLabel] at h
    · simp only [evalLabel] at h
      cases hl : evalLabel k l aliases apIds value with
      | none => simp [hl] at h
      | some vl =>
        simp only [hl, Option.some.injEq] at h
        obtain ⟨bl, hbl, l1, l2, l3⟩ := ih k vl hl
        refine ⟨!bl, by simp [evalBool, hbl], ?_⟩
        subst h
        rcases l3 with rfl | rfl | rfl <;> simp_all
  | @aliasRef name e hlk _ ih =>
    intro fuel res h
    rcases fuel with _ | k
    · simp [evalLabel] at h
    · simp only [evalLabel, hlk] at h
      obtain ⟨b, hb, h1, h2, h3⟩ := ih k res h
      exact ⟨b, by simp only [evalBool, hlk, hb], h1, h2, h3⟩

theorem evalLabel_determined {aliases : List Alias} {apIds : List Int} {value : Nat}
    {x : BTree} (hx : Resolves aliases x)
    (hocc : ∀ a, OccursAP aliases a x → a ∈ apIds) :
    ∀ (fuel : Nat) (r : Int), evalLabel fuel x aliases apIds value = some r →
      r = 1 ∨ r = -1 := by
  induction hx with
  | bool id =>
    intro fuel r h
    rcases fuel with _ | k
    · simp [evalLabel] at h
    · simp only [evalLabel, Option.some.injEq] at h
      subst h
      split <;> simp
  | ap id =>
    intro fuel r h
    rcases fuel with _ | k
    · simp [evalLabel] at h
    · simp only [evalLabel, Option.some.injEq] at h
      subst h
      exact evalAP_of_mem id value apIds 1 (hocc id .ap)
  | @and l r _ _ ihl ihr =>
    intro fuel res h
    rcases fuel with _ | k
    · simp [evalLabel] at h
    · simp only [evalLabel] at h
      cases hl : evalLabel k l aliases apIds value with
      | none => simp [hl] at h
      | some vl =>
        cases hr : evalLabel k r aliases apIds value with
        | none => simp [hl, hr] at h
        | some vr =>
          simp only [hl, hr, Option.some.injEq] at h
          have l3 := ihl (fun a ha => hocc a (.andLeft ha)) k vl hl
          have r3 := ihr (fun a ha => hocc a (.andRight ha)) k vr hr
          subst h
          rcases l3 with rfl | rfl <;> rcases r3 with rfl | rfl <;> simp
  | @or l r _ _ ihl ihr =>
    intro fuel res h
    rcases fuel with _ | k
    · simp [evalLabel] at h
    · simp only [evalLabel] at h
      cases hl : evalLabel k l aliases apIds value with
      | none => simp [hl] at h
      | some vl =>
        cases hr : evalLabel k r aliases apIds value with
        | none => simp [hl, hr] at h
        | some vr =>
          simp only [hl, hr, Option.some.injEq] at h
          have l3 := ihl (fun a ha => hocc a (.orLeft ha)) k vl hl
          have r3 := ihr (fun a ha => hocc a (.orRight ha)) k vr hr
          subst h
          rcases l3 with rfl | rfl <;> rcases r3 with rfl | rfl <;> simp
  | @not l _ ih =>
    intro fuel res h
    rcases fuel with _ | k
    · simp [evalLabel] at h
    · simp only [evalLabel] at h
      cases hl : evalLabel k l aliases apIds value with
      | none => simp [hl] at h
      | some vl =>
        simp only [hl, Option.some.injEq] at h
        have l3 := ih (fun a ha => hocc a (.not ha)) k vl hl
        subst h
        rcases l3 with rfl | rfl <;> simp
  | @aliasRef name e hlk _ ih =>
    intro fuel res h
    rcases fuel with _ | k
    · simp [evalLabel] at h
    · simp only [evalLabel, hlk] at h
      exact ih (fun a ha => hocc a (.aliasRef hlk ha)) k res h

theorem agrees_exists (apIds : List Int) (value : Nat) (hnd : apIds.Nodup) :
    ∃ val : Int → Bool, Agrees apIds value val := by
  refine ⟨fun a => value.testBit (apIds.indexOf a), ?_⟩
  intro i hi
  simp only []
  rw [List.indexOf_getElem hnd i hi]

/-- C18, counterexample: with the proposition 0 controlled (no uncontrolled
proposition) the guard `0 & !0` evaluates to UNKNOWN (0), which is not FALSE,
but no valuation makes it true under two-valued evaluation. -/
theorem unknown_need_not_be_satisfiable :
    evalLabel 3 (.and (.ap 0) (.not (.ap 0))) [] [] 0 = some 0 ∧
      Resolves [] (.and (.ap 0) (.not (.ap 0))) ∧
      ∀ (val : Int → Bool) (fuel : Nat), Agrees [] 0 val →
        evalBool fuel (.and (.ap 0) (.not (.ap 0))) [] val ≠ some true := by
  refine ⟨rfl, .and (.ap 0) (.not (.ap 0)), ?_⟩
  intro val fuel _
  rcases fuel with _ | _ | _ | f <;> simp [evalBool]

/-- C18, amended: for a guard whose aliases resolve and an assignment to the
(distinct, fewer than 32) uncontrolled variables, `evalLabel` returns a value
`r` such that: if `r` is TRUE, a valuation of the controlled variables exists
which together with the assignment makes the guard true (every one does); and
if some valuation that agrees with the assignment makes the guard true, `r`
is not FALSE.  Nothing is claimed of a satisfying valuation when `r` is
UNKNOWN. -/
theorem evalLabel_true_or_satisfiable (aliases : List Alias) (apIds : List Int)
    (value : Nat) (x : BTree) (hx : Resolves aliases x) (hnd : apIds.Nodup)
    (hlen : apIds.length < 32) :
    ∃ (r : Int) (N : Nat),
      (∀ fuel, N ≤ fuel → evalLabel fuel x aliases apIds value = some r) ∧
      (r = 1 →
        (∃ val, Agrees apIds value val ∧
          ∀ fuel, N ≤ fuel → evalBool fuel x aliases val = some true) ∧
        ∀ val, Agrees apIds value val →
          ∀ fuel, N ≤ fuel → evalBool fuel x aliases val = some true) ∧
      ((∃ (val : Int → Bool) (fuel : Nat), Agrees apIds value val ∧
          evalBool fuel x aliases val = some true) → r ≠ -1) := by
  obtain ⟨N, r, hr, -⟩ := resolves_evaluates apIds value hx
  have hall : ∀ fuel, N ≤ fuel → evalLabel fuel x aliases apIds value = some r :=
    fun fuel hf => evalLabel_mono aliases apIds value N x r hr fuel hf
  have htrue : r = 1 → ∀ val, Agrees apIds value val →
      ∀ fuel, N ≤ fuel → evalBool fuel x aliases val = some true := by
    intro h1 val hag fuel hf
    obtain ⟨b, hb, hb1, -, -⟩ := evalLabel_sound hnd hlen hag hx fuel r (hall fuel hf)
    rw [hb, hb1 h1]
  refine ⟨r, N, hall, ?_, ?_⟩
  · intro h1
    obtain ⟨val, hag⟩ := agrees_exists apIds value hnd
    exact ⟨⟨val, hag, htrue h1 val hag⟩, htrue h1⟩
  · rintro ⟨val, fuel, hag, hsat⟩ hneg
    obtain ⟨b, hb, -, hb2, -⟩ :=
      evalLabel_sound hnd hlen hag hx (max N fuel) r (hall _ (le_max_left _ _))
    have := evalBool_mono aliases val fuel x true hsat (max N fuel) (le_max_right _ _)
    rw [this, hb2 hneg] at hb
    simp at hb

theorem evalLabel_true_or_satisfiable_witness :
    ∃ (r : Int) (N : Nat),
      (∀ fuel, N ≤ fuel →
        evalLabel fuel (.or (.ap 3) (.aliasRef "c")) [⟨"c", .ap 7⟩] [3, 5] 1 = some r) ∧
      (r = 1 →
        (∃ val, Agrees [3, 5] 1 val ∧
          ∀ fuel, N ≤ fuel →
            evalBool fuel (.or (.ap 3) (.aliasRef "c")) [⟨"c", .ap 7⟩] val = some true) ∧
        ∀ val, Agrees [3, 5] 1 val →
          ∀ fuel, N ≤ fuel →
            evalBool fuel (.or (.ap 3) (.aliasRef "c")) [⟨"c", .ap 7⟩] val = some true) ∧
      ((∃ (val : Int → Bool) (fuel : Nat), Agrees [3, 5] 1 val ∧
          evalBool fuel (.or (.ap 3) (.aliasRef "c")) [⟨"c", .ap 7⟩] val = some true) →
        r ≠ -1) :=
  evalLabel_true_or_satisfiable [⟨"c", .ap 7⟩] [3, 5] 1 (.or (.ap 3) (.aliasRef "c"))
    (.or (.ap 3) (.aliasRef (by decide) (.ap 7))) (by decide) (by decide)

/-- C19: for a guard whose aliases resolve, distinct uncontrolled identifiers
(fewer than 32) and an assignment, `evalLabel` returns a value `r` such that:
if `r` is TRUE the guard is true under every total valuation that agrees with
the assignment on the uncontrolled variables; if `r` is FALSE the guard is
false under every such valuation; and if every atomic proposition that occurs
in the guard, directly or through aliases, is uncontrolled, `r` is not
UNKNOWN. -/
theorem evalLabel_sound_two_valued (aliases : List Alias) (apIds : List Int)
    (value : Nat) (x : BTree) (hx : Resolves aliases x) (hnd : apIds.Nodup)
    (hlen : apIds.length < 32) :
    ∃ (r : Int) (N : Nat),
      (∀ fuel, N ≤ fuel → evalLabel fuel x aliases apIds value = some r) ∧
      (r = 1 → ∀ val, Agrees apIds value val →
        ∀ fuel, N ≤ fuel → evalBool fuel x aliases val = some true) ∧
      (r = -1 → ∀ val, Agrees apIds value val →
        ∀ fuel, N ≤ fuel → evalBool fuel x aliases val = some false) ∧
      ((∀ a, OccursAP aliases a x → a ∈ apIds) → r ≠ 0) := by
  obtain ⟨N, r, hr, -⟩ := resolves_evaluates apIds value hx
  have hall : ∀ fuel, N ≤ fuel → evalLabel fuel x aliases apIds value = some r :=
    fun fuel hf => evalLabel_mono aliases apIds value N x r hr fuel hf
  refine ⟨r, N, hall, ?_, ?_, ?_⟩
  · intro h1 val hag fuel hf
    obtain ⟨b, hb, hb1, -, -⟩ := evalLabel_sound hnd hlen hag hx fuel r (hall fuel hf)
    rw [hb, hb1 h1]
  · intro h1 val hag fuel hf
    obtain ⟨b, hb, -, hb2, -⟩ := evalLabel_sound hnd hlen hag hx fuel r (hall fuel hf)
    rw [hb, hb2 h1]
  · intro hocc h0
    rcases evalLabel_determined hx hocc N r hr with h | h <;> omega

theorem evalLabel_sound_two_valued_witness :
    ∃ (r : Int) (N : Nat),
      (∀ fuel, N ≤ fuel →
        evalLabel fuel (.and (.not (.ap 3)) (.aliasRef "c")) [⟨"c", .ap 5⟩] [3, 5] 2
          = some r) ∧
      (r = 1 → ∀ val, Agrees [3, 5] 2 val →
        ∀ fuel, N ≤ fuel →
          evalBool fuel (.and (.not (.ap 3)) (.aliasRef "c")) [⟨"c", .ap 5⟩] val
            = some true) ∧
      (r = -1 → ∀ val, Agrees [3, 5] 2 val →
        ∀ fuel, N ≤ fuel →
          evalBool fuel (.and (.not (.ap 3)) (.aliasRef "c")) [⟨"c", .ap 5⟩] val
            = some false) ∧
      ((∀ a, OccursAP [⟨"c", .ap 5⟩] a (.and (.not (.ap 3)) (.aliasRef "c")) → a ∈ [3, 5]) →
        r ≠ 0) :=
  evalLabel_sound_two_valued [⟨"c", .ap 5⟩] [3, 5] 2 (.and (.not (.ap 3)) (.aliasRef "c"))
    (.and (.not (.ap 3)) (.aliasRef (by decide) (.ap 5))) (by decide) (by decide)

/-! ## The block of a state -/

theorem stateLoop_blocks (fuel : Nat) (data : HoaData) (isMaxParity : Bool)
    (resGoodPriority : Int) (ucntAPs : List Int) (numValuations : Nat) :
    ∀ (sts : List State) (n pl : Nat) (S P F : List PGSVertex) (G : Game),
      stateLoop fuel data isMaxParity resGoodPriority ucntAPs numValuations
        sts n pl S P F = .ok G →
      ∃ newS newP newF : List PGSVertex,
        G.states = S ++ newS ∧ G.partVals = P ++ newP ∧ G.fullVals = F ++ newF ∧
        ∀ (i : Nat) (s : State), sts[i]? = some s →
          ∃ sv : PGSVertex, newS[i]? = some sv ∧ sv.id = s.id ∧
            sv.successors
              = ((List.range'
                  (n + ((sts.take i).map (fun t => numValuations
                    + ((List.range numValuations).map (fun w =>
                        (t.transitions.filter
                          (viable fuel data ucntAPs t w)).length)).sum)).sum)
                  numValuations).map Nat.cast).reverse ∧
            ∀ v, v < numValuations →
              ∃ pv : PGSVertex, newP[i * numValuations + v]? = some pv ∧
                PartFor fuel data isMaxParity resGoodPriority ucntAPs s
                  (n + ((sts.take i).map (fun t => numValuations
                    + ((List.range numValuations).map (fun w =>
                        (t.transitions.filter
                          (viable fuel data ucntAPs t w)).length)).sum)).sum)
                  v newF pv := by
  intro sts
  induction sts with
  | nil =>
    intro n pl S P F G h
    simp only [stateLoop, Except.ok.injEq] at h
    subst h
    exact ⟨[], [], [], by simp⟩
  | cons s0 rest ih =>
    intro n pl S P F G h
    rw [stateLoop] at h
    split at h
    · simp at h
    · rename_i hmax
      split at h
      · simp at h
      · rename_i n2 pl2 P2 F2 hvl
        have hcount := valLoop_count _ _ _ _ _ _ _ _ _ _ _ _ _ _ _ _ _ hvl
        obtain ⟨newPv, newFv, v1, v2, v3, v4, v5, v6, v7, v8, v9, v10⟩ :=
          valLoop_spec _ _ _ _ _ _ _ _ _ _ _ _ _ _ _ _ _ hvl
        obtain ⟨newS, newP, newF, s1, s2, s3, s4⟩ := ih _ _ _ _ _ _ h
        have hlenPv : newPv.length = numValuations := by
          have := congrArg List.length v5
          simpa using this
        have hlenFv : newFv.length = ((List.range numValuations).map (fun w =>
            (s0.transitions.filter (viable fuel data ucntAPs s0 w)).length)).sum := by
          rw [v2, List.length_append] at hcount
          rw [List.range_eq_range']
          omega
        subst v1 v2 v3
        refine ⟨{ id := s0.id, priority := 0, owner := 1,
                  successors := succLoop numValuations n [], name := s0.name } :: newS,
          newPv ++ newP, newFv ++ newF, by simp [s1], by simp [s2], by simp [s3], ?_⟩
        intro i s hi
        rcases i with _ | i
        · simp only [List.getElem?_cons_zero, Option.some.injEq] at hi
          subst hi
          refine ⟨{ id := s0.id, priority := 0, owner := 1,
                    successors := succLoop numValuations n [], name := s0.name },
            by simp, rfl, by simp [succLoop_eq], ?_⟩
          intro v hv
          have hvb : v < newPv.length := by omega
          obtain ⟨w, -, -, hP⟩ := v7 _ (List.getElem_mem hvb)
          have hid : (newPv[v]).id = ((n + v : Nat) : Int) := by
            have := congrArg (fun l => l[v]?) v5
            simp only [List.getElem?_map, List.getElem?_eq_getElem hvb, Option.map_some] at this
            rw [List.getElem?_range' _ _ hv] at this
            simpa using this
          have hw : w = v := by
            have := hP.1
            rw [hid] at this
            omega
          subst hw
          refine ⟨newPv[w], ?_, ?_⟩
          · simp [List.getElem?_append_left hvb, List.getElem?_eq_getElem hvb]
          · have := partFor_extend hP [] newF
            simpa using this
        · simp only [List.getElem?_cons_succ] at hi
          obtain ⟨sv, h1, h2, h3, h4⟩ := s4 i s hi
          have hstart : n + numValuations + newFv.length
                + ((rest.take i).map (fun t => numValuations
                    + ((List.range numValuations).map (fun w =>
                        (t.transitions.filter
                          (viable fuel data ucntAPs t w)).length)).sum)).sum
              = n + (((s0 :: rest).take (i + 1)).map (fun t => numValuations
                    + ((List.range numValuations).map (fun w =>
                        (t.transitions.filter
                          (viable fuel data ucntAPs t w)).length)).sum)).sum := by
            simp only [List.take_succ_cons, List.map_cons, List.sum_cons]
            omega
          rw [hstart] at h3 h4
          refine ⟨sv, by simpa using h1, h2, h3, ?_⟩
          intro v hv
          obtain ⟨pv, hp1, hp2⟩ := h4 v hv
          refine ⟨pv, ?_, ?_⟩
          · have hge : newPv.length ≤ (i + 1) * numValuations + v := by
              rw [hlenPv, Nat.succ_mul]
              omega
            rw [List.getElem?_append_right hge, ← hp1]
            congr 1
            rw [hlenPv, Nat.succ_mul]
            omega
          · have := partFor_extend hp2 newFv []
            simpa using this

theorem hoa2pg_blocks {fuel : Nat} {data : HoaData} {isMaxParity : Bool}
    {resGoodPriority : Int} {G : Game} {ucntAPs : List Int}
    (h : hoa2pg fuel data isMaxParity resGoodPriority = .ok G)
    (hu : computeUcntAPs data.noAPs data.cntAPs = .ok ucntAPs) :
    ∀ (i : Nat) (s : State), data.states[i]? = some s →
      ∃ sv : PGSVertex, G.states[i]? = some sv ∧ sv.id = s.id ∧
        sv.successors
          = ((List.range'
              (data.states.length + ((data.states.take i).map (fun t => 2 ^ ucntAPs.length
                + ((List.range (2 ^ ucntAPs.length)).map (fun w =>
                    (t.transitions.filter
                      (viable fuel data ucntAPs t w)).length)).sum)).sum)
              (2 ^ ucntAPs.length)).map Nat.cast).reverse ∧
        ∀ v, v < 2 ^ ucntAPs.length →
          ∃ pv : PGSVertex, G.partVals[i * 2 ^ ucntAPs.length + v]? = some pv ∧
            PartFor fuel data isMaxParity resGoodPriority ucntAPs s
              (data.states.length + ((data.states.take i).map (fun t => 2 ^ ucntAPs.length
                + ((List.range (2 ^ ucntAPs.length)).map (fun w =>
                    (t.transitions.filter
                      (viable fuel data ucntAPs t w)).length)).sum)).sum)
              v G.fullVals pv := by
  unfold hoa2pg at h
  rw [hu] at h
  simp only [] at h
  unfold buildGame at h
  split at h
  · simp at h
  · split at h
    · simp at h
    · split at h
      · simp at h
      · obtain ⟨newS, newP, newF, s1, s2, s3, s4⟩ :=
          stateLoop_blocks _ _ _ _ _ _ _ _ _ _ _ _ _ h
        simp only [List.nil_append] at s1 s2 s3
        rw [s1, s2, s3]
        exact s4

theorem block_ids {P : List PGSVertex} {a K firstSucc : Nat}
    (hall : ∀ v, v < K → ∃ pv : PGSVertex, P[a + v]? = some pv ∧
      pv.id = ((firstSucc + v : Nat) : Int)) :
    ((P.drop a).take K).map (fun x => x.id) = (List.range' firstSucc K).map Nat.cast := by
  apply List.ext_getElem?
  intro v
  by_cases hv : v < K
  · obtain ⟨pv, h1, h2⟩ := hall v hv
    rw [List.getElem?_map, List.getElem?_take_of_lt hv, List.getElem?_drop, h1,
      List.getElem?_map, List.getElem?_range' _ _ hv]
    simp [h2]
  · have h1 : ((P.drop a).take K).length ≤ v := by
      rw [List.length_take]
      omega
    rw [List.getElem?_eq_none (by simpa using h1), List.getElem?_eq_none (by simp; omega)]

/-- C9, counterexample: on `twoStates` (one uncontrolled variable) the
partial-assignment vertices of state 0 have the identifiers 2 and 3, and the
successor list of its state vertex is `[3, 2]`: decreasing, not of the form
`firstSucc, firstSucc + 1`. -/
theorem state_successors_not_increasing :
    ∃ G, hoa2pg 2 twoStates true 0 = .ok G ∧
      G.states.map (fun x => x.successors) = [[3, 2], [9, 8]] ∧
      G.partVals.map (fun x => x.id) = [2, 3, 8, 9] ∧
      ¬ ∀ sv ∈ G.states, ∃ firstSucc : Nat,
          sv.successors = (List.range' firstSucc (2 ^ 1)).map Nat.cast := by
  refine ⟨twoStatesGame, rfl, rfl, rfl, ?_⟩
  intro hall
  obtain ⟨fs, hfs⟩ := hall ⟨0, 1, 0, some "s0", [3, 2]⟩ (by simp [twoStatesGame])
  simp [List.range'] at hfs
  omega

/-- C9, amended: when the conversion succeeds, there are as many state vertices
as states and `2 ^ k` partial-assignment vertices for each of them; the state
vertex at position `i` is the vertex of the state `s` at position `i`; the
block of `s` is made of the `2 ^ k` records of `partVals` from position
`i * 2 ^ k` on, the record at offset `v` being the partial-assignment vertex
of `(s, v)` with the identifier `firstSucc + v`, where `firstSucc` is the value
of the counter `nextIndex` when the loop reaches `s` (the number of states,
plus `2 ^ k` and the number of full-assignment vertices minted for every
earlier state); and the successor list of the state vertex is the list of the
identifiers of this block in decreasing order, `firstSucc + 2 ^ k - 1`, ...,
`firstSucc`. -/
theorem hoa2pg_state_successors (fuel : Nat) (data : HoaData) (isMaxParity : Bool)
    (resGoodPriority : Int) (G : Game) (ucntAPs : List Int)
    (h : hoa2pg fuel data isMaxParity resGoodPriority = .ok G)
    (hu : computeUcntAPs data.noAPs data.cntAPs = .ok ucntAPs) :
    G.states.length = data.states.length ∧
    G.partVals.length = data.states.length * 2 ^ (data.noAPs - data.cntAPs.length) ∧
    ∀ (i : Nat) (s : State), data.states[i]? = some s →
      ∃ (sv : PGSVertex) (firstSucc : Nat),
        G.states[i]? = some sv ∧ sv.id = s.id ∧
        firstSucc = data.states.length + ((data.states.take i).map (fun t =>
          2 ^ (data.noAPs - data.cntAPs.length)
            + ((List.range (2 ^ (data.noAPs - data.cntAPs.length))).map (fun w =>
                (t.transitions.filter (viable fuel data ucntAPs t w)).length)).sum)).sum ∧
        (∀ v, v < 2 ^ (data.noAPs - data.cntAPs.length) →
          ∃ pv : PGSVertex,
            G.partVals[i * 2 ^ (data.noAPs - data.cntAPs.length) + v]? = some pv ∧
            pv.id = ((firstSucc + v : Nat) : Int) ∧
            PartFor fuel data isMaxParity resGoodPriority ucntAPs s firstSucc v
              G.fullVals pv) ∧
        ((G.partVals.drop (i * 2 ^ (data.noAPs - data.cntAPs.length))).take
            (2 ^ (data.noAPs - data.cntAPs.length))).map (fun x => x.id)
          = (List.range' firstSucc (2 ^ (data.noAPs - data.cntAPs.length))).map Nat.cast ∧
        sv.successors
          = (((G.partVals.drop (i * 2 ^ (data.noAPs - data.cntAPs.length))).take
              (2 ^ (data.noAPs - data.cntAPs.length))).map (fun x => x.id)).reverse ∧
        sv.successors
          = ((List.range' firstSucc
              (2 ^ (data.noAPs - data.cntAPs.length))).map Nat.cast).reverse := by
  have hk := computeUcntAPs_length hu
  rw [← hk]
  obtain ⟨u, hu1, -, -, -, -, hplen, -, hst, -, -, -, -⟩ := hoa2pg_spec h
  have hueq : ucntAPs = u := by
    rw [hu] at hu1
    exact Except.ok.inj hu1
  subst hueq
  refine ⟨hst.length_eq.symm, hplen, ?_⟩
  intro i s hi
  obtain ⟨sv, h1, h2, h3, h4⟩ := hoa2pg_blocks h hu i s hi
  have hall : ∀ v, v < 2 ^ ucntAPs.length →
      ∃ pv : PGSVertex, G.partVals[i * 2 ^ ucntAPs.length + v]? = some pv ∧
        pv.id = (((data.states.length + ((data.states.take i).map (fun t =>
          2 ^ ucntAPs.length
            + ((List.range (2 ^ ucntAPs.length)).map (fun w =>
                (t.transitions.filter (viable fuel data ucntAPs t w)).length)).sum)).sum)
          + v : Nat) : Int) := by
    intro v hv
    obtain ⟨pv, hp1, hp2⟩ := h4 v hv
    exact ⟨pv, hp1, hp2.1⟩
  have hids := block_ids hall
  refine ⟨sv, _, h1, h2, rfl, ?_, hids, by rw [hids, h3], h3⟩
  intro v hv
  obtain ⟨pv, hp1, hp2⟩ := h4 v hv
  exact ⟨pv, hp1, hp2.1, hp2⟩

theorem hoa2pg_state_successors_witness :
    hoa2pg 2 twoStates true 0 = .ok twoStatesGame ∧
    computeUcntAPs twoStates.noAPs twoStates.cntAPs = .ok [0] ∧
    twoStates.states[1]? = some ⟨1, none, none, none, [⟨some (.bool 1), some [0], [1]⟩]⟩ ∧
    twoStatesGame.states.length = twoStates.states.length ∧
    twoStatesGame.partVals.length
      = twoStates.states.length * 2 ^ (twoStates.noAPs - twoStates.cntAPs.length) ∧
    twoStates.states.length + ((twoStates.states.take 1).map (fun t =>
      2 ^ (twoStates.noAPs - twoStates.cntAPs.length)
        + ((List.range (2 ^ (twoStates.noAPs - twoStates.cntAPs.length))).map (fun w =>
            (t.transitions.filter (viable 2 twoStates [0] t w)).length)).sum)).sum = 8 ∧
    ∃ (sv : PGSVertex) (firstSucc : Nat),
      twoStatesGame.states[1]? = some sv ∧
      sv.id = (⟨1, none, none, none, [⟨some (.bool 1), some [0], [1]⟩]⟩ : State).id ∧
      firstSucc = twoStates.states.length + ((twoStates.states.take 1).map (fun t =>
        2 ^ (twoStates.noAPs - twoStates.cntAPs.length)
          + ((List.range (2 ^ (twoStates.noAPs - twoStates.cntAPs.length))).map (fun w =>
              (t.transitions.filter (viable 2 twoStates [0] t w)).length)).sum)).sum ∧
      (∀ v, v < 2 ^ (twoStates.noAPs - twoStates.cntAPs.length) →
        ∃ pv : PGSVertex,
          twoStatesGame.partVals[1 * 2 ^ (twoStates.noAPs - twoStates.cntAPs.length) + v]?
            = some pv ∧
          pv.id = ((firstSucc + v : Nat) : Int) ∧
          PartFor 2 twoStates true 0 [0]
            ⟨1, none, none, none, [⟨some (.bool 1), some [0], [1]⟩]⟩ firstSucc v
            twoStatesGame.fullVals pv) ∧
      ((twoStatesGame.partVals.drop
          (1 * 2 ^ (twoStates.noAPs - twoStates.cntAPs.length))).take
          (2 ^ (twoStates.noAPs - twoStates.cntAPs.length))).map (fun x => x.id)
        = (List.range' firstSucc
            (2 ^ (twoStates.noAPs - twoStates.cntAPs.length))).map Nat.cast ∧
      sv.successors
        = (((twoStatesGame.partVals.drop
            (1 * 2 ^ (twoStates.noAPs - twoStates.cntAPs.length))).take
            (2 ^ (twoStates.noAPs - twoStates.cntAPs.length))).map (fun x => x.id)).reverse ∧
      sv.successors
        = ((List.range' firstSucc
            (2 ^ (twoStates.noAPs - twoStates.cntAPs.length))).map Nat.cast).reverse :=
  ⟨rfl, rfl, rfl,
    (hoa2pg_state_successors 2 twoStates true 0 twoStatesGame [0] rfl rfl).1,
    (hoa2pg_state_successors 2 twoStates true 0 twoStatesGame [0] rfl rfl).2.1, rfl,
    (hoa2pg_state_successors 2 twoStates true 0 twoStatesGame [0] rfl rfl).2.2 1
      ⟨1, none, none, none, [⟨some (.bool 1), some [0], [1]⟩]⟩ rfl⟩

end Hoa2pg
